import Mathlib

set_option maxRecDepth 40000

/-!
Verification of the sentence segmenter and keyword sampler of
`lm_eval/tasks/ifeval_mt/instructions_util.py`.

The Python working text is a sequence of Unicode code points; we embed it as
`List Char`.  Every `re.sub`/`str.replace` pass of `split_into_sentences` is a
left-to-right, leftmost-match, non-overlapping rewrite: the scanner tries to
match at the current position; on success it emits the replacement and resumes
after the matched span, on failure it emits the current character and advances
by one.  The generic engine `rwF`/`rwRun` below implements exactly that
discipline, and each pass supplies a matcher (`tryHon`, `tryWeb`, ...) that is a
direct transcription of the corresponding regular expression, including the
order of its alternatives and the backtracking of its optional group.
-/

/-- Python whitespace (the set matched by `str.isspace` and by `\s` in a
Unicode pattern): ASCII whitespace, the C1 separators, and the Unicode space
characters. -/
def pyWs (c : Char) : Bool :=
  c = ' ' || c = '\t' || c = '\n' || c = '\r' || c = '\x0b' || c = '\x0c' ||
  c = '\x1c' || c = '\x1d' || c = '\x1e' || c = '\x1f' || c = '\x85' || c = '\xa0' ||
  c = ' ' || (' ' ≤ c && c ≤ ' ') || c = ' ' || c = ' ' ||
  c = ' ' || c = ' ' || c = '　'

/-- The character class `[A-Z]` of the Python regexes (ASCII only). -/
def isUpperAZ (c : Char) : Bool := 'A' ≤ c && c ≤ 'Z'

/-- The character class `[A-Za-z]` (`_ALPHABETS`) of the Python regexes. -/
def isAlphaAZ (c : Char) : Bool := ('A' ≤ c && c ≤ 'Z') || ('a' ≤ c && c ≤ 'z')

/-- The character class `[0-9]` (`_DIGITS`) of the Python regexes. -/
def isDigit09 (c : Char) : Bool := '0' ≤ c && c ≤ '9'

/-- Match a literal pattern at the head of the text; on success return the
remainder of the text. -/
def chomp : List Char → List Char → Option (List Char)
  | [], s => some s
  | _ :: _, [] => none
  | p :: ps, c :: cs => if p = c then chomp ps cs else none

/-- The protected-period marker `<prd>`. -/
def prdTok : List Char := ['<', 'p', 'r', 'd', '>']

/-- The confirmed-boundary marker `<stop>`. -/
def stopTok : List Char := ['<', 's', 't', 'o', 'p', '>']

/-- Fueled leftmost-rewrite engine.  `tr t` attempts a match at the head of
`t`; `some (out, n)` means the first `n` characters are consumed and replaced
by `out`.  The fuel is an upper bound on the number of scan steps; `rwRun`
supplies `length` fuel, which suffices for every matcher used here because
each match consumes at least one character. -/
def rwF (tr : List Char → Option (List Char × Nat)) : Nat → List Char → List Char
  | _, [] => []
  | 0, l => l
  | f + 1, c :: rest =>
    match tr (c :: rest) with
    | some (out, n) => out ++ rwF tr f (List.drop n (c :: rest))
    | none => c :: rwF tr f rest

/-- Run the rewrite engine over a whole text; this is the embedding of one
`re.sub(pattern, repl, text)` or `text.replace(pat, rep)` pass. -/
def rwRun (tr : List Char → Option (List Char × Nat)) (l : List Char) : List Char :=
  rwF tr l.length l

/-- Substring test, the embedding of Python's `pat in text`. -/
def hasSub (pat : List Char) : List Char → Bool
  | [] => (chomp pat []).isSome
  | c :: rest => (chomp pat (c :: rest)).isSome || hasSub pat rest

/-- Matcher for `text.replace(pat, rep)` with a fixed literal pattern. -/
def tryRep (pat rep : List Char) (t : List Char) : Option (List Char × Nat) :=
  match chomp pat t with
  | some _ => some (rep, pat.length)
  | none => none

/-- The alternatives of `_PREFIXES = "(Herra|St|Rouva|Neiti|Dr)[.]"`, in the
order the regex tries them. -/
def HONORIFICS : List (List Char) := ["Herra", "St", "Rouva", "Neiti", "Dr"].map String.data

/-- Matcher for a word-alternation followed by a literal period, replaced by
the word and a protected-period marker (`re.sub(_PREFIXES, "\\1<prd>", text)`).
If a word matches but the period does not, the regex backtracks to the next
alternative, as does this function. -/
def tryWordDot : List (List Char) → List Char → Option (List Char × Nat)
  | [], _ => none
  | w :: ws, t =>
    match chomp w t with
    | some r =>
      if r.head? = some '.' then some (w ++ prdTok, w.length + 1) else tryWordDot ws t
    | none => tryWordDot ws t

/-- Matcher of honorific-prefix pass 1. -/
def tryHon : List Char → Option (List Char × Nat) := tryWordDot HONORIFICS

/-- The alternatives of `_WEBSITES = "[.](com|net|org|io|gov|edu|me|fi|eu)"`. -/
def WEBS : List (List Char) := ["com", "net", "org", "io", "gov", "edu", "me", "fi", "eu"].map String.data

/-- Alternation part of the website matcher, tried after the leading period. -/
def tryWebAux : List (List Char) → List Char → Option (List Char × Nat)
  | [], _ => none
  | w :: ws, r =>
    if (chomp w r).isSome then some (prdTok ++ w, 1 + w.length) else tryWebAux ws r

/-- Matcher of the website pass (`re.sub(_WEBSITES, "<prd>\\1", text)`). -/
def tryWeb : List Char → Option (List Char × Nat)
  | '.' :: r => tryWebAux WEBS r
  | _ => none

/-- Matcher of the decimal pass
(`re.sub(_DIGITS + "[.]" + _DIGITS, "\\1<prd>\\2", text)`). -/
def tryDigits : List Char → Option (List Char × Nat)
  | d1 :: '.' :: d2 :: _ =>
    if isDigit09 d1 && isDigit09 d2 then some ([d1] ++ prdTok ++ [d2], 3) else none
  | _ => none

/-- Number of leading periods of the text. -/
def leadDots : List Char → Nat
  | '.' :: r => leadDots r + 1
  | _ => 0

/-- Matcher of the ellipsis pass: `\.{2,}` matched greedily, replaced by one
`<prd>` per period followed by one `<stop>` (the `lambda match` in the
source). -/
def tryDots : List Char → Option (List Char × Nat)
  | '.' :: '.' :: r =>
    some ((List.replicate (2 + leadDots r) prdTok).flatten ++ stopTok, 2 + leadDots r)
  | _ => none

/-- Matcher for the literal replacement of `"Ph.D."`. -/
def tryPhD (t : List Char) : Option (List Char × Nat) :=
  match chomp ("Ph.D.".data) t with
  | some _ => some ("Ph".data ++ prdTok ++ ['D'] ++ prdTok, 5)
  | none => none

/-- The `Ph.D.` pass, guarded as in the source by `if "Ph.D" in text`. -/
def subPhD (l : List Char) : List Char :=
  if hasSub "Ph.D".data l then rwRun tryPhD l else l

/-- Matcher of the single-letter pass
(`re.sub(r"\s" + _ALPHABETS + "[.] ", " \\1<prd> ", text)`); note the matched
whitespace character is replaced by a plain space and the trailing space in the
pattern is a literal space. -/
def tryInitials : List Char → Option (List Char × Nat)
  | w :: a :: '.' :: ' ' :: _ =>
    if pyWs w && isAlphaAZ a then some ([' ', a] ++ prdTok ++ [' '], 4) else none
  | _ => none

/-- The alternatives of `_STARTERS`, in regex order; the boolean records
whether the alternative ends in `\s` (and hence must also consume one
whitespace character, which is part of the captured group). -/
def STARTERS : List (List Char × Bool) :=
  [("Herra", false), ("Rouva", false), ("Neiti", false), ("Tohtori", false),
   ("Profi", false), ("Kapteeni", false), ("Kpt", false), ("Luttn", false),
   ("Hän", true), ("Se", true), ("He", true), ("Heidän", true), ("Meidän", false),
   ("Me", true), ("Mutta", true), ("Kuitenkin", true), ("Tämä", true),
   ("Missä tahansa", false)].map (fun p => (p.1.data, p.2))

/-- Match the starter alternation; on success return the text captured by the
group (the word, plus its trailing whitespace character when the alternative
ends in `\s`).  A failing alternative falls through to the next one. -/
def matchStarter : List (List Char × Bool) → List Char → Option (List Char)
  | [], _ => none
  | (w, needWs) :: ws, t =>
    match chomp w t with
    | some r =>
      if needWs then
        match r with
        | c :: _ => if pyWs c then some (w ++ [c]) else matchStarter ws t
        | [] => matchStarter ws t
      else some w
    | none => matchStarter ws t

/-- Two-letter fallback of the acronym matcher: the optional `(?:[A-Z][.])?`
group matched empty, so the literal space and the starter must follow the
second period directly. -/
def tryAcro2 (a b : Char) (rest : List Char) : Option (List Char × Nat) :=
  match rest with
  | ' ' :: r3 =>
    match matchStarter STARTERS r3 with
    | some st => some ([a, '.', b, '.'] ++ stopTok ++ [' '] ++ st, 5 + st.length)
    | none => none
  | _ => none

/-- Matcher of the acronym-before-starter pass
(`re.sub(_ACRONYMS + " " + _STARTERS, "\\1<stop> \\2", text)`).  The greedy
optional third letter is tried first; if the rest of the pattern then fails,
the regex backtracks to the two-letter acronym. -/
def tryAcro : List Char → Option (List Char × Nat)
  | a :: '.' :: b :: '.' :: rest =>
    if isUpperAZ a && isUpperAZ b then
      match rest with
      | c :: '.' :: ' ' :: r3 =>
        if isUpperAZ c then
          match matchStarter STARTERS r3 with
          | some st => some ([a, '.', b, '.', c, '.'] ++ stopTok ++ [' '] ++ st, 7 + st.length)
          | none => tryAcro2 a b rest
        else tryAcro2 a b rest
      | _ => tryAcro2 a b rest
    else none
  | _ => none

/-- Matcher of the three-letter abbreviation-chain pass. -/
def tryThree : List Char → Option (List Char × Nat)
  | a :: '.' :: b :: '.' :: c :: '.' :: _ =>
    if isAlphaAZ a && isAlphaAZ b && isAlphaAZ c then
      some ([a] ++ prdTok ++ [b] ++ prdTok ++ [c] ++ prdTok, 6)
    else none
  | _ => none

/-- Matcher of the two-letter abbreviation-chain pass. -/
def tryTwo : List Char → Option (List Char × Nat)
  | a :: '.' :: b :: '.' :: _ =>
    if isAlphaAZ a && isAlphaAZ b then some ([a] ++ prdTok ++ [b] ++ prdTok, 4) else none
  | _ => none

/-- The alternatives of `_SUFFIXES = "(Inc|Ltd|Jr|Sr|Co|Oy)"`. -/
def SUFS : List (List Char) := ["Inc", "Ltd", "Jr", "Sr", "Co", "Oy"].map String.data

/-- Alternation part of the suffix-before-starter matcher.  Note the
replacement `" \\1<stop> \\2"` drops the matched period. -/
def trySufStartAux : List (List Char) → List Char → Option (List Char × Nat)
  | [], _ => none
  | w :: ws, r =>
    match chomp w r with
    | some ('.' :: ' ' :: r3) =>
      match matchStarter STARTERS r3 with
      | some st => some ([' '] ++ w ++ stopTok ++ [' '] ++ st, 3 + w.length + st.length)
      | none => trySufStartAux ws r
    | some _ => trySufStartAux ws r
    | none => trySufStartAux ws r

/-- Matcher of the suffix-before-starter pass
(`re.sub(" " + _SUFFIXES + "[.] " + _STARTERS, " \\1<stop> \\2", text)`). -/
def trySufStart : List Char → Option (List Char × Nat)
  | ' ' :: r => trySufStartAux SUFS r
  | _ => none

/-- Alternation part of the plain suffix matcher. -/
def trySufAux : List (List Char) → List Char → Option (List Char × Nat)
  | [], _ => none
  | w :: ws, r =>
    match chomp w r with
    | some ('.' :: _) => some ([' '] ++ w ++ prdTok, w.length + 2)
    | some _ => trySufAux ws r
    | none => trySufAux ws r

/-- Matcher of the plain suffix pass
(`re.sub(" " + _SUFFIXES + "[.]", " \\1<prd>", text)`). -/
def trySuf : List Char → Option (List Char × Nat)
  | ' ' :: r => trySufAux SUFS r
  | _ => none

/-- Matcher of the final single-letter pass
(`re.sub(" " + _ALPHABETS + "[.]", " \\1<prd>", text)`). -/
def tryCap : List Char → Option (List Char × Nat)
  | ' ' :: a :: '.' :: _ => if isAlphaAZ a then some ([' ', a] ++ prdTok, 3) else none
  | _ => none

/-- Curly-quote pass: `if "”" in text: text = text.replace(".”", "”.")`. -/
def subQuote1 (l : List Char) : List Char :=
  if hasSub "”".data l then rwRun (tryRep ".”".data "”.".data) l else l

/-- Straight-quote period pass: `if '"' in text: text = text.replace('."', '".')`. -/
def subQuote2 (l : List Char) : List Char :=
  if hasSub "\"".data l then rwRun (tryRep ".\"".data "\".".data) l else l

/-- Straight-quote bang pass: `if "!" in text: text = text.replace('!"', '"!')`. -/
def subBang (l : List Char) : List Char :=
  if hasSub "!".data l then rwRun (tryRep "!\"".data "\"!".data) l else l

/-- Straight-quote question pass: `if "?" in text: text = text.replace('?"', '"?')`. -/
def subQn (l : List Char) : List Char :=
  if hasSub "?".data l then rwRun (tryRep "?\"".data "\"?".data) l else l

/-- The quote-normalization stage: the four guarded replaces applied in source
order (curly-quote period, straight-quote period, straight-quote bang,
straight-quote question mark). -/
def quoteStage (l : List Char) : List Char := subQn (subBang (subQuote2 (subQuote1 l)))

/-- The newline replacement `text.replace("\n", " ")`. -/
def subNewline (l : List Char) : List Char := rwRun (tryRep ['\n'] [' ']) l

/-- Pointwise form of the newline replacement (the pattern is a single
character, so the scan is a map). -/
def nlFun (c : Char) : Char := if c = '\n' then ' ' else c

/-- The padding `text = " " + text + "  "`. -/
def padText (l : List Char) : List Char := ' ' :: (l ++ [' ', ' '])

/-- Boundary marking of remaining periods: `text.replace(".", ".<stop>")`. -/
def subStopDot (l : List Char) : List Char := rwRun (tryRep ['.'] ('.' :: stopTok)) l

/-- Boundary marking of question marks: `text.replace("?", "?<stop>")`. -/
def subStopQn (l : List Char) : List Char := rwRun (tryRep ['?'] ('?' :: stopTok)) l

/-- Boundary marking of exclamation marks: `text.replace("!", "!<stop>")`. -/
def subStopBang (l : List Char) : List Char := rwRun (tryRep ['!'] ('!' :: stopTok)) l

/-- Restoration of protected periods: `text.replace("<prd>", ".")`. -/
def subRestore (l : List Char) : List Char := rwRun (tryRep prdTok ['.']) l

/-- The split `text.split("<stop>")`.  Because `<stop>` cannot overlap itself
(no proper suffix of it is a prefix of it), the left-to-right non-overlapping
scan of Python's `str.split` splits at exactly the positions where `<stop>`
occurs, which is what this recursion computes. -/
def splitStop : List Char → List (List Char)
  | [] => [[]]
  | '<' :: 's' :: 't' :: 'o' :: 'p' :: '>' :: rest => [] :: splitStop rest
  | c :: rest =>
    match splitStop rest with
    | [] => [[c]]
    | p :: ps => (c :: p) :: ps

/-- Python `str.strip()`: drop leading and trailing whitespace. -/
def pyStrip (l : List Char) : List Char :=
  ((l.dropWhile pyWs).reverse.dropWhile pyWs).reverse

/-- The final fix-up `if sentences and not sentences[-1]: sentences = sentences[:-1]`. -/
def dropLastEmpty (ss : List (List Char)) : List (List Char) :=
  match ss.getLast? with
  | some p => if p = [] then ss.dropLast else ss
  | none => ss

/-- The working text after padding and newline replacement. -/
def markPre (l : List Char) : List Char := subNewline (padText l)

/-- The working text just before the suffix-before-starter pass: padding,
newline replacement, and the honorific, website, decimal, ellipsis, `Ph.D.`,
single-letter, acronym-starter, three-letter and two-letter passes, in source
order. -/
def preSufText (l : List Char) : List Char :=
  rwRun tryTwo (rwRun tryThree (rwRun tryAcro (rwRun tryInitials (subPhD
    (rwRun tryDots (rwRun tryDigits (rwRun tryWeb (rwRun tryHon (markPre l)))))))))

/-- The fully marked working text: all substitution passes applied and the
protected periods restored, ready to be split on `<stop>`. -/
def markedText (l : List Char) : List Char :=
  subRestore (subStopBang (subStopQn (subStopDot (quoteStage
    (rwRun tryCap (rwRun trySuf (rwRun trySufStart (preSufText l))))))))

/-- The sentence list produced from a character list: split on `<stop>`,
strip every piece, and drop a trailing empty piece. -/
def segPipe (l : List Char) : List (List Char) :=
  dropLastEmpty ((splitStop (markedText l)).map pyStrip)

/-- Embedding of `split_into_sentences(text)`. -/
def split_into_sentences (text : String) : List String :=
  (segPipe text.data).map String.mk

/-- Marker-wholeness: the working text parses as a sequence of plain
characters and whole marker tokens, i.e. every occurrence of the character
`<` begins a complete `<prd>` or `<stop>` marker.  All intermediate texts of
the cascade have this shape when the input itself contains no `<`. -/
inductive MW : List Char → Prop
  | nil : MW []
  | chr {c : Char} {rest : List Char} : c ≠ '<' → MW rest → MW (c :: rest)
  | prd {rest : List Char} : MW rest → MW (prdTok ++ rest)
  | stop {rest : List Char} : MW rest → MW (stopTok ++ rest)

/-- Stop-only wholeness: as `MW` but with no protected-period marker left;
the shape of the text after the restoration pass. -/
inductive SW : List Char → Prop
  | nil : SW []
  | chr {c : Char} {rest : List Char} : c ≠ '<' → SW rest → SW (c :: rest)
  | stop {rest : List Char} : SW rest → SW (stopTok ++ rest)

/-- The content of a working text: whitespace dropped, each protected-period
marker read back as a period, each boundary marker dropped.  Every pass of
the cascade preserves this content (except the corporate-suffix-before-
starter pass, which deletes a period, and the quote swaps, which reorder). -/
def phi : List Char → List Char
  | [] => []
  | c :: rest =>
    if c = '<' then
      match rest with
      | 'p' :: 'r' :: 'd' :: '>' :: r2 => '.' :: phi r2
      | 's' :: 't' :: 'o' :: 'p' :: '>' :: r2 => phi r2
      | _ => c :: rest
    else if pyWs c then phi rest else c :: phi rest

/-- The non-whitespace content of a plain text. -/
def nonWs (l : List Char) : List Char := l.filter (fun c => !pyWs c)

/-- The proper suffixes of the two marker tokens: no matcher of the cascade
can match at a position strictly inside a marker, because every pattern
either requires `<` first or requires a period, quote or whitespace that the
marker tails do not provide. -/
def innerHeads : List (List Char) :=
  ["prd>", "rd>", "d>", ">", "stop>", "top>", "op>", "p>"].map String.data

/-- Characters that replacement templates may introduce beyond characters
copied from the matched span: the marker characters, the period and the
space.  No quote character and no newline is among them. -/
def tmplChars : List Char := "<prdsto>. ".data

/-- Join sentences with single spaces (the re-joining of the restoration
claim). -/
def joinWithSpaces : List (List Char) → List Char
  | [] => []
  | [x] => x
  | x :: xs => x ++ ' ' :: joinWithSpaces xs

/-- The fixed word list `WORD_LIST` of the source (1525 entries; note the
list is not duplicate-free, e.g. entries 39 and 58 are both "asia"). -/
def WORD_LIST : List String := [
  "länsimainen", "tuomita", "signaali", "kaatopaikka", "paikalla", "vastapäätä", "pohja",
  "peruna", "hallinto", "työskentelee", "tervetuloa", "aamu", "hyvä", "virasto", "ensisijainen",
  "toivoa", "vastuuta", "paina", "ongelma", "presidentti", "varastaa", "harjata", "lukea",
  "tyyppi", "lyödä", "kouluttaja", "kasvu", "lukko", "luuta", "tapaus", "yhtäläinen", "mukava",
  "alueella", "korvaaminen", "suorituskykyä", "kaveri", "kävellä", "lääke", "elokuva", "asia",
  "rock", "napauta", "kokonais-", "kilpailua", "helppous", "etelään", "perustaminen", "kerätä",
  "pysäköinti", "maailman-", "paljon", "hengitys", "väittää", "alkoholia", "kauppaa", "rakas",
  "kohokohta", "katu", "asia", "päätös", "sotku", "sopimus", "studio", "valmentaja", "auttaa",
  "aivot", "siipi", "tyyli", "yksityinen", "alkuun", "ruskea", "jalka", "ostaa", "menettelyä",
  "menetelmä", "nopeus", "korkea", "yritys", "arvokasta", "piirakka", "analyytikko", "istunto",
  "kuvio", "piiri", "ilo", "päivällinen", "uima", "vitsi", "tilata", "levy", "osasto",
  "moottori", "solu", "viettää", "kaappi", "ero", "tehoa", "tutkimus", "moottori", "hevonen",
  "ulottuvuus", "maksaa", "varvas", "käyrä", "kirjallisuus", "vaivautua", "palo", "mahdollisuus",
  "keskustelu", "toimintaa", "kulku", "Hei", "sykli", "tausta", "hiljainen", "kirjoittaja",
  "vaikutus", "näyttelijä", "sivu", "polkupyörä", "virhe", "kurkku", "hyökkäys", "merkki",
  "puhelin", "teetä", "lisätä", "tulokset", "tiedosto", "erityisiä", "tarkastaja", "sisäinen",
  "potentiaalia", "henkilöstöä", "rakentaminen", "työnantaja", "kenkä", "käsi", "suunta",
  "puutarha", "ostaa", "haastatella", "opiskella", "tunnustaminen", "jäsen", "henkistä", "uuni",
  "voileipä", "outo", "matkustaja", "erityisesti", "vastaus", "reaktio", "koko", "vaihtelua",
  "a", "peruuttaa", "karkkia", "poistu", "vieras", "kunto", "lentää", "hinta", "heikkous",
  "muuntaa", "hotelli", "hienoa", "suuhun", "mieleen", "laulu", "sokeria", "epäilty", "puhelin",
  "korva", "katto", "maali", "jääkaappi", "organisaatio", "tuomaristo", "palkita", "suunnittelu",
  "päivä", "hallinta", "miehistö", "baari", "tie", "kuvaus", "juhla", "pisteet", "merkki",
  "kirje", "suihku", "ehdotus", "sir", "onnea", "kansallinen", "edistystä", "sali",
  "aivohalvaus", "teoria", "tarjous", "tarina", "verottaa", "määritelmä", "historia",
  "ratsastaa", "keskikokoinen", "avaaminen", "lasi", "Hissi", "vatsa", "kysymys", "kyky",
  "johtava", "kylä", "tietokone", "kaupunki", "suuri", "luottamusta", "kynttilä", "pappi",
  "suositus", "kohta", "tarpeellista", "kehon", "vastaanotto", "salaisuus", "kauhu", "melua",
  "kulttuuri", "Varoitus", "vettä", "pyöristää", "ruokavalio", "kukka", "linja-auto", "kova",
  "lupa", "viikko", "kehote", "yhteys", "väärinkäyttö", "korkeus", "tallentaa", "nurkkaan",
  "rajaa", "korostaa", "ajaa", "stop", "repiä", "ateria", "kuunnella", "hämmennystä",
  "tyttöystävä", "elävät", "suhde", "merkitys", "suunnitelma", "luova", "tunnelmaa", "syyttää",
  "kutsua", "asuminen", "paperia", "juoda", "rullaa", "hopea", "humalassa", "ikä",
  "vahingoittaa", "savu", "ympäristöön", "pakata", "säästöjä", "vaikutus", "turisti", "sade",
  "lähettää", "merkki", "isoäiti", "juosta", "voittoa", "työnnä", "virkailija", "lopullinen",
  "viiniä", "uida", "tauko", "tavaraa", "laulaja", "hautajaiset", "keskimäärin", "lähde",
  "näkymä", "perinne", "henkilökohtainen", "lumi", "kukaan", "etäisyys", "järjestellä", "herkkä",
  "eläin", "pääaine", "neuvottelu", "napsauta", "mielialaa", "ajanjaksoa", "saapuminen",
  "ilmaisua", "loma", "toistaa", "pöly", "vaatekaappi", "kulta", "huono", "purjehtia",
  "yhdistelmä", "vaatteet", "painotus", "velvollisuus", "musta", "askel", "kouluun", "hypätä",
  "asiakirja", "ammattilainen", "huuli", "kemiallinen", "edessä", "herätä", "samalla kun",
  "sisällä", "katsella", "rivi", "aihe", "rangaistus", "saldo", "mahdollista", "aikuinen",
  "sivuun", "näyte", "valittaa", "häät", "syvyys", "kuningas", "myöntää", "vaimo", "isku",
  "sivusto", "leiri", "musiikkia", "turvallinen", "lahja", "vika", "arvaus", "toimia", "häpeä",
  "draama", "pääomaa", "tentti", "tyhmä", "tallentaa", "ääni", "swing", "romaani", "minimi",
  "suhde", "kone", "muoto", "johtaa", "toimintaa", "palkkaa", "pilvi", "asia", "osuma", "luku",
  "vaiheessa", "määrä", "pääsy", "armeija", "ketju", "liikennettä", "potkia", "analyysi",
  "lentokenttä", "aika", "loma", "filosofia", "pallo", "rinnassa", "Kiitos", "paikka", "vuori",
  "mainonta", "punainen", "mennyt", "vuokrata", "palata", "kiertue", "talo", "rakentaminen",
  "net", "syntyperäinen", "sota", "kuva", "maksu", "spray", "käyttäjä", "lika", "ammuttu",
  "tehtävä", "keppi", "ystävä", "ohjelmisto", "edistäminen", "vuorovaikutusta", "surround",
  "lohko", "tarkoitus", "harjoitella", "konflikti", "rutiini", "vaatimus", "bonus", "reikä",
  "osavaltio", "juniori", "makea", "saalis", "repiä", "taita", "seinään", "toimittaja", "elämää",
  "asema", "punta", "kunnioittaminen", "kylpyhuone", "takki", "käsikirjoitus", "job", "opettaa",
  "syntymästä", "näkymä", "ratkaista", "teema", "työntekijä", "epäillä", "markkinoida",
  "koulutus", "palvella", "toipua", "sävy", "vahingoittaa", "neiti", "liitto", "ymmärtäminen",
  "lehmä", "joki", "yhdistys", "käsite", "koulutusta", "resepti", "suhdetta", "varata",
  "masennus", "todiste", "hiukset", "tuloja", "riippumaton", "hissi", "toimeksianto",
  "väliaikaista", "määrä", "menetys", "reuna", "seurata", "tarkista", "köysi", "arvio",
  "saastuminen", "vakaa", "viesti", "toimitus", "näkökulmasta", "peili", "avustaja", "edustaja",
  "todistaja", "luonto", "tuomari", "hedelmää", "kärki", "paholainen", "kaupunki",
  "hätätilanteessa", "ylempi", "pudota", "pysyä", "ihmisen", "kaula", "puhuja", "verkkoon",
  "laulaa", "vastustaa", "liigassa", "matka", "allekirjoitus", "lakimies", "merkitys", "kaasua",
  "valinta", "insinööri", "menestys", "osa", "ulkoinen", "työntekijä", "yksinkertainen",
  "neljännes", "opiskelija", "sydän", "syöttö", "paheksuntaa", "siirtää", "karkea", "nainen",
  "ruoho", "yhteisöä", "autotalli", "nuoriso", "standardi", "hame", "lupaus", "sokea",
  "televisio", "sairaus", "komissio", "positiivinen", "energiaa", "rauhallinen", "läsnäolo",
  "virittää", "perusteella", "etusija", "pää", "yleinen", "leikata", "jonnekin", "esittely",
  "nykyinen", "ajatteli", "vallankumous", "vaivaa", "hallita", "toteuttaa", "tasavalta",
  "kerros", "periaate", "muukalainen", "olkapää", "luokka", "painiketta", "tennis", "valvoa",
  "kokoelma", "tili", "rekisteröidy", "käsine", "jakaa", "professori", "tuoli", "etusijalla",
  "yhdistää", "rauhaa", "laajennus", "ehkä", "ilta", "kehys", "sisko", "aalto", "koodi",
  "sovellus", "hiiri", "ottelu", "laskuri", "pullo", "puoli", "poski", "resoluutio", "takaisin",
  "tietoa", "tehdä", "keskustelua", "ruuvi", "pituus", "onnettomuus", "taistelu", "pukeutua",
  "polvi", "loki", "paketti", "se", "käännä", "kuulo", "sanomalehti", "kerros", "varallisuus",
  "profiili", "mielikuvitus", "vastaus", "viikonloppu", "opettaja", "ulkonäkö", "tavata",
  "pyörä", "nousta", "vyö", "kaatua", "kulho", "vastaava", "tukea", "kuva", "runo", "riskiä",
  "jännitystä", "kaukana", "sihteeri", "julkinen", "tuottaa", "kone", "näyttö", "rahaa",
  "hiekka", "tilanne", "booli", "asiakas", "otsikko", "ravista", "kiinnitys", "vaihtoehto",
  "määrä", "pop", "ikkuna", "laajuus", "ei mitään", "kokea", "lausunto", "lähtöä", "tanssi",
  "osoitus", "poika", "materiaalia", "bändi", "johtaja", "aurinko", "kaunis", "lihas",
  "maanviljelijä", "lajike", "rasvaa", "kahva", "johtaja", "mahdollisuus", "kalenteri",
  "ulkopuolella", "vauhti", "kylpy", "kalastaa", "seurauksena", "laittaa", "omistaja", "mennä",
  "lääkäri", "tiedot", "jakaa", "satuttaa", "suojaa", "ura", "rahoitusta", "pakottaa", "golf",
  "roskat", "näkökohta", "lapsi", "ruokaa", "boot", "maitoa", "vastata", "tavoite",
  "todellisuutta", "raaka", "rengas", "ostoskeskus", "yksi", "vaikutus", "alueella", "uutiset",
  "kansainvälinen", "sarja", "tehdä", "äiti", "suojaa", "lakko", "lainata", "kuukausi", "istuin",
  "mitään", "viihde", "tuttua", "vihje", "vuosi", "iloinen", "supermarket", "luonnollinen",
  "jumala", "maksaa", "keskustelu", "solmio", "pilata", "mukavuus", "maata", "myrsky",
  "prosentteina", "apua", "budjetti", "vahvuus", "alku", "nukkua", "muu", "nuori", "yksikkö",
  "täyttää", "tallentaa", "halu", "piilottaa", "arvo", "kuppi", "huolto", "sairaanhoitaja",
  "toiminto", "torni", "rooli", "luokkaa", "kamera", "tietokanta", "paniikki", "kansakunta",
  "kori", "jäätä", "taide", "henki", "kartoittaa", "vaihtaa", "palautetta", "lausunto", "maine",
  "haku", "metsästää", "käyttää", "ilkeä", "huomautus", "uros", "piha", "vuosittain", "kaulus",
  "päivämäärä", "alusta", "kasvi", "onni", "intohimo", "ystävyys", "levitän", "syöpä", "lippu",
  "asenne", "saari", "aktiivinen", "esine", "palvelua", "ostaja", "purra", "kortti", "kasvot",
  "pihvi", "ehdotus", "kärsivällinen", "lämpöä", "sääntö", "asukas", "laaja", "politiikka",
  "länteen", "veitsi", "asiantuntija", "tyttö", "design", "suolaa", "baseball", "napata",
  "tarkastus", "serkku", "pari", "lehti", "kokki", "riippuvainen", "turvallisuus", "kana",
  "versio", "valuutta", "tikapuut", "järjestelmä", "keittiö", "työllisyyttä", "paikallinen",
  "Huomio", "johtaja", "tosiasia", "kansi", "surullinen", "vartija", "suhteellinen", "lääni",
  "korko", "lounas", "ohjelmoida", "aloite", "vaihde", "silta", "rinta", "puhua", "ruokalaji",
  "takuu", "olut", "ajoneuvoa", "vastaanotto", "nainen", "aine", "kopioida", "luento", "etu",
  "pysäköidä", "kylmä", "kuolema", "sekoita", "pidä", "mittakaavassa", "huomenna", "verta",
  "pyytää", "vihreä", "evästeen", "kirkko", "nauhat", "ikuisesti", "pidemmälle", "velkaa",
  "puuttua", "pestä", "jälkeen", "tuntea", "maksimi", "alalla", "meri", "omaisuutta",
  "taloustiede", "valikosta", "penkki", "yrittää", "kieli", "aloita", "soittaa", "kiinteä",
  "osoite", "tulot", "jalka", "vanhempi", "hunaja", "muutama", "seos", "käteistä",
  "päivittäistavarakauppa", "linkki", "kartta", "muodossa", "tekijä", "potti", "malli",
  "kirjailija", "maatilalla", "talvi", "taito", "missä", "syntymäpäivä", "politiikkaa",
  "vapauttaa", "aviomies", "lab", "kiire", "postia", "laitteet", "pesuallas", "pari",
  "kuljettaja", "huomioon", "nahka", "ihoa", "sininen", "vene", "myyntiin", "tiili", "kaksi",
  "syöttää", "neliö", "piste", "kiire", "unelma", "sijainti", "iltapäivällä", "valmistaja",
  "ohjata", "tilaisuus", "ongelmia", "esittely", "neuvoja", "veto", "syödä", "tappaa",
  "luokkaan", "tavalla", "toimisto", "kiinteistö", "ylpeys", "tietoisuutta", "lipsahdus",
  "crack", "asiakas", "naulata", "ampua", "jäsenyys", "pehmeä", "ketään", "web", "virallinen",
  "yksilöllinen", "pizza", "kiinnostaa", "laukku", "loitsu", "ammatti", "kuningatar", "sopimus",
  "resurssi", "laiva", "kaveri", "suklaa", "liitos", "muodollinen", "yläkerrassa", "auto",
  "lomakohde", "ulkomailla", "jälleenmyyjä", "liittolainen", "sormi", "leikkaus", "kommentti",
  "joukkue", "yksityiskohta", "hullu", "polku", "tarina", "ensimmäinen", "käsivarsi", "radio",
  "kysyntä", "sinkku", "piirtää", "keltainen", "kilpailu", "pala", "lainata", "Vedä",
  "kaupallinen", "paita", "panos", "kerma", "kanava", "puku", "kurinalaisuutta", "ohje",
  "konsertti", "puhetta", "matala", "tehokas", "ripustaa", "naarmuuntua", "teollisuus",
  "aamiainen", "antaa", "liittyä", "metalli", "makuuhuone", "minuutti", "tuote", "levätä",
  "lämpötila", "monet", "antaa", "argumentti", "painaa", "violetti", "nauraa", "terveys",
  "luotto", "investointi", "myydä", "asetusta", "oppitunti", "muna", "keskellä", "avioliitto",
  "taso", "todisteita", "lause", "rakkaus", "itse", "hyötyä", "opastusta", "vaikuttaa", "sinä",
  "isä", "ahdistusta", "erityistä", "poikaystävä", "testata", "tyhjä", "maksu", "keitto",
  "velvollisuus", "vastata", "hymy", "syvä", "valitus", "lisäys", "arvostelu", "laatikko",
  "pyyhe", "alaikäinen", "hauskaa", "maaperää", "antaa", "savuke", "netti", "saada", "kertoa",
  "sisääntulo", "varaa", "tapaus", "perhe", "kieltäytyä", "haara", "voi", "kynä", "isoisä",
  "vakio", "säiliö", "setä", "ilmasto", "maahan", "äänenvoimakkuutta", "viestintää", "kiltti",
  "runoilija", "lapsi", "näyttö", "minun", "lopettaa", "geeni", "puute", "hyväntekeväisyys",
  "muisti", "hammas", "pelko", "mainita", "markkinointi", "paljastaa", "syy", "tuomioistuin",
  "kausi", "vapautta", "maa", "urheilu", "yleisö", "luokkahuoneessa", "lakia", "koukku",
  "voittaa", "kantaa", "silmä", "haju", "jakelu", "tutkimusta", "maassa", "uskaltaa", "toivoa",
  "kun", "venyttää", "kirjasto", "jos", "viive", "college", "muovi", "kirja", "esittää",
  "käyttää", "huoli", "mestari", "tavoite", "taloutta", "maaliskuuta", "vaaleissa", "heijastus",
  "keskiyöllä", "liukumäki", "inflaatio", "toimintaa", "haaste", "kitara", "rannikolla", "omena",
  "kampanja", "ala", "takki", "järkeä", "tapa", "visuaalinen", "poistaa", "sää", "roskakoriin",
  "kaapeli", "katumusta", "kaveri", "ranta", "historioitsija", "rohkeutta", "myötätuntoa",
  "kuorma-auto", "jännitystä", "lupa", "nenä", "vuode", "poika", "henkilö", "pohja", "liha",
  "tavallista", "ilmaa", "kokous", "arvoinen", "peli", "itsenäisyys", "fyysistä", "lyhyt",
  "pelata", "nostaa", "hallitus", "hän", "avain", "kirjoittaminen", "valita", "komento",
  "juhliin", "eilen", "kevät", "ehdokas", "fysiikka", "yliopisto", "koskea", "kehitystä",
  "muuttaa", "merkkijono", "tavoite", "esimerkki", "huone", "katkera", "lintu", "jalkapallo",
  "normaali", "jakaa", "vaikutelma", "puu", "pitkä", "merkitys", "varastossa", "korkki",
  "johtajuutta", "media", "kunnianhimoa", "kalastus", "essee", "salaatti", "korjaus", "tänään",
  "suunnittelija", "yö", "pankki", "piirustus", "väistämätön", "vaihe", "laaja", "siru",
  "suututtaa", "kytkin", "itkeä", "kierre", "persoonallisuus", "yrittää", "varastointi",
  "oleminen", "valmistelu", "bat", "valinta", "valkoinen", "teknologiaa", "sopimus", "puolella",
  "osio", "asemalle", "asti", "rakenne", "kieli", "maku", "totuus", "vaikeus", "ryhmä",
  "rajoittaa", "pää", "liikkua", "tunne", "valoa", "esimerkki", "tehtävää", "saattaa", "odota",
  "pyörä", "kauppa", "isäntä", "klassinen", "vaihtoehto", "aiheuttaa", "agentti", "koostuvat",
  "taulukko", "lentoyhtiö", "teksti", "allas", "käsityö", "alue", "polttoainetta", "työkalu",
  "kumppani", "ladata", "sisäänkäynti", "tallettaa", "vihaa", "artikla", "video", "kesä",
  "ominaisuus", "äärimmäinen", "mobiili", "sairaala", "lento", "syksy", "eläkettä", "piano",
  "epäonnistua", "tulos", "hieroa", "aukko", "järjestelmä", "raportti", "imeä", "tavallinen",
  "tuuli", "hermo", "kysyä", "loistaa", "huomautus", "linja", "äiti", "käsitys", "veli", "viite",
  "mutka", "veloittaa", "hoitaa", "temppu", "termi", "kotitehtävät", "leipoa", "tarjous",
  "status", "hanke", "strategia", "oranssi", "anna", "innostusta", "vanhempi", "keskittyä",
  "laite", "matkustaa", "runous", "liiketoimintaa", "yhteiskuntaan", "suudella", "loppu",
  "kasvis", "käyttää", "ajoittaa", "tunnin", "rohkea", "keskittyä", "käsitellä", "elokuva",
  "laitonta", "yleistä", "kahvia", "ilmoitus", "valtatie", "kemia", "psykologia", "vuokraus",
  "kello", "konferenssi", "helpotus", "show", "siisti", "hauska", "paino", "laatu", "klubi",
  "tytär", "vyöhyke", "kosketa", "tänä iltana", "järkyttää", "polttaa", "tekosyy", "nimi",
  "kyselyyn", "maisema", "etukäteen", "tyytyväisyys", "leipää", "katastrofi", "kohde", "hattu",
  "ennen", "ostoksilla", "vierailla", "itään", "kuva", "kotiin", "idea", "isä", "vertailu",
  "kissa", "putki", "voittaja", "laskea", "järvi", "taistella", "palkinto", "perusta", "koira",
  "pitää", "ihanteellinen", "tuuletin", "kamppailua", "huippu", "turvallisuutta", "ratkaisu",
  "helvetti", "johtopäätös", "väestöstä", "rasitusta", "hälytys", "mittaus", "toinen",
  "kouluttaa", "rotu", "erääntyy", "vakuutus", "pomo", "puu", "seurata", "sairas", "tietenkin",
  "vetää", "nimittäminen", "viipale", "edelleen", "hoito", "kärsivällisyyttä", "rikas", "paeta",
  "tunne", "kuninkaallinen", "naaras", "lapsuus", "hallitus", "kuva", "tahtoa", "sukka", "iso",
  "portti", "öljy", "ylittää", "pin", "parantaminen", "mestaruus", "typerä", "auttaa", "taivas",
  "piki", "mies", "timantti", "useimmat", "siirtyminen", "työtä", "tiede", "komitea", "hetki",
  "korjata", "opetusta", "kaivaa", "asiantuntija", "monimutkainen", "opas", "ihmiset", "kuollut",
  "ääni", "alkuperäinen", "tauko", "aihe", "tiedot", "tutkinnon", "lukeminen", "tallennus",
  "nippu", "tavoittaa", "tuomio", "valehdella", "säännöllinen", "sarja", "maalaus", "tila",
  "lista", "pelaaja", "karhu", "pohjoinen", "ihme", "matto", "raskas", "upseeri", "negatiivinen",
  "kello", "ainutlaatuinen", "vauva", "kipu", "oletus", "levy", "rauta", "laskuttaa", "laatikko",
  "Katso", "kaksinkertainen", "virhe", "loppuun", "tulevaisuutta", "loistava", "ota yhteyttä",
  "matematiikka", "riisi", "lähteä", "ravintola", "alennus", "seksiä", "virus", "bitti",
  "luottaa", "tapahtuma", "käyttää", "mehu", "epäonnistuminen", "bugi", "yhteydessä", "muta",
  "koko", "kääri", "tarkoitus", "luonnos", "paine", "kakku", "tumma", "selitys", "tilaa",
  "kulma", "sana", "tehokkuutta", "hallinta", "tapa", "tähti", "mahdollisuus", "löytäminen",
  "kuljetus", "seisomaan", "kritiikkiä", "virtaus", "ovi", "vahinkoa", "hyönteinen", "yllätys",
  "huoneisto"]

/-- Validity of one outcome of `random.sample(WORD_LIST, k=n)`: the sampler
draws `n` pairwise-distinct positions of the list.  `generate_keywords` is
modelled relationally over the drawn positions because the draw is random. -/
def sampleOk (idxs : List Nat) (n : Nat) : Prop :=
  idxs.length = n ∧ idxs.Nodup ∧ ∀ i ∈ idxs, i < WORD_LIST.length

/-- Embedding of `generate_keywords(num_keywords)` as a function of the
positions drawn by `random.sample`: the returned keywords are the list entries
at the drawn positions. -/
def generate_keywords (idxs : List Nat) : List String :=
  idxs.map (fun i => WORD_LIST.getD i "")

/-- Whether `generate_keywords(num_keywords)` raises: `random.sample` raises
`ValueError` exactly when the requested sample size exceeds the population
size (negative sizes cannot arise for a `Nat` count). -/
def generate_keywords_raises (n : Nat) : Bool :=
  decide (WORD_LIST.length < n)

instance (idxs : List Nat) (n : Nat) : Decidable (sampleOk idxs n) := by
  unfold sampleOk; infer_instance

/-! ### Basic lemmas about the matching primitives and the rewrite engine -/

theorem chomp_eq_some {pat t r : List Char} (h : chomp pat t = some r) : t = pat ++ r := by
  induction pat generalizing t with
  | nil => simpa [chomp] using h
  | cons p ps ih =>
    cases t with
    | nil => simp [chomp] at h
    | cons c cs =>
      by_cases hpc : p = c
      · subst hpc
        simp only [chomp, if_pos rfl] at h
        simpa using ih h
      · simp [chomp, hpc] at h

theorem chomp_of_append (pat r : List Char) : chomp pat (pat ++ r) = some r := by
  induction pat with
  | nil => rfl
  | cons p ps ih => simp [chomp, ih]

theorem rwF_nil (tr : List Char → Option (List Char × Nat)) (f : Nat) : rwF tr f [] = [] := by
  cases f <;> rfl

theorem rwF_zero (tr : List Char → Option (List Char × Nat)) (l : List Char) :
    rwF tr 0 l = l := by
  cases l <;> rfl

theorem rwF_cons_some {tr : List Char → Option (List Char × Nat)} {c : Char}
    {rest out : List Char} {n : Nat} (h : tr (c :: rest) = some (out, n)) (f : Nat) :
    rwF tr (f + 1) (c :: rest) = out ++ rwF tr f (List.drop n (c :: rest)) := by
  show (match tr (c :: rest) with
    | some (out, n) => out ++ rwF tr f (List.drop n (c :: rest))
    | none => c :: rwF tr f rest) = _
  rw [h]

theorem rwF_cons_none {tr : List Char → Option (List Char × Nat)} {c : Char}
    {rest : List Char} (h : tr (c :: rest) = none) (f : Nat) :
    rwF tr (f + 1) (c :: rest) = c :: rwF tr f rest := by
  show (match tr (c :: rest) with
    | some (out, n) => out ++ rwF tr f (List.drop n (c :: rest))
    | none => c :: rwF tr f rest) = _
  rw [h]

/-- With enough fuel the engine's result does not depend on the exact fuel,
provided every match consumes at least one character. -/
theorem rwF_fuel {tr : List Char → Option (List Char × Nat)}
    (H0 : ∀ t out n, tr t = some (out, n) → 1 ≤ n) :
    ∀ f g s, s.length ≤ f → s.length ≤ g → rwF tr f s = rwF tr g s := by
  intro f
  induction f with
  | zero =>
    intro g s hf _
    have : s = [] := List.length_eq_zero.mp (Nat.le_zero.mp hf)
    subst this
    rw [rwF_nil, rwF_nil]
  | succ f ih =>
    intro g s hf hg
    cases s with
    | nil => rw [rwF_nil, rwF_nil]
    | cons c rest =>
      cases g with
      | zero => exact absurd hg (by simp)
      | succ g =>
        cases h : tr (c :: rest) with
        | some p =>
          obtain ⟨out, n⟩ := p
          rw [rwF_cons_some h, rwF_cons_some h]
          have h1 : 1 ≤ n := H0 _ _ _ h
          have hlen : (List.drop n (c :: rest)).length ≤ f := by
            simp only [List.length_drop]
            have : (c :: rest).length ≤ f + 1 := hf
            omega
          have hlen2 : (List.drop n (c :: rest)).length ≤ g := by
            simp only [List.length_drop]
            have : (c :: rest).length ≤ g + 1 := hg
            omega
          rw [ih _ _ hlen hlen2]
        | none =>
          rw [rwF_cons_none h, rwF_cons_none h]
          have hlen : rest.length ≤ f := by
            have : (c :: rest).length ≤ f + 1 := hf
            simpa using this
          have hlen2 : rest.length ≤ g := by
            have : (c :: rest).length ≤ g + 1 := hg
            simpa using this
          rw [ih _ _ hlen hlen2]

/-- If the matcher fails on every suffix of the text, the pass is the
identity. -/
theorem rwF_id {tr : List Char → Option (List Char × Nat)} :
    ∀ (s : List Char), (∀ k, tr (List.drop k s) = none) → ∀ f, rwF tr f s = s := by
  intro s
  induction s with
  | nil => intro _ f; exact rwF_nil tr f
  | cons c rest ih =>
    intro H f
    cases f with
    | zero => exact rwF_zero tr _
    | succ f =>
      have h0 : tr (c :: rest) = none := by simpa using H 0
      rw [rwF_cons_none h0]
      have : ∀ k, tr (List.drop k rest) = none := by
        intro k
        simpa [List.drop_succ_cons] using H (k + 1)
      rw [ih this f]

theorem rwRun_id {tr : List Char → Option (List Char × Nat)} {s : List Char}
    (H : ∀ k, tr (List.drop k s) = none) : rwRun tr s = s :=
  rwF_id s H _

/-- A pass whose every match needs some character `x` of the consumed text is
the identity on texts that do not contain `x`. -/
theorem rwRun_id_of_need {tr : List Char → Option (List Char × Nat)} {x : Char}
    (Hx : ∀ t out n, tr t = some (out, n) → x ∈ t) {s : List Char} (hs : x ∉ s) :
    rwRun tr s = s := by
  apply rwRun_id
  intro k
  cases h : tr (List.drop k s) with
  | none => rfl
  | some p =>
    obtain ⟨out, n⟩ := p
    exact absurd (List.drop_subset k s (Hx _ _ _ h)) hs

/-- A pass whose replacements never contain `x` does not introduce `x`. -/
theorem rwF_absent {tr : List Char → Option (List Char × Nat)} {x : Char}
    (Hout : ∀ t out n, tr t = some (out, n) → x ∉ out) :
    ∀ f s, x ∉ s → x ∉ rwF tr f s := by
  intro f
  induction f with
  | zero => intro s hs; cases s with
    | nil => simp [rwF_nil]
    | cons c rest => simpa [rwF_zero] using hs
  | succ f ih =>
    intro s hs
    cases s with
    | nil => simp [rwF_nil]
    | cons c rest =>
      cases h : tr (c :: rest) with
      | some p =>
        obtain ⟨out, n⟩ := p
        rw [rwF_cons_some h]
        intro hmem
        rcases List.mem_append.mp hmem with h1 | h1
        · exact Hout _ _ _ h h1
        · exact ih _ (fun hx => hs (List.drop_subset _ _ hx)) h1
      | none =>
        rw [rwF_cons_none h]
        intro hmem
        rcases List.mem_cons.mp hmem with h1 | h1
        · exact hs (h1 ▸ List.mem_cons_self c rest)
        · exact ih rest (fun hx => hs (List.mem_cons_of_mem c hx)) h1

theorem rwRun_absent {tr : List Char → Option (List Char × Nat)} {x : Char}
    (Hout : ∀ t out n, tr t = some (out, n) → x ∉ out) {s : List Char} (hs : x ∉ s) :
    x ∉ rwRun tr s :=
  rwF_absent Hout _ s hs

/-! ### Claim theorems: keyword sampler and basic segmenter facts -/

/-- C7: `split_into_sentences` applied to the empty string returns the empty
sequence.  The padded working text is all whitespace, no pass fires, the
split yields one piece that strips to the empty string, and the final fix-up
drops it. -/
theorem C7_empty_input : split_into_sentences "" = [] := by decide

/-- C6: `split_into_sentences "Dr. Smith arrived."` returns exactly the one
sentence "Dr. Smith arrived.": the period of the honorific "Dr" is protected
by the `_PREFIXES` pass and does not open a boundary. -/
theorem C6_honorific_no_split :
    split_into_sentences "Dr. Smith arrived." = ["Dr. Smith arrived."] := by decide

/-- C8: the segmenter is total over all string inputs: every input string,
with no constraint whatsoever, is mapped to a list of strings.  The embedding
has no failure case because every operation the source performs (`re.sub`,
`str.replace`, `in`, `split`, `strip`, list indexing guarded by `if sentences`)
is total on arbitrary strings. -/
theorem C8_total (s : String) : ∃ l : List String, split_into_sentences s = l :=
  ⟨_, rfl⟩

/-- C2 counterexample: drawing positions 39 and 58 is a legitimate outcome of
`random.sample(WORD_LIST, k=2)` (two distinct in-range positions), yet both
positions hold the word "asia", so the returned keywords are not pairwise
distinct.  This refutes the claim that `generate_keywords(n)` always returns
`n` pairwise-distinct strings. -/
theorem C2_keywords_cx :
    (sampleOk [39, 58] 2 ∧ generate_keywords [39, 58] = ["asia", "asia"]) ∧
      ¬(generate_keywords [39, 58]).Nodup := by
  refine ⟨⟨by decide, by decide⟩, by decide⟩

/-- C2 amended: for every valid draw of `n` positions, `generate_keywords`
returns exactly `n` strings, each a member of the fixed word list — but they
are distinct only as positions, not necessarily as strings, because
`WORD_LIST` itself contains duplicate entries; and the sampler raises exactly
when asked for more items than the list holds. -/
theorem C2_keywords_amended (n : Nat) (idxs : List Nat) (h : sampleOk idxs n) :
    (generate_keywords idxs).length = n ∧
      (∀ w ∈ generate_keywords idxs, w ∈ WORD_LIST) ∧
      (∀ m : Nat, WORD_LIST.length < m → generate_keywords_raises m = true) := by
  obtain ⟨hlen, _, hin⟩ := h
  refine ⟨by simpa [generate_keywords] using hlen, ?_, ?_⟩
  · intro w hw
    simp only [generate_keywords, List.mem_map] at hw
    obtain ⟨i, hi, rfl⟩ := hw
    have hilt : i < WORD_LIST.length := hin i hi
    rw [WORD_LIST.getD_eq_getElem _ hilt]
    exact List.getElem_mem hilt
  · intro m hm
    simpa [generate_keywords_raises]

/-- C2 witness: the amended theorem applied to the concrete draw [39, 58]. -/
theorem C2_keywords_amended_witness :
    (generate_keywords [39, 58]).length = 2 ∧
      (∀ w ∈ generate_keywords [39, 58], w ∈ WORD_LIST) ∧
      (∀ m : Nat, WORD_LIST.length < m → generate_keywords_raises m = true) :=
  C2_keywords_amended 2 [39, 58] (by decide)

theorem tryRep_eq_some {pat rep t out : List Char} {n : Nat}
    (h : tryRep pat rep t = some (out, n)) :
    out = rep ∧ n = pat.length ∧ ∃ r, t = pat ++ r := by
  unfold tryRep at h
  split at h
  · rename_i r heq
    have h2 : rep = out ∧ pat.length = n := by simpa using h
    exact ⟨h2.1.symm, h2.2.symm, r, chomp_eq_some heq⟩
  · simp at h

theorem tryRep_need {pat rep t out : List Char} {n : Nat} {x : Char} (hx : x ∈ pat)
    (h : tryRep pat rep t = some (out, n)) : x ∈ t := by
  obtain ⟨-, -, r, rfl⟩ := tryRep_eq_some h
  exact List.mem_append_left r hx

theorem tryWordDot_need :
    ∀ (ws : List (List Char)) (t out : List Char) (n : Nat),
      tryWordDot ws t = some (out, n) → '.' ∈ t := by
  intro ws
  induction ws with
  | nil => intro t out n h; simp [tryWordDot] at h
  | cons w ws ih =>
    intro t out n h
    simp only [tryWordDot] at h
    split at h
    · rename_i r heq
      split at h
      · rename_i hr
        have ht := chomp_eq_some heq
        subst ht
        cases r with
        | nil => simp at hr
        | cons rc rr =>
          have : rc = '.' := by simpa using hr
          subst this
          exact List.mem_append_right w (List.mem_cons_self _ _)
      · exact ih t out n h
    · exact ih t out n h

theorem tryHon_need {t out : List Char} {n : Nat} (h : tryHon t = some (out, n)) :
    '.' ∈ t :=
  tryWordDot_need HONORIFICS t out n h

theorem tryWeb_need {t out : List Char} {n : Nat} (h : tryWeb t = some (out, n)) :
    '.' ∈ t := by
  rw [tryWeb.eq_def] at h
  split at h
  · exact List.mem_cons_self _ _
  · simp at h

theorem tryDigits_need {t out : List Char} {n : Nat} (h : tryDigits t = some (out, n)) :
    '.' ∈ t := by
  rw [tryDigits.eq_def] at h
  split at h
  · simp
  · simp at h

theorem tryDots_need {t out : List Char} {n : Nat} (h : tryDots t = some (out, n)) :
    '.' ∈ t := by
  rw [tryDots.eq_def] at h
  split at h
  · exact List.mem_cons_self _ _
  · simp at h

theorem tryPhD_need {t out : List Char} {n : Nat} (h : tryPhD t = some (out, n)) :
    '.' ∈ t := by
  unfold tryPhD at h
  cases hch : chomp "Ph.D.".data t with
  | none => rw [hch] at h; simp at h
  | some r =>
    have := chomp_eq_some hch
    subst this
    exact List.mem_append_left _ (by decide)

theorem tryInitials_need {t out : List Char} {n : Nat} (h : tryInitials t = some (out, n)) :
    '.' ∈ t := by
  rw [tryInitials.eq_def] at h
  split at h
  · simp
  · simp at h

theorem matchStarter_eq_some :
    ∀ (alts : List (List Char × Bool)) (t st : List Char),
      matchStarter alts t = some st → ∃ r, t = st ++ r := by
  intro alts
  induction alts with
  | nil => intro t st h; simp [matchStarter] at h
  | cons p alts ih =>
    intro t st h
    obtain ⟨w, needWs⟩ := p
    simp only [matchStarter] at h
    split at h
    · rename_i r heq
      have ht := chomp_eq_some heq
      split at h
      · split at h
        · rename_i rc rr
          split at h
          · obtain rfl : w ++ [rc] = st := Option.some.inj h
            rename_i hsplit hws hrc
            exact ⟨rr, by simpa using ht⟩
          · exact ih t st h
        · exact ih t st h
      · obtain rfl : w = st := Option.some.inj h
        exact ⟨r, ht⟩
    · exact ih t st h

theorem tryAcro_need {t out : List Char} {n : Nat} (h : tryAcro t = some (out, n)) :
    '.' ∈ t := by
  rw [tryAcro.eq_def] at h
  split at h
  · simp
  · simp at h

theorem tryThree_need {t out : List Char} {n : Nat} (h : tryThree t = some (out, n)) :
    '.' ∈ t := by
  rw [tryThree.eq_def] at h
  split at h
  · simp
  · simp at h

theorem tryTwo_need {t out : List Char} {n : Nat} (h : tryTwo t = some (out, n)) :
    '.' ∈ t := by
  rw [tryTwo.eq_def] at h
  split at h
  · simp
  · simp at h

theorem trySufStartAux_need :
    ∀ (ws : List (List Char)) (r out : List Char) (n : Nat),
      trySufStartAux ws r = some (out, n) → '.' ∈ r := by
  intro ws
  induction ws with
  | nil => intro r out n h; simp [trySufStartAux] at h
  | cons w ws ih =>
    intro r out n h
    simp only [trySufStartAux] at h
    split at h
    · rename_i r2 hch
      split at h
      · have := chomp_eq_some hch
        subst this
        exact List.mem_append_right w (by simp)
      · exact ih r out n h
    · exact ih r out n h
    · exact ih r out n h

theorem trySufStart_need {t out : List Char} {n : Nat} (h : trySufStart t = some (out, n)) :
    '.' ∈ t := by
  rw [trySufStart.eq_def] at h
  split at h
  · rename_i r
    exact List.mem_cons_of_mem _ (trySufStartAux_need SUFS r _ _ h)
  · simp at h

theorem trySufAux_need :
    ∀ (ws : List (List Char)) (r out : List Char) (n : Nat),
      trySufAux ws r = some (out, n) → '.' ∈ r := by
  intro ws
  induction ws with
  | nil => intro r out n h; simp [trySufAux] at h
  | cons w ws ih =>
    intro r out n h
    simp only [trySufAux] at h
    split at h
    · rename_i rr hch
      have := chomp_eq_some hch
      subst this
      exact List.mem_append_right w (by simp)
    · exact ih r out n h
    · exact ih r out n h

theorem trySuf_need {t out : List Char} {n : Nat} (h : trySuf t = some (out, n)) :
    '.' ∈ t := by
  rw [trySuf.eq_def] at h
  split at h
  · rename_i r
    exact List.mem_cons_of_mem _ (trySufAux_need SUFS r _ _ h)
  · simp at h

theorem tryCap_need {t out : List Char} {n : Nat} (h : tryCap t = some (out, n)) :
    '.' ∈ t := by
  rw [tryCap.eq_def] at h
  split at h
  · simp
  · simp at h

/-! ### The no-punctuation identity of the cascade (claims C1 and C9) -/

theorem subNewline_eq_map (l : List Char) : subNewline l = l.map nlFun := by
  have key : ∀ f s, s.length ≤ f → rwF (tryRep ['\n'] [' ']) f s = s.map nlFun := by
    intro f
    induction f with
    | zero =>
      intro s hf
      have : s = [] := List.length_eq_zero.mp (Nat.le_zero.mp hf)
      subst this; rfl
    | succ f ih =>
      intro s hf
      cases s with
      | nil => rw [rwF_nil]; rfl
      | cons c rest =>
        by_cases hc : c = '\n'
        · subst hc
          have hfire : tryRep ['\n'] [' '] ('\n' :: rest) = some ([' '], 1) := by
            simp [tryRep, chomp]
          rw [rwF_cons_some hfire, List.drop_one, List.tail_cons,
            ih rest (by simpa using Nat.le_of_succ_le_succ hf)]
          simp [nlFun]
        · have hnone : tryRep ['\n'] [' '] (c :: rest) = none := by
            unfold tryRep
            rw [show chomp ['\n'] (c :: rest) = none from by
              simp only [chomp]
              rw [if_neg (fun hh => hc (Eq.symm hh))]]
          rw [rwF_cons_none hnone, ih rest (by simpa using Nat.le_of_succ_le_succ hf)]
          simp [nlFun, hc]
  exact key _ _ le_rfl

theorem markPre_eq (l : List Char) :
    markPre l = ' ' :: (l.map nlFun ++ [' ', ' ']) := by
  unfold markPre padText
  rw [subNewline_eq_map]
  simp [nlFun]

theorem mem_map_nlFun {x : Char} {l : List Char} (h : x ∈ l.map nlFun) :
    x = ' ' ∨ x ∈ l := by
  obtain ⟨c, hc, rfl⟩ := List.mem_map.mp h
  unfold nlFun
  split
  · exact Or.inl rfl
  · exact Or.inr hc

theorem not_mem_markPre {x : Char} {l : List Char} (hx : x ∉ l) (hsp : x ≠ ' ') :
    x ∉ markPre l := by
  rw [markPre_eq]
  intro hmem
  rcases List.mem_cons.mp hmem with h | h
  · exact hsp h
  · rcases List.mem_append.mp h with h | h
    · rcases mem_map_nlFun h with h | h
      · exact hsp h
      · exact hx h
    · simp only [List.mem_cons, List.not_mem_nil, or_false] at h
      rcases h with h | h <;> exact hsp h

theorem subPhD_id {t : List Char} (h : '.' ∉ t) : subPhD t = t := by
  unfold subPhD
  split
  · exact rwRun_id_of_need (fun t out n hf => tryPhD_need hf) h
  · rfl

theorem subQuote1_id {t : List Char} (h : '.' ∉ t) : subQuote1 t = t := by
  unfold subQuote1
  split
  · exact rwRun_id_of_need (fun t out n hf => tryRep_need (by decide) hf) h
  · rfl

theorem subQuote2_id {t : List Char} (h : '.' ∉ t) : subQuote2 t = t := by
  unfold subQuote2
  split
  · exact rwRun_id_of_need (fun t out n hf => tryRep_need (by decide) hf) h
  · rfl

theorem subBang_id {t : List Char} (h : '!' ∉ t) : subBang t = t := by
  unfold subBang
  split
  · exact rwRun_id_of_need (fun t out n hf => tryRep_need (by decide) hf) h
  · rfl

theorem subQn_id {t : List Char} (h : '?' ∉ t) : subQn t = t := by
  unfold subQn
  split
  · exact rwRun_id_of_need (fun t out n hf => tryRep_need (by decide) hf) h
  · rfl

theorem subStopDot_id {t : List Char} (h : '.' ∉ t) : subStopDot t = t :=
  rwRun_id_of_need (fun t out n hf => tryRep_need (by decide) hf) h

theorem subStopQn_id {t : List Char} (h : '?' ∉ t) : subStopQn t = t :=
  rwRun_id_of_need (fun t out n hf => tryRep_need (by decide) hf) h

theorem subStopBang_id {t : List Char} (h : '!' ∉ t) : subStopBang t = t :=
  rwRun_id_of_need (fun t out n hf => tryRep_need (by decide) hf) h

theorem subRestore_id {t : List Char} (h : '<' ∉ t) : subRestore t = t :=
  rwRun_id_of_need (fun t out n hf => tryRep_need (by decide) hf) h

/-- When the padded working text contains no period, no exclamation mark, no
question mark and no marker character, every pass of the cascade is the
identity. -/
theorem markedText_eq_markPre {l : List Char}
    (hdot : '.' ∉ l) (hbang : '!' ∉ l) (hq : '?' ∉ l) (hlt : '<' ∉ l) :
    markedText l = markPre l := by
  have hd : '.' ∉ markPre l := not_mem_markPre hdot (by decide)
  have hb : '!' ∉ markPre l := not_mem_markPre hbang (by decide)
  have hqm : '?' ∉ markPre l := not_mem_markPre hq (by decide)
  have hl : '<' ∉ markPre l := not_mem_markPre hlt (by decide)
  have e1 : preSufText l = markPre l := by
    unfold preSufText
    rw [rwRun_id_of_need (fun t out n hf => tryHon_need hf) hd,
      rwRun_id_of_need (fun t out n hf => tryWeb_need hf) hd,
      rwRun_id_of_need (fun t out n hf => tryDigits_need hf) hd,
      rwRun_id_of_need (fun t out n hf => tryDots_need hf) hd,
      subPhD_id hd,
      rwRun_id_of_need (fun t out n hf => tryInitials_need hf) hd,
      rwRun_id_of_need (fun t out n hf => tryAcro_need hf) hd,
      rwRun_id_of_need (fun t out n hf => tryThree_need hf) hd,
      rwRun_id_of_need (fun t out n hf => tryTwo_need hf) hd]
  unfold markedText quoteStage
  rw [e1,
    rwRun_id_of_need (fun t out n hf => trySufStart_need hf) hd,
    rwRun_id_of_need (fun t out n hf => trySuf_need hf) hd,
    rwRun_id_of_need (fun t out n hf => tryCap_need hf) hd,
    subQuote1_id hd, subQuote2_id hd, subBang_id hb, subQn_id hqm,
    subStopDot_id hd, subStopQn_id hqm, subStopBang_id hb, subRestore_id hl]

/-- Splitting a text that does not contain the marker character yields the
whole text as the only piece. -/
theorem splitStop_no_lt {l : List Char} (h : '<' ∉ l) : splitStop l = [l] := by
  induction l with
  | nil => rfl
  | cons c rest ih =>
    rw [splitStop.eq_def]
    split
    · rename_i heq
      simp at heq
    · rename_i heq
      have hmem : '<' ∈ c :: rest := by rw [heq]; simp
      exact absurd hmem h
    · rename_i heq
      injection heq with h1 h2
      subst h1
      subst h2
      rw [ih (fun hm => h (List.mem_cons_of_mem c hm))]

theorem dropWhile_ws_front {a l : List Char} (ha : ∀ c ∈ a, pyWs c) :
    (a ++ l).dropWhile pyWs = l.dropWhile pyWs := by
  induction a with
  | nil => rfl
  | cons c a ih =>
    rw [List.cons_append, List.dropWhile_cons_of_pos (ha c (List.mem_cons_self c a))]
    exact ih fun x hx => ha x (List.mem_cons_of_mem c hx)

theorem pyStrip_front {a l : List Char} (ha : ∀ c ∈ a, pyWs c) :
    pyStrip (a ++ l) = pyStrip l := by
  unfold pyStrip
  rw [dropWhile_ws_front ha]

theorem pyStrip_back {b l : List Char} (hb : ∀ c ∈ b, pyWs c) :
    pyStrip (l ++ b) = pyStrip l := by
  unfold pyStrip
  rw [List.dropWhile_append]
  split
  · rename_i hemp
    rw [List.dropWhile_eq_nil_iff.mpr hb]
    have : l.dropWhile pyWs = [] := by simpa using hemp
    rw [this]
  · rename_i hemp
    rw [List.reverse_append, dropWhile_ws_front (fun c hc => hb c (by simpa using hc))]

theorem pyStrip_all_ws {l : List Char} (h : ∀ c ∈ l, pyWs c) : pyStrip l = [] := by
  unfold pyStrip
  rw [List.dropWhile_eq_nil_iff.mpr h]
  rfl

theorem dropLastEmpty_singleton {p : List Char} (h : p ≠ []) : dropLastEmpty [p] = [p] := by
  unfold dropLastEmpty
  have hl : ([p] : List (List Char)).getLast? = some p := rfl
  rw [hl]
  exact if_neg h

theorem pyStrip_eq_nil_imp {l : List Char} (h : pyStrip l = []) : ∀ c ∈ l, pyWs c := by
  unfold pyStrip at h
  rw [List.reverse_eq_nil_iff] at h
  have h2 : ∀ c ∈ (l.dropWhile pyWs).reverse, pyWs c := List.dropWhile_eq_nil_iff.mp h
  have h3 : ∀ c ∈ l.dropWhile pyWs, pyWs c := fun c hc => h2 c (by simpa using hc)
  intro c hc
  rw [← List.takeWhile_append_dropWhile pyWs l] at hc
  rcases List.mem_append.mp hc with hc | hc
  · exact List.mem_takeWhile_imp hc
  · exact h3 c hc

/-- C9: every whitespace-only input (the empty string included) is mapped to
the empty sequence: the single piece produced by the split strips to the empty
string and the final fix-up drops it. -/
theorem C9_whitespace_only (s : String) (h : ∀ c ∈ s.data, pyWs c) :
    split_into_sentences s = [] := by
  have habs : ∀ x : Char, ¬ pyWs x → x ∉ s.data := fun x hx hmem => hx (h x hmem)
  have hmark : markedText s.data = markPre s.data :=
    markedText_eq_markPre (habs '.' (by decide)) (habs '!' (by decide))
      (habs '?' (by decide)) (habs '<' (by decide))
  have hws : ∀ c ∈ markPre s.data, pyWs c := by
    rw [markPre_eq]
    intro c hc
    rcases List.mem_cons.mp hc with rfl | hc
    · decide
    · rcases List.mem_append.mp hc with hc | hc
      · rcases mem_map_nlFun hc with rfl | hc
        · decide
        · exact h c hc
      · rcases List.mem_cons.mp hc with rfl | hc
        · decide
        · simp only [List.mem_singleton] at hc
          subst hc; decide
  have hlt : '<' ∉ markPre s.data := fun hm => absurd (hws '<' hm) (by decide)
  unfold split_into_sentences segPipe
  rw [hmark, splitStop_no_lt hlt]
  rw [List.map_cons, List.map_nil, pyStrip_all_ws hws]
  rfl

/-- C9 witness: the theorem applied to a concrete whitespace-only string. -/
theorem C9_whitespace_only_witness : split_into_sentences "  \t " = [] :=
  C9_whitespace_only "  \t " (by decide)

/-- C1 counterexample: the empty string contains none of the characters `.`,
`!`, `?`, yet `split_into_sentences` returns zero elements on it, not one. -/
theorem C1_no_punct_cx :
    ('.' ∉ "".data ∧ '!' ∉ "".data ∧ '?' ∉ "".data) ∧
      (split_into_sentences "").length = 0 := by decide

/-- C1 amended: for every input that contains no `.`, `!`, `?`, none of the
reserved marker character `<`, and at least one non-whitespace character, the
segmenter returns exactly one sentence: the input with newlines replaced by
spaces and leading and trailing whitespace removed.  (The empty and
whitespace-only inputs return the empty sequence instead, and inputs
containing the marker strings are documented as undefined behaviour.) -/
theorem C1_no_punct_amended (s : String)
    (hdot : '.' ∉ s.data) (hbang : '!' ∉ s.data) (hq : '?' ∉ s.data)
    (hlt : '<' ∉ s.data) (hnw : ∃ c ∈ s.data, ¬ pyWs c) :
    split_into_sentences s = [String.mk (pyStrip (s.data.map nlFun))] := by
  have hmark : markedText s.data = markPre s.data :=
    markedText_eq_markPre hdot hbang hq hlt
  have hltm : '<' ∉ markPre s.data := not_mem_markPre hlt (by decide)
  have hstrip : pyStrip (markPre s.data) = pyStrip (s.data.map nlFun) := by
    rw [markPre_eq]
    rw [show (' ' :: (s.data.map nlFun ++ [' ', ' '])) = [' '] ++ (s.data.map nlFun ++ [' ', ' ']) from rfl]
    rw [pyStrip_front (by decide), pyStrip_back (by decide)]
  have hne : pyStrip (s.data.map nlFun) ≠ [] := by
    intro hnil
    obtain ⟨c, hc, hcw⟩ := hnw
    have hcnl : c ≠ '\n' := fun hh => hcw (by subst hh; decide)
    have : nlFun c ∈ s.data.map nlFun := List.mem_map_of_mem nlFun hc
    have := pyStrip_eq_nil_imp hnil (nlFun c) this
    unfold nlFun at this
    rw [if_neg hcnl] at this
    exact hcw this
  unfold split_into_sentences segPipe
  rw [hmark, splitStop_no_lt hltm]
  rw [List.map_cons, List.map_nil, hstrip, dropLastEmpty_singleton hne]
  rfl

/-- C1 witness: the amended theorem applied to a punctuation-free input. -/
theorem C1_no_punct_amended_witness :
    split_into_sentences " Hei maailma " = [String.mk (pyStrip (" Hei maailma ".data.map nlFun))] :=
  C1_no_punct_amended " Hei maailma " (by decide) (by decide) (by decide) (by decide)
    (by decide)

/-! ### Inversion lemmas: the exact shape of every successful match -/

theorem tryWordDot_inv :
    ∀ (ws : List (List Char)) (t out : List Char) (n : Nat),
      tryWordDot ws t = some (out, n) →
      ∃ w r, w ∈ ws ∧ t = w ++ '.' :: r ∧ out = w ++ prdTok ∧ n = w.length + 1 := by
  intro ws
  induction ws with
  | nil => intro t out n h; simp [tryWordDot] at h
  | cons w ws ih =>
    intro t out n h
    simp only [tryWordDot] at h
    split at h
    · rename_i r heq
      split at h
      · rename_i hr
        obtain ⟨rfl, rfl⟩ : out = w ++ prdTok ∧ n = w.length + 1 := by
          simpa [eq_comm] using h
        cases r with
        | nil => simp at hr
        | cons rc rr =>
          have : rc = '.' := by simpa using hr
          subst this
          exact ⟨w, rr, List.mem_cons_self _ _, chomp_eq_some heq, rfl, rfl⟩
      · obtain ⟨w', r', hw, ht, hout, hn⟩ := ih t out n h
        exact ⟨w', r', List.mem_cons_of_mem _ hw, ht, hout, hn⟩
    · obtain ⟨w', r', hw, ht, hout, hn⟩ := ih t out n h
      exact ⟨w', r', List.mem_cons_of_mem _ hw, ht, hout, hn⟩

theorem tryWebAux_inv :
    ∀ (ws : List (List Char)) (r out : List Char) (n : Nat),
      tryWebAux ws r = some (out, n) →
      ∃ w rr, w ∈ ws ∧ r = w ++ rr ∧ out = prdTok ++ w ∧ n = 1 + w.length := by
  intro ws
  induction ws with
  | nil => intro r out n h; simp [tryWebAux] at h
  | cons w ws ih =>
    intro r out n h
    simp only [tryWebAux] at h
    split at h
    · rename_i hch
      obtain ⟨rfl, rfl⟩ : out = prdTok ++ w ∧ n = 1 + w.length := by
        simpa [eq_comm] using h
      obtain ⟨rr, hrr⟩ := Option.isSome_iff_exists.mp hch
      exact ⟨w, rr, List.mem_cons_self _ _, chomp_eq_some hrr, rfl, rfl⟩
    · obtain ⟨w', rr, hw, hr, hout, hn⟩ := ih r out n h
      exact ⟨w', rr, List.mem_cons_of_mem _ hw, hr, hout, hn⟩

theorem tryWeb_inv {t out : List Char} {n : Nat} (h : tryWeb t = some (out, n)) :
    ∃ w rr, w ∈ WEBS ∧ t = '.' :: (w ++ rr) ∧ out = prdTok ++ w ∧ n = 1 + w.length := by
  rw [tryWeb.eq_def] at h
  split at h
  · rename_i r
    obtain ⟨w, rr, hw, hr, hout, hn⟩ := tryWebAux_inv WEBS r out n h
    exact ⟨w, rr, hw, by rw [hr], hout, hn⟩
  · simp at h

theorem tryDigits_inv {t out : List Char} {n : Nat} (h : tryDigits t = some (out, n)) :
    ∃ d1 d2 r, isDigit09 d1 ∧ isDigit09 d2 ∧ t = d1 :: '.' :: d2 :: r ∧
      out = [d1] ++ prdTok ++ [d2] ∧ n = 3 := by
  rw [tryDigits.eq_def] at h
  split at h
  · rename_i d1 d2 r
    split at h
    · rename_i hd
      obtain ⟨rfl, rfl⟩ : out = [d1] ++ prdTok ++ [d2] ∧ n = 3 := by
        simpa [eq_comm] using h
      exact ⟨d1, d2, r, (Bool.and_eq_true ..).mp hd |>.1, (Bool.and_eq_true ..).mp hd |>.2,
        rfl, rfl, rfl⟩
    · simp at h
  · simp at h

theorem tryDots_inv {t out : List Char} {n : Nat} (h : tryDots t = some (out, n)) :
    ∃ r, t = '.' :: '.' :: r ∧ n = 2 + leadDots r ∧
      out = (List.replicate n prdTok).flatten ++ stopTok := by
  rw [tryDots.eq_def] at h
  split at h
  · rename_i r
    obtain ⟨rfl, rfl⟩ :
        out = (List.replicate (2 + leadDots r) prdTok).flatten ++ stopTok ∧
          n = 2 + leadDots r := by
      simpa [eq_comm] using h
    exact ⟨r, rfl, rfl, rfl⟩
  · simp at h

theorem tryPhD_inv {t out : List Char} {n : Nat} (h : tryPhD t = some (out, n)) :
    ∃ r, t = "Ph.D.".data ++ r ∧ out = "Ph".data ++ prdTok ++ ['D'] ++ prdTok ∧ n = 5 := by
  unfold tryPhD at h
  split at h
  · rename_i r heq
    obtain ⟨rfl, rfl⟩ : out = "Ph".data ++ prdTok ++ ['D'] ++ prdTok ∧ n = 5 := by
      simpa [eq_comm] using h
    exact ⟨r, chomp_eq_some heq, rfl, rfl⟩
  · simp at h

theorem tryInitials_inv {t out : List Char} {n : Nat} (h : tryInitials t = some (out, n)) :
    ∃ w a r, pyWs w ∧ isAlphaAZ a ∧ t = w :: a :: '.' :: ' ' :: r ∧
      out = [' ', a] ++ prdTok ++ [' '] ∧ n = 4 := by
  rw [tryInitials.eq_def] at h
  split at h
  · rename_i w a r
    split at h
    · rename_i hcond
      obtain ⟨rfl, rfl⟩ : out = [' ', a] ++ prdTok ++ [' '] ∧ n = 4 := by
        simpa [eq_comm] using h
      exact ⟨w, a, r, (Bool.and_eq_true ..).mp hcond |>.1, (Bool.and_eq_true ..).mp hcond |>.2,
        rfl, rfl, rfl⟩
    · simp at h
  · simp at h

theorem matchStarter_inv :
    ∀ (alts : List (List Char × Bool)) (t st : List Char),
      matchStarter alts t = some st →
      ∃ r, t = st ++ r ∧
        ((∃ w, (w, false) ∈ alts ∧ st = w) ∨
         (∃ w c, (w, true) ∈ alts ∧ st = w ++ [c] ∧ pyWs c)) := by
  intro alts
  induction alts with
  | nil => intro t st h; simp [matchStarter] at h
  | cons p alts ih =>
    intro t st h
    obtain ⟨w, needWs⟩ := p
    simp only [matchStarter] at h
    split at h
    · rename_i r heq
      have ht := chomp_eq_some heq
      split at h
      · rename_i hws
        split at h
        · rename_i rc rr
          split at h
          · rename_i hrc
            obtain rfl : w ++ [rc] = st := Option.some.inj h
            refine ⟨rr, by simpa using ht, Or.inr ⟨w, rc, ?_, rfl, hrc⟩⟩
            have : needWs = true := hws
            subst this
            exact List.mem_cons_self _ _
          · obtain ⟨r', hr, hcase⟩ := ih t st h
            exact ⟨r', hr, hcase.imp
              (fun ⟨w', hw, hst⟩ => ⟨w', List.mem_cons_of_mem _ hw, hst⟩)
              (fun ⟨w', c', hw, hst, hc⟩ => ⟨w', c', List.mem_cons_of_mem _ hw, hst, hc⟩)⟩
        · obtain ⟨r', hr, hcase⟩ := ih t st h
          exact ⟨r', hr, hcase.imp
            (fun ⟨w', hw, hst⟩ => ⟨w', List.mem_cons_of_mem _ hw, hst⟩)
            (fun ⟨w', c', hw, hst, hc⟩ => ⟨w', c', List.mem_cons_of_mem _ hw, hst, hc⟩)⟩
      · rename_i hws
        obtain rfl : w = st := Option.some.inj h
        refine ⟨r, ht, Or.inl ⟨w, ?_, rfl⟩⟩
        have : needWs = false := by
          cases needWs
          · rfl
          · exact absurd rfl hws
        subst this
        exact List.mem_cons_self _ _
    · obtain ⟨r', hr, hcase⟩ := ih t st h
      exact ⟨r', hr, hcase.imp
        (fun ⟨w', hw, hst⟩ => ⟨w', List.mem_cons_of_mem _ hw, hst⟩)
        (fun ⟨w', c', hw, hst, hc⟩ => ⟨w', c', List.mem_cons_of_mem _ hw, hst, hc⟩)⟩

theorem tryAcro2_inv {a b : Char} {rest out : List Char} {n : Nat}
    (h : tryAcro2 a b rest = some (out, n)) :
    ∃ r3 st, rest = ' ' :: r3 ∧ matchStarter STARTERS r3 = some st ∧
      out = [a, '.', b, '.'] ++ stopTok ++ [' '] ++ st ∧ n = 5 + st.length := by
  rw [tryAcro2.eq_def] at h
  split at h
  · rename_i r3
    split at h
    · rename_i st hst
      obtain ⟨rfl, rfl⟩ :
          out = [a, '.', b, '.'] ++ stopTok ++ [' '] ++ st ∧ n = 5 + st.length := by
        simpa [eq_comm] using h
      exact ⟨r3, st, rfl, hst, rfl, rfl⟩
    · simp at h
  · simp at h

theorem tryAcro_inv {t out : List Char} {n : Nat} (h : tryAcro t = some (out, n)) :
    ∃ a b rest, t = a :: '.' :: b :: '.' :: rest ∧ isUpperAZ a ∧ isUpperAZ b ∧
      ((∃ c r3 st, rest = c :: '.' :: ' ' :: r3 ∧ isUpperAZ c ∧
          matchStarter STARTERS r3 = some st ∧
          out = [a, '.', b, '.', c, '.'] ++ stopTok ++ [' '] ++ st ∧ n = 7 + st.length) ∨
       (∃ r3 st, rest = ' ' :: r3 ∧ matchStarter STARTERS r3 = some st ∧
          out = [a, '.', b, '.'] ++ stopTok ++ [' '] ++ st ∧ n = 5 + st.length)) := by
  rw [tryAcro.eq_def] at h
  split at h
  · rename_i a b rest
    split at h
    · rename_i hab
      have hA : isUpperAZ a := ((Bool.and_eq_true ..).mp hab).1
      have hB : isUpperAZ b := ((Bool.and_eq_true ..).mp hab).2
      split at h
      · rename_i c r3
        split at h
        · rename_i hc
          split at h
          · rename_i st hst
            obtain ⟨rfl, rfl⟩ :
                out = [a, '.', b, '.', c, '.'] ++ stopTok ++ [' '] ++ st ∧
                  n = 7 + st.length := by
              simpa [eq_comm] using h
            exact ⟨a, b, _, rfl, hA, hB, Or.inl ⟨c, r3, st, rfl, hc, hst, rfl, rfl⟩⟩
          · obtain ⟨r3', st, hrest, hst, hout, hn⟩ := tryAcro2_inv h
            exact ⟨a, b, _, rfl, hA, hB, Or.inr ⟨r3', st, hrest, hst, hout, hn⟩⟩
        · obtain ⟨r3', st, hrest, hst, hout, hn⟩ := tryAcro2_inv h
          exact ⟨a, b, _, rfl, hA, hB, Or.inr ⟨r3', st, hrest, hst, hout, hn⟩⟩
      · obtain ⟨r3', st, hrest, hst, hout, hn⟩ := tryAcro2_inv h
        exact ⟨a, b, _, rfl, hA, hB, Or.inr ⟨r3', st, hrest, hst, hout, hn⟩⟩
    · simp at h
  · simp at h

theorem tryThree_inv {t out : List Char} {n : Nat} (h : tryThree t = some (out, n)) :
    ∃ a b c r, isAlphaAZ a ∧ isAlphaAZ b ∧ isAlphaAZ c ∧
      t = a :: '.' :: b :: '.' :: c :: '.' :: r ∧
      out = [a] ++ prdTok ++ [b] ++ prdTok ++ [c] ++ prdTok ∧ n = 6 := by
  rw [tryThree.eq_def] at h
  split at h
  · rename_i a b c r
    split at h
    · rename_i habc
      obtain ⟨rfl, rfl⟩ :
          out = [a] ++ prdTok ++ [b] ++ prdTok ++ [c] ++ prdTok ∧ n = 6 := by
        simpa [eq_comm] using h
      refine ⟨a, b, c, r, ?_, ?_, ?_, rfl, rfl, rfl⟩ <;>
        simp only [Bool.and_eq_true] at habc
      · exact habc.1.1
      · exact habc.1.2
      · exact habc.2
    · simp at h
  · simp at h

theorem tryTwo_inv {t out : List Char} {n : Nat} (h : tryTwo t = some (out, n)) :
    ∃ a b r, isAlphaAZ a ∧ isAlphaAZ b ∧ t = a :: '.' :: b :: '.' :: r ∧
      out = [a] ++ prdTok ++ [b] ++ prdTok ∧ n = 4 := by
  rw [tryTwo.eq_def] at h
  split at h
  · rename_i a b r
    split at h
    · rename_i hab
      obtain ⟨rfl, rfl⟩ : out = [a] ++ prdTok ++ [b] ++ prdTok ∧ n = 4 := by
        simpa [eq_comm] using h
      exact ⟨a, b, r, ((Bool.and_eq_true ..).mp hab).1, ((Bool.and_eq_true ..).mp hab).2,
        rfl, rfl, rfl⟩
    · simp at h
  · simp at h

theorem trySufStartAux_inv :
    ∀ (ws : List (List Char)) (r out : List Char) (n : Nat),
      trySufStartAux ws r = some (out, n) →
      ∃ w r3 st, w ∈ ws ∧ r = w ++ '.' :: ' ' :: r3 ∧
        matchStarter STARTERS r3 = some st ∧
        out = [' '] ++ w ++ stopTok ++ [' '] ++ st ∧ n = 3 + w.length + st.length := by
  intro ws
  induction ws with
  | nil => intro r out n h; simp [trySufStartAux] at h
  | cons w ws ih =>
    intro r out n h
    simp only [trySufStartAux] at h
    split at h
    · rename_i r3 hch
      split at h
      · rename_i st hst
        obtain ⟨rfl, rfl⟩ :
            out = [' '] ++ w ++ stopTok ++ [' '] ++ st ∧ n = 3 + w.length + st.length := by
          simpa [eq_comm] using h
        exact ⟨w, r3, st, List.mem_cons_self _ _, chomp_eq_some hch, hst, rfl, rfl⟩
      · obtain ⟨w', r3', st, hw, hr, hst, hout, hn⟩ := ih r out n h
        exact ⟨w', r3', st, List.mem_cons_of_mem _ hw, hr, hst, hout, hn⟩
    · obtain ⟨w', r3', st, hw, hr, hst, hout, hn⟩ := ih r out n h
      exact ⟨w', r3', st, List.mem_cons_of_mem _ hw, hr, hst, hout, hn⟩
    · obtain ⟨w', r3', st, hw, hr, hst, hout, hn⟩ := ih r out n h
      exact ⟨w', r3', st, List.mem_cons_of_mem _ hw, hr, hst, hout, hn⟩

theorem trySufStart_inv {t out : List Char} {n : Nat} (h : trySufStart t = some (out, n)) :
    ∃ w r3 st, w ∈ SUFS ∧ t = ' ' :: (w ++ '.' :: ' ' :: r3) ∧
      matchStarter STARTERS r3 = some st ∧
      out = [' '] ++ w ++ stopTok ++ [' '] ++ st ∧ n = 3 + w.length + st.length := by
  rw [trySufStart.eq_def] at h
  split at h
  · rename_i r
    obtain ⟨w, r3, st, hw, hr, hst, hout, hn⟩ := trySufStartAux_inv SUFS r out n h
    exact ⟨w, r3, st, hw, by rw [hr], hst, hout, hn⟩
  · simp at h

theorem trySufAux_inv :
    ∀ (ws : List (List Char)) (r out : List Char) (n : Nat),
      trySufAux ws r = some (out, n) →
      ∃ w rr, w ∈ ws ∧ r = w ++ '.' :: rr ∧
        out = [' '] ++ w ++ prdTok ∧ n = w.length + 2 := by
  intro ws
  induction ws with
  | nil => intro r out n h; simp [trySufAux] at h
  | cons w ws ih =>
    intro r out n h
    simp only [trySufAux] at h
    split at h
    · rename_i rr hch
      obtain ⟨rfl, rfl⟩ : out = [' '] ++ w ++ prdTok ∧ n = w.length + 2 := by
        simpa [eq_comm] using h
      exact ⟨w, rr, List.mem_cons_self _ _, chomp_eq_some hch, rfl, rfl⟩
    · obtain ⟨w', rr, hw, hr, hout, hn⟩ := ih r out n h
      exact ⟨w', rr, List.mem_cons_of_mem _ hw, hr, hout, hn⟩
    · obtain ⟨w', rr, hw, hr, hout, hn⟩ := ih r out n h
      exact ⟨w', rr, List.mem_cons_of_mem _ hw, hr, hout, hn⟩

theorem trySuf_inv {t out : List Char} {n : Nat} (h : trySuf t = some (out, n)) :
    ∃ w rr, w ∈ SUFS ∧ t = ' ' :: (w ++ '.' :: rr) ∧
      out = [' '] ++ w ++ prdTok ∧ n = w.length + 2 := by
  rw [trySuf.eq_def] at h
  split at h
  · rename_i r
    obtain ⟨w, rr, hw, hr, hout, hn⟩ := trySufAux_inv SUFS r out n h
    exact ⟨w, rr, hw, by rw [hr], hout, hn⟩
  · simp at h

theorem tryCap_inv {t out : List Char} {n : Nat} (h : tryCap t = some (out, n)) :
    ∃ a r, isAlphaAZ a ∧ t = ' ' :: a :: '.' :: r ∧
      out = [' ', a] ++ prdTok ∧ n = 3 := by
  rw [tryCap.eq_def] at h
  split at h
  · rename_i a r
    split at h
    · rename_i ha
      obtain ⟨rfl, rfl⟩ : out = [' ', a] ++ prdTok ∧ n = 3 := by
        simpa [eq_comm] using h
      exact ⟨a, r, ha, rfl, rfl, rfl⟩
    · simp at h
  · simp at h

/-! ### No pass introduces a newline (claim C10) -/

theorem rwF_absent2 {tr : List Char → Option (List Char × Nat)} {x : Char}
    (Hout : ∀ t out n, tr t = some (out, n) → x ∈ out → x ∈ t) :
    ∀ f s, x ∉ s → x ∉ rwF tr f s := by
  intro f
  induction f with
  | zero => intro s hs; cases s with
    | nil => simp [rwF_nil]
    | cons c rest => simpa [rwF_zero] using hs
  | succ f ih =>
    intro s hs
    cases s with
    | nil => simp [rwF_nil]
    | cons c rest =>
      cases h : tr (c :: rest) with
      | some p =>
        obtain ⟨out, n⟩ := p
        rw [rwF_cons_some h]
        intro hmem
        rcases List.mem_append.mp hmem with h1 | h1
        · exact hs (Hout _ _ _ h h1)
        · exact ih _ (fun hx => hs (List.drop_subset _ _ hx)) h1
      | none =>
        rw [rwF_cons_none h]
        intro hmem
        rcases List.mem_cons.mp hmem with h1 | h1
        · exact hs (h1 ▸ List.mem_cons_self c rest)
        · exact ih rest (fun hx => hs (List.mem_cons_of_mem c hx)) h1

theorem rwRun_absent2 {tr : List Char → Option (List Char × Nat)} {x : Char}
    (Hout : ∀ t out n, tr t = some (out, n) → x ∈ out → x ∈ t) {s : List Char}
    (hs : x ∉ s) : x ∉ rwRun tr s :=
  rwF_absent2 Hout _ s hs

theorem tryHon_nl {t out : List Char} {n : Nat} (h : tryHon t = some (out, n)) :
    '\n' ∈ out → '\n' ∈ t := by
  intro hm
  obtain ⟨w, r, hw, -, rfl, -⟩ := tryWordDot_inv HONORIFICS t out n h
  have hno : ∀ u ∈ HONORIFICS, '\n' ∉ u := by decide
  rcases List.mem_append.mp hm with hm | hm
  · exact absurd hm (hno w hw)
  · exact absurd hm (by decide)

theorem tryWeb_nl {t out : List Char} {n : Nat} (h : tryWeb t = some (out, n)) :
    '\n' ∈ out → '\n' ∈ t := by
  intro hm
  obtain ⟨w, rr, hw, -, rfl, -⟩ := tryWeb_inv h
  have hno : ∀ u ∈ WEBS, '\n' ∉ u := by decide
  rcases List.mem_append.mp hm with hm | hm
  · exact absurd hm (by decide)
  · exact absurd hm (hno w hw)

theorem matchStarter_mem {alts : List (List Char × Bool)} {t st : List Char} {x : Char}
    (h : matchStarter alts t = some st) (hx : x ∈ st) : x ∈ t := by
  obtain ⟨r, rfl, -⟩ := matchStarter_inv alts t st h
  exact List.mem_append_left r hx

theorem tryDigits_nl {t out : List Char} {n : Nat} (h : tryDigits t = some (out, n)) :
    '\n' ∈ out → '\n' ∈ t := by
  intro hm
  obtain ⟨d1, d2, r, h1, h2, rfl, rfl, -⟩ := tryDigits_inv h
  rcases List.mem_append.mp hm with hm | hm
  · rcases List.mem_append.mp hm with hm | hm
    · obtain rfl : '\n' = d1 := by simpa using hm
      exact absurd h1 (by decide)
    · exact absurd hm (by decide)
  · obtain rfl : '\n' = d2 := by simpa using hm
    exact absurd h2 (by decide)

theorem tryDots_nl {t out : List Char} {n : Nat} (h : tryDots t = some (out, n)) :
    '\n' ∈ out → '\n' ∈ t := by
  intro hm
  obtain ⟨r, rfl, -, rfl⟩ := tryDots_inv h
  rcases List.mem_append.mp hm with hm | hm
  · obtain ⟨l, hl, hml⟩ := List.mem_flatten.mp hm
    rw [List.eq_of_mem_replicate hl] at hml
    exact absurd hml (by decide)
  · exact absurd hm (by decide)

theorem tryPhD_nl {t out : List Char} {n : Nat} (h : tryPhD t = some (out, n)) :
    '\n' ∈ out → '\n' ∈ t := by
  intro hm
  obtain ⟨r, rfl, rfl, -⟩ := tryPhD_inv h
  exact absurd hm (by decide)

theorem tryInitials_nl {t out : List Char} {n : Nat} (h : tryInitials t = some (out, n)) :
    '\n' ∈ out → '\n' ∈ t := by
  intro hm
  obtain ⟨w, a, r, hw, ha, rfl, rfl, -⟩ := tryInitials_inv h
  rcases List.mem_append.mp hm with hm | hm
  · rcases List.mem_append.mp hm with hm | hm
    · rcases List.mem_cons.mp hm with hm | hm
      · exact absurd hm (by decide)
      · obtain rfl : '\n' = a := by simpa using hm
        exact absurd ha (by decide)
    · exact absurd hm (by decide)
  · exact absurd hm (by decide)

theorem tryAcro_nl {t out : List Char} {n : Nat} (h : tryAcro t = some (out, n)) :
    '\n' ∈ out → '\n' ∈ t := by
  intro hm
  obtain ⟨a, b, rest, rfl, hA, hB, hcase⟩ := tryAcro_inv h
  rcases hcase with ⟨c, r3, st, rfl, hC, hst, rfl, -⟩ | ⟨r3, st, rfl, hst, rfl, -⟩
  · rcases List.mem_append.mp hm with hm | hm
    · rcases List.mem_append.mp hm with hm | hm
      · rcases List.mem_append.mp hm with hm | hm
        · simp only [List.mem_cons, List.not_mem_nil, or_false] at hm
          rcases hm with hm | hm | hm | hm | hm | hm
          · rw [← hm] at hA; exact absurd hA (by decide)
          · exact absurd hm (by decide)
          · rw [← hm] at hB; exact absurd hB (by decide)
          · exact absurd hm (by decide)
          · rw [← hm] at hC; exact absurd hC (by decide)
          · exact absurd hm (by decide)
        · exact absurd hm (by decide)
      · exact absurd hm (by decide)
    · have := matchStarter_mem hst hm
      simp [this]
  · rcases List.mem_append.mp hm with hm | hm
    · rcases List.mem_append.mp hm with hm | hm
      · rcases List.mem_append.mp hm with hm | hm
        · simp only [List.mem_cons, List.not_mem_nil, or_false] at hm
          rcases hm with hm | hm | hm | hm
          · rw [← hm] at hA; exact absurd hA (by decide)
          · exact absurd hm (by decide)
          · rw [← hm] at hB; exact absurd hB (by decide)
          · exact absurd hm (by decide)
        · exact absurd hm (by decide)
      · exact absurd hm (by decide)
    · have := matchStarter_mem hst hm
      simp [this]

theorem tryThree_nl {t out : List Char} {n : Nat} (h : tryThree t = some (out, n)) :
    '\n' ∈ out → '\n' ∈ t := by
  intro hm
  obtain ⟨a, b, c, r, ha, hb, hc, rfl, rfl, -⟩ := tryThree_inv h
  simp only [List.append_assoc, List.mem_append, List.mem_cons, List.not_mem_nil,
    or_false] at hm
  rcases hm with hm | hm | hm | hm | hm | hm
  · rw [← hm] at ha; exact absurd ha (by decide)
  · exact absurd hm (by decide)
  · rw [← hm] at hb; exact absurd hb (by decide)
  · exact absurd hm (by decide)
  · rw [← hm] at hc; exact absurd hc (by decide)
  · exact absurd hm (by decide)

theorem tryTwo_nl {t out : List Char} {n : Nat} (h : tryTwo t = some (out, n)) :
    '\n' ∈ out → '\n' ∈ t := by
  intro hm
  obtain ⟨a, b, r, ha, hb, rfl, rfl, -⟩ := tryTwo_inv h
  simp only [List.append_assoc, List.mem_append, List.mem_cons, List.not_mem_nil,
    or_false] at hm
  rcases hm with hm | hm | hm | hm
  · rw [← hm] at ha; exact absurd ha (by decide)
  · exact absurd hm (by decide)
  · rw [← hm] at hb; exact absurd hb (by decide)
  · exact absurd hm (by decide)

theorem trySufStart_nl {t out : List Char} {n : Nat} (h : trySufStart t = some (out, n)) :
    '\n' ∈ out → '\n' ∈ t := by
  intro hm
  obtain ⟨w, r3, st, hw, rfl, hst, rfl, -⟩ := trySufStart_inv h
  have hno : ∀ u ∈ SUFS, '\n' ∉ u := by decide
  rcases List.mem_append.mp hm with hm | hm
  · rcases List.mem_append.mp hm with hm | hm
    · rcases List.mem_append.mp hm with hm | hm
      · rcases List.mem_append.mp hm with hm | hm
        · exact absurd hm (by decide)
        · exact absurd hm (hno w hw)
      · exact absurd hm (by decide)
    · exact absurd hm (by decide)
  · have := matchStarter_mem hst hm
    simp [this]

theorem trySuf_nl {t out : List Char} {n : Nat} (h : trySuf t = some (out, n)) :
    '\n' ∈ out → '\n' ∈ t := by
  intro hm
  obtain ⟨w, rr, hw, rfl, rfl, -⟩ := trySuf_inv h
  have hno : ∀ u ∈ SUFS, '\n' ∉ u := by decide
  rcases List.mem_append.mp hm with hm | hm
  · rcases List.mem_append.mp hm with hm | hm
    · exact absurd hm (by decide)
    · exact absurd hm (hno w hw)
  · exact absurd hm (by decide)

theorem tryCap_nl {t out : List Char} {n : Nat} (h : tryCap t = some (out, n)) :
    '\n' ∈ out → '\n' ∈ t := by
  intro hm
  obtain ⟨a, r, ha, rfl, rfl, -⟩ := tryCap_inv h
  rcases List.mem_append.mp hm with hm | hm
  · rcases List.mem_cons.mp hm with hm | hm
    · exact absurd hm (by decide)
    · obtain rfl : '\n' = a := by simpa using hm
      exact absurd ha (by decide)
  · exact absurd hm (by decide)

theorem tryRep_nl {pat rep t out : List Char} {n : Nat} (hrep : '\n' ∉ rep)
    (h : tryRep pat rep t = some (out, n)) : '\n' ∈ out → '\n' ∈ t := by
  intro hm
  obtain ⟨rfl, -, -⟩ := tryRep_eq_some h
  exact absurd hm hrep

theorem nl_not_mem_map_nlFun (l : List Char) : '\n' ∉ l.map nlFun := by
  intro hm
  obtain ⟨c, -, hc⟩ := List.mem_map.mp hm
  unfold nlFun at hc
  split at hc
  · exact absurd hc (by decide)
  · rename_i hcn
    exact hcn hc

theorem markPre_no_nl (l : List Char) : '\n' ∉ markPre l := by
  rw [markPre_eq]
  intro hm
  rcases List.mem_cons.mp hm with hm | hm
  · exact absurd hm (by decide)
  · rcases List.mem_append.mp hm with hm | hm
    · exact nl_not_mem_map_nlFun l hm
    · exact absurd hm (by decide)

theorem subPhD_no_nl {t : List Char} (h : '\n' ∉ t) : '\n' ∉ subPhD t := by
  unfold subPhD
  split
  · exact rwRun_absent2 (fun t out n hf => tryPhD_nl hf) h
  · exact h

theorem subQuote1_no_nl {t : List Char} (h : '\n' ∉ t) : '\n' ∉ subQuote1 t := by
  unfold subQuote1
  split
  · exact rwRun_absent2 (fun t out n hf => tryRep_nl (by decide) hf) h
  · exact h

theorem subQuote2_no_nl {t : List Char} (h : '\n' ∉ t) : '\n' ∉ subQuote2 t := by
  unfold subQuote2
  split
  · exact rwRun_absent2 (fun t out n hf => tryRep_nl (by decide) hf) h
  · exact h

theorem subBang_no_nl {t : List Char} (h : '\n' ∉ t) : '\n' ∉ subBang t := by
  unfold subBang
  split
  · exact rwRun_absent2 (fun t out n hf => tryRep_nl (by decide) hf) h
  · exact h

theorem subQn_no_nl {t : List Char} (h : '\n' ∉ t) : '\n' ∉ subQn t := by
  unfold subQn
  split
  · exact rwRun_absent2 (fun t out n hf => tryRep_nl (by decide) hf) h
  · exact h

/-- No pass of the cascade ever introduces a newline, and the initial
replacement removes every newline, so the fully marked text is newline-free. -/
theorem markedText_no_nl (l : List Char) : '\n' ∉ markedText l := by
  unfold markedText preSufText quoteStage
  apply rwRun_absent2 (fun t out n hf => tryRep_nl (by decide) hf)
  apply rwRun_absent2 (fun t out n hf => tryRep_nl (by decide) hf)
  apply rwRun_absent2 (fun t out n hf => tryRep_nl (by decide) hf)
  apply rwRun_absent2 (fun t out n hf => tryRep_nl (by decide) hf)
  apply subQn_no_nl
  apply subBang_no_nl
  apply subQuote2_no_nl
  apply subQuote1_no_nl
  apply rwRun_absent2 (fun t out n hf => tryCap_nl hf)
  apply rwRun_absent2 (fun t out n hf => trySuf_nl hf)
  apply rwRun_absent2 (fun t out n hf => trySufStart_nl hf)
  apply rwRun_absent2 (fun t out n hf => tryTwo_nl hf)
  apply rwRun_absent2 (fun t out n hf => tryThree_nl hf)
  apply rwRun_absent2 (fun t out n hf => tryAcro_nl hf)
  apply rwRun_absent2 (fun t out n hf => tryInitials_nl hf)
  apply subPhD_no_nl
  apply rwRun_absent2 (fun t out n hf => tryDots_nl hf)
  apply rwRun_absent2 (fun t out n hf => tryDigits_nl hf)
  apply rwRun_absent2 (fun t out n hf => tryWeb_nl hf)
  apply rwRun_absent2 (fun t out n hf => tryHon_nl hf)
  exact markPre_no_nl l

theorem splitStop_mem_subset_fuel :
    ∀ (N : Nat) (l : List Char), l.length ≤ N → ∀ p ∈ splitStop l, ∀ c ∈ p, c ∈ l := by
  intro N
  induction N with
  | zero =>
    intro l hl p hp c hc
    obtain rfl : l = [] := List.length_eq_zero.mp (Nat.le_zero.mp hl)
    simp only [splitStop] at hp
    obtain rfl : p = [] := by simpa using hp
    simp at hc
  | succ N ih =>
    intro l hl p hp c hc
    cases l with
    | nil =>
      simp only [splitStop] at hp
      obtain rfl : p = [] := by simpa using hp
      simp at hc
    | cons a rest =>
      rw [splitStop.eq_def] at hp
      split at hp
      · rename_i heq
        simp at heq
      · rename_i rest2 heq
        rcases List.mem_cons.mp hp with rfl | hp
        · simp at hc
        · have hlen : rest2.length ≤ N := by
            have := congrArg List.length heq
            simp only [List.length_cons] at this hl
            omega
          have hcr : c ∈ rest2 := ih rest2 hlen p hp c hc
          rw [heq]
          simp [hcr]
      · rename_i heq
        injection heq with h1 h2
        subst h1
        subst h2
        have hlen : rest.length ≤ N := by
          simp only [List.length_cons] at hl
          omega
        split at hp
        · rename_i hnil
          obtain rfl : p = [a] := by simpa using hp
          rcases List.mem_cons.mp hc with rfl | hc
          · exact List.mem_cons_self _ _
          · simp at hc
        · rename_i q qs hq
          rcases List.mem_cons.mp hp with rfl | hp
          · rcases List.mem_cons.mp hc with rfl | hc
            · exact List.mem_cons_self _ _
            · have hqmem : q ∈ splitStop rest := by rw [hq]; exact List.mem_cons_self _ _
              exact List.mem_cons_of_mem _ (ih rest hlen q hqmem c hc)
          · have hpmem : p ∈ splitStop rest := by rw [hq]; exact List.mem_cons_of_mem _ hp
            exact List.mem_cons_of_mem _ (ih rest hlen p hpmem c hc)

theorem splitStop_mem_subset (l : List Char) (p : List Char) (hp : p ∈ splitStop l) :
    ∀ c ∈ p, c ∈ l :=
  splitStop_mem_subset_fuel l.length l le_rfl p hp

theorem pyStrip_subset {l : List Char} : ∀ c ∈ pyStrip l, c ∈ l := by
  intro c hc
  unfold pyStrip at hc
  rw [List.mem_reverse] at hc
  have h1 : ((l.dropWhile pyWs).reverse.dropWhile pyWs).Sublist
      ((l.dropWhile pyWs).reverse) := List.dropWhile_sublist pyWs
  have h2 := h1.subset hc
  rw [List.mem_reverse] at h2
  have h4 : (l.dropWhile pyWs).Sublist l := List.dropWhile_sublist pyWs
  exact h4.subset h2

theorem dropLastEmpty_subset {ss : List (List Char)} :
    ∀ p ∈ dropLastEmpty ss, p ∈ ss := by
  intro p hp
  unfold dropLastEmpty at hp
  split at hp
  · split at hp
    · exact (List.dropLast_sublist ss).subset hp
    · exact hp
  · exact hp

/-- C10: no sentence returned by `split_into_sentences` contains a newline
character: newlines are replaced by spaces before any segmentation pass runs,
and no pass reintroduces one. -/
theorem C10_no_newline (s : String) (out : String)
    (hout : out ∈ split_into_sentences s) : '\n' ∉ out.data := by
  unfold split_into_sentences at hout
  obtain ⟨p, hp, rfl⟩ := List.mem_map.mp hout
  intro hc
  have hp2 := dropLastEmpty_subset p hp
  obtain ⟨q, hq, rfl⟩ := List.mem_map.mp (by exact hp2 : p ∈ (splitStop (markedText s.data)).map pyStrip)
  have h1 : '\n' ∈ q := pyStrip_subset _ hc
  have h2 : '\n' ∈ markedText s.data := splitStop_mem_subset _ q hq _ h1
  exact markedText_no_nl s.data h2

/-- C10 witness: a concrete input containing a newline, whose single sentence
contains a space where the newline stood. -/
theorem C10_no_newline_witness :
    ("a b" : String) ∈ split_into_sentences "a\nb" ∧ '\n' ∉ ("a b" : String).data :=
  ⟨by decide, C10_no_newline "a\nb" "a b" (by decide)⟩

/-! ### The ellipsis pass (claim C3) -/

theorem leadDots_cons_dot (x : List Char) : leadDots ('.' :: x) = leadDots x + 1 := rfl

theorem leadDots_cons_ne {c : Char} (hc : c ≠ '.') (x : List Char) :
    leadDots (c :: x) = 0 := by
  rw [leadDots.eq_def]
  split
  · rename_i heq
    injection heq with h1 h2
    exact absurd h1 hc
  · rfl

theorem leadDots_le_length (x : List Char) : leadDots x ≤ x.length := by
  induction x with
  | nil => simp [leadDots]
  | cons c x ih =>
    by_cases hc : c = '.'
    · subst hc
      rw [leadDots_cons_dot]
      simpa using ih
    · rw [leadDots_cons_ne hc]
      simp

theorem leadDots_all_dots {x : List Char} (h : leadDots x = x.length) :
    ∀ c ∈ x, c = '.' := by
  induction x with
  | nil => simp
  | cons c x ih =>
    by_cases hc : c = '.'
    · subst hc
      rw [leadDots_cons_dot] at h
      simp only [List.length_cons, Nat.add_right_cancel_iff] at h
      intro d hd
      rcases List.mem_cons.mp hd with rfl | hd
      · rfl
      · exact ih h d hd
    · rw [leadDots_cons_ne hc] at h
      simp at h

theorem leadDots_append_of_lt {x : List Char} (y : List Char)
    (h : leadDots x < x.length) : leadDots (x ++ y) = leadDots x := by
  induction x with
  | nil => simp at h
  | cons c x ih =>
    by_cases hc : c = '.'
    · subst hc
      rw [List.cons_append, leadDots_cons_dot, leadDots_cons_dot]
      rw [leadDots_cons_dot] at h
      simp only [List.length_cons] at h
      rw [ih (by omega)]
    · rw [List.cons_append, leadDots_cons_ne hc, leadDots_cons_ne hc]

theorem leadDots_replicate_append {b : List Char} (m : Nat) (hb : b.head? ≠ some '.') :
    leadDots (List.replicate m '.' ++ b) = m := by
  induction m with
  | zero =>
    simp only [List.replicate, List.nil_append]
    cases b with
    | nil => rfl
    | cons c r =>
      have hc : c ≠ '.' := by
        intro hcc
        subst hcc
        simp at hb
      exact leadDots_cons_ne hc r
  | succ m ih =>
    rw [List.replicate_succ, List.cons_append, leadDots_cons_dot, ih]

theorem tryDots_fire (x : List Char) :
    tryDots ('.' :: '.' :: x) =
      some ((List.replicate (2 + leadDots x) prdTok).flatten ++ stopTok, 2 + leadDots x) := by
  rfl

theorem tryDots_H0 {t out : List Char} {n : Nat} (h : tryDots t = some (out, n)) : 1 ≤ n := by
  obtain ⟨r, -, rfl, -⟩ := tryDots_inv h
  omega

theorem all_dots_getLast {x : List Char} (hne : x ≠ []) (h : ∀ c ∈ x, c = '.') :
    x.getLast? = some '.' := by
  induction x with
  | nil => exact absurd rfl hne
  | cons c x ih =>
    cases x with
    | nil =>
      have : c = '.' := h c (List.mem_cons_self _ _)
      subst this
      rfl
    | cons d x' =>
      rw [List.getLast?_cons_cons]
      exact ih (by simp) fun e he => h e (List.mem_cons_of_mem _ he)

/-- The ellipsis pass distributes over a split of the text at a position whose
left side does not end in a period. -/
theorem rwRun_dots_append :
    ∀ (N : Nat) (a u : List Char), a.length ≤ N → a.getLast? ≠ some '.' →
      rwRun tryDots (a ++ u) = rwRun tryDots a ++ rwRun tryDots u := by
  intro N
  induction N using Nat.strong_induction_on with
  | _ N ih =>
    intro a u hN hlast
    cases a with
    | nil => simp [rwRun, rwF_nil]
    | cons c a' =>
      cases hfire : tryDots (c :: (a' ++ u)) with
      | some p =>
        obtain ⟨out, n⟩ := p
        obtain ⟨r, hshape, hn, hout⟩ := tryDots_inv hfire
        obtain ⟨rfl, h2⟩ : c = '.' ∧ a' ++ u = '.' :: r := by
          constructor <;> injection hshape <;> assumption
        cases a' with
        | nil => exact absurd (rfl : (['.'] : List Char).getLast? = some '.') hlast
        | cons d a'' =>
          rw [List.cons_append] at h2
          obtain ⟨rfl, h3⟩ : d = '.' ∧ a'' ++ u = r := by
            constructor <;> injection h2 <;> assumption
          subst h3
          have hdotslt : leadDots a'' < a''.length := by
            rcases Nat.lt_or_ge (leadDots a'') a''.length with h | h
            · exact h
            · have heq : leadDots a'' = a''.length :=
                Nat.le_antisymm (leadDots_le_length a'') h
              have hall : ∀ e ∈ ('.' :: '.' :: a'' : List Char), e = '.' := by
                intro e he
                rcases List.mem_cons.mp he with rfl | he
                · rfl
                · rcases List.mem_cons.mp he with rfl | he
                  · rfl
                  · exact leadDots_all_dots heq e he
              exact absurd (all_dots_getLast (by simp) hall) hlast
          rw [leadDots_append_of_lt u hdotslt] at hn
          have hnle : n ≤ a''.length + 1 := by omega
          have hfireA : tryDots ('.' :: '.' :: a'') = some (out, n) := by
            rw [tryDots_fire a'', ← hn, ← hout]
          -- left side
          have hL : rwRun tryDots ('.' :: '.' :: a'' ++ u) =
              out ++ rwRun tryDots (List.drop n ('.' :: '.' :: a'') ++ u) := by
            have h0 : rwRun tryDots ('.' :: '.' :: a'' ++ u) =
                rwF tryDots (('.' :: a'' ++ u).length + 1) ('.' :: ('.' :: a'' ++ u)) := rfl
            rw [h0, rwF_cons_some (by simpa using hfire)]
            congr 1
            have hdrop : List.drop n ('.' :: ('.' :: a'' ++ u)) =
                List.drop n ('.' :: '.' :: a'') ++ u := by
              rw [show ('.' :: ('.' :: a'' ++ u)) = ('.' :: '.' :: a'') ++ u from by simp,
                List.drop_append_eq_append_drop,
                show n - ('.' :: '.' :: a'' : List Char).length = 0 from by
                  simp only [List.length_cons]; omega,
                List.drop_zero]
            rw [hdrop]
            apply rwF_fuel (fun t o k h => tryDots_H0 h)
            · simp only [List.length_append, List.length_drop, List.length_cons]
              omega
            · exact le_rfl
          -- right side
          have hR : rwRun tryDots ('.' :: '.' :: a'') =
              out ++ rwRun tryDots (List.drop n ('.' :: '.' :: a'')) := by
            have h0 : rwRun tryDots ('.' :: '.' :: a'') =
                rwF tryDots (('.' :: a'' : List Char).length + 1) ('.' :: '.' :: a'') := rfl
            rw [h0, rwF_cons_some hfireA]
            congr 1
            apply rwF_fuel (fun t o k h => tryDots_H0 h)
            · simp only [List.length_drop, List.length_cons]
              omega
            · exact le_rfl
          rw [show ('.' :: '.' :: a'' ++ u : List Char) = ('.' :: '.' :: a'') ++ u from by
            simp] at hL
          rw [hL, hR]
          have hlast2 : (List.drop n ('.' :: '.' :: a'')).getLast? ≠ some '.' := by
            cases hd : List.drop n ('.' :: '.' :: a'') with
            | nil => simp
            | cons e es =>
              have hsplit : ('.' :: '.' :: a'' : List Char) =
                  List.take n ('.' :: '.' :: a'') ++ (e :: es) := by
                rw [← hd, List.take_append_drop]
              have := List.getLast?_append_of_ne_nil
                (List.take n ('.' :: '.' :: a''))
                (show (e :: es : List Char) ≠ [] by simp)
              rw [← hsplit] at this
              rw [← hd] at this
              rw [this] at hlast
              rw [← hd]
              exact hlast
          have hlt : (List.drop n ('.' :: '.' :: a'')).length < N := by
            simp only [List.length_drop, List.length_cons]
            simp only [List.length_cons] at hN
            omega
          rw [ih _ hlt _ u le_rfl hlast2, List.append_assoc]
      | none =>
        have hfireA : tryDots (c :: a') = none := by
          cases hfA : tryDots (c :: a') with
          | none => rfl
          | some p =>
            obtain ⟨o2, n2⟩ := p
            obtain ⟨r, hshape, -, -⟩ := tryDots_inv hfA
            obtain ⟨rfl, h2⟩ : c = '.' ∧ a' = '.' :: r := by
              constructor <;> injection hshape <;> assumption
            subst h2
            rw [List.cons_append] at hfire
            rw [tryDots_fire] at hfire
            exact absurd hfire (by simp)
        have hlast2 : a'.getLast? ≠ some '.' := by
          cases a' with
          | nil => simp
          | cons d a'' =>
            have h5 : ((c :: d :: a'' : List Char)).getLast? =
                ((d :: a'' : List Char)).getLast? := by simp
            rw [← h5]
            exact hlast
        have hL : rwRun tryDots (c :: a' ++ u) = c :: rwRun tryDots (a' ++ u) := by
          have h0 : rwRun tryDots (c :: (a' ++ u)) =
              rwF tryDots ((a' ++ u).length + 1) (c :: (a' ++ u)) := rfl
          rw [List.cons_append, h0, rwF_cons_none hfire]
          rfl
        have hR : rwRun tryDots (c :: a') = c :: rwRun tryDots a' := by
          have h0 : rwRun tryDots (c :: a') =
              rwF tryDots (a'.length + 1) (c :: a') := rfl
          rw [h0, rwF_cons_none hfireA]
          rfl
        have hlt : a'.length < N := by
          simp only [List.length_cons] at hN
          omega
        rw [hL, hR, ih _ hlt _ u le_rfl hlast2, List.cons_append]

theorem rwRun_dots_run {b : List Char} (n : Nat) (h2 : 2 ≤ n) (hb : b.head? ≠ some '.') :
    rwRun tryDots (List.replicate n '.' ++ b) =
      (List.replicate n prdTok).flatten ++ stopTok ++ rwRun tryDots b := by
  obtain ⟨m, rfl⟩ : ∃ m, n = 2 + m := ⟨n - 2, by omega⟩
  have hrepl : List.replicate (2 + m) '.' ++ b =
      '.' :: '.' :: (List.replicate m '.' ++ b) := by
    rw [show 2 + m = m + 2 from by omega, List.replicate_succ, List.replicate_succ]
    simp
  have hfire : tryDots ('.' :: '.' :: (List.replicate m '.' ++ b)) =
      some ((List.replicate (2 + m) prdTok).flatten ++ stopTok, 2 + m) := by
    rw [tryDots_fire, leadDots_replicate_append m hb]
  have h0 : rwRun tryDots ('.' :: '.' :: (List.replicate m '.' ++ b)) =
      rwF tryDots (('.' :: (List.replicate m '.' ++ b)).length + 1)
        ('.' :: ('.' :: (List.replicate m '.' ++ b))) := rfl
  rw [hrepl, h0, rwF_cons_some hfire]
  congr 1
  have hdrop : List.drop (2 + m) ('.' :: ('.' :: (List.replicate m '.' ++ b))) = b := by
    rw [show ('.' :: ('.' :: (List.replicate m '.' ++ b))) =
      List.replicate (2 + m) '.' ++ b from by rw [hrepl],
      List.drop_append_eq_append_drop]
    simp
  rw [hdrop]
  apply rwF_fuel (fun t o k h => tryDots_H0 h)
  · simp only [List.length_cons, List.length_append, List.length_replicate]
    omega
  · exact le_rfl

theorem subRestore_prd_cons (x : List Char) :
    subRestore (prdTok ++ x) = '.' :: subRestore x := by
  have hfire : tryRep prdTok ['.'] (prdTok ++ x) = some (['.'], 5) := by
    unfold tryRep
    rw [chomp_of_append]
    rfl
  have h0 : subRestore (prdTok ++ x) =
      rwF (tryRep prdTok ['.']) ((prdTok ++ x).length) (prdTok ++ x) := rfl
  have hsh : (prdTok ++ x).length = (('p' :: 'r' :: 'd' :: '>' :: x).length) + 1 := by
    simp [prdTok]
  rw [h0, hsh, show (prdTok ++ x : List Char) = '<' :: ('p' :: 'r' :: 'd' :: '>' :: x) from
    rfl, rwF_cons_some (by simpa using hfire)]
  have hdrop : List.drop 5 ('<' :: 'p' :: 'r' :: 'd' :: '>' :: x) = x := rfl
  rw [hdrop]
  have : ('p' :: 'r' :: 'd' :: '>' :: x : List Char).length = x.length + 4 := by simp
  rw [this]
  show '.' :: rwF (tryRep prdTok ['.']) (x.length + 4) x = '.' :: subRestore x
  congr 1
  apply rwF_fuel (fun t o k h => (tryRep_eq_some h).2.1 ▸ (by simp [prdTok]))
  · omega
  · exact le_rfl

theorem subRestore_marks (n : Nat) :
    subRestore ((List.replicate n prdTok).flatten ++ stopTok) =
      List.replicate n '.' ++ stopTok := by
  induction n with
  | zero => decide
  | succ n ih =>
    rw [List.replicate_succ, List.flatten_cons, List.append_assoc, subRestore_prd_cons, ih,
      List.replicate_succ]
    rfl

/-- C3: in the ellipsis pass, a maximal run of `n ≥ 2` periods (one not
preceded or followed by another period) is rewritten to exactly `n`
protected-period markers followed by exactly one boundary marker, and the
restoration pass maps that emission back to `n` literal periods immediately
followed by the boundary marker. -/
theorem C3_ellipsis_run (a b : List Char) (n : Nat) (h2 : 2 ≤ n)
    (ha : a.getLast? ≠ some '.') (hb : b.head? ≠ some '.') :
    rwRun tryDots (a ++ List.replicate n '.' ++ b) =
      rwRun tryDots a ++ ((List.replicate n prdTok).flatten ++ stopTok) ++
        rwRun tryDots b ∧
    subRestore ((List.replicate n prdTok).flatten ++ stopTok) =
      List.replicate n '.' ++ stopTok := by
  constructor
  · rw [List.append_assoc, rwRun_dots_append a.length a _ le_rfl ha,
      rwRun_dots_run n h2 hb]
    simp [List.append_assoc]
  · exact subRestore_marks n

/-- C3 witness: the run "..." inside "Wait... ok" produces three protected
markers and one boundary marker, restored to "..." plus the boundary. -/
theorem C3_ellipsis_run_witness :
    rwRun tryDots ("Wait".data ++ List.replicate 3 '.' ++ " ok".data) =
      rwRun tryDots "Wait".data ++ ((List.replicate 3 prdTok).flatten ++ stopTok) ++
        rwRun tryDots " ok".data ∧
    subRestore ((List.replicate 3 prdTok).flatten ++ stopTok) =
      List.replicate 3 '.' ++ stopTok :=
  C3_ellipsis_run "Wait".data " ok".data 3 (by decide) (by decide) (by decide)

/-! ### The quote-normalization stage (claim C4) -/

theorem subQuote1_id2 {t : List Char} (h : '”' ∉ t) : subQuote1 t = t := by
  unfold subQuote1
  split
  · exact rwRun_id_of_need (fun t out n hf => tryRep_need (by decide) hf) h
  · rfl

theorem subQuote2_id2 {t : List Char} (h : '"' ∉ t) : subQuote2 t = t := by
  unfold subQuote2
  split
  · exact rwRun_id_of_need (fun t out n hf => tryRep_need (by decide) hf) h
  · rfl

theorem subBang_id2 {t : List Char} (h : '"' ∉ t) : subBang t = t := by
  unfold subBang
  split
  · exact rwRun_id_of_need (fun t out n hf => tryRep_need (by decide) hf) h
  · rfl

theorem subQn_id2 {t : List Char} (h : '"' ∉ t) : subQn t = t := by
  unfold subQn
  split
  · exact rwRun_id_of_need (fun t out n hf => tryRep_need (by decide) hf) h
  · rfl

/-- A literal replace on a text with a single marked occurrence of the
pattern: when no character of the pattern occurs in the surrounding context,
exactly that occurrence is rewritten. -/
theorem rwRun_replace_single_occ {pat rep : List Char} (p0 : Char) {ps : List Char}
    (hpat : pat = p0 :: ps) :
    ∀ (a b : List Char), (∀ c ∈ pat, c ∉ a) → (∀ c ∈ pat, c ∉ b) →
      rwRun (tryRep pat rep) (a ++ pat ++ b) = a ++ rep ++ b := by
  intro a
  induction a with
  | nil =>
    intro b hpa hpb
    have hfire : tryRep pat rep (pat ++ b) = some (rep, pat.length) := by
      unfold tryRep
      rw [chomp_of_append]
    have hlen : (pat ++ b).length = (ps ++ b).length + 1 := by
      subst hpat
      simp
    simp only [List.nil_append]
    rw [rwRun, hlen, show (pat ++ b : List Char) = p0 :: (ps ++ b) from by
      rw [hpat]; simp, rwF_cons_some (by
        rw [show (p0 :: (ps ++ b) : List Char) = pat ++ b from by rw [hpat]; simp]
        exact hfire)]
    have hdrop : List.drop pat.length (p0 :: (ps ++ b)) = b := by
      rw [show (p0 :: (ps ++ b) : List Char) = pat ++ b from by rw [hpat]; simp,
        show pat.length = (pat : List Char).length from rfl, List.drop_left]
    rw [hdrop]
    have hid : rwF (tryRep pat rep) (ps ++ b).length b = b := by
      have h1 : rwF (tryRep pat rep) (ps ++ b).length b = rwRun (tryRep pat rep) b := by
        apply rwF_fuel (fun t o k h => by
          obtain ⟨-, rfl, -⟩ := tryRep_eq_some h
          rw [hpat]; simp)
        · simp
        · exact le_rfl
      rw [h1]
      apply rwRun_id
      intro k
      cases hk : tryRep pat rep (List.drop k b) with
      | none => rfl
      | some p =>
        obtain ⟨o, m⟩ := p
        obtain ⟨-, -, r, hr⟩ := tryRep_eq_some hk
        have : p0 ∈ List.drop k b := by
          rw [hr, hpat]
          simp
        exact absurd (List.drop_subset _ _ this)
          (hpb p0 (by rw [hpat]; exact List.mem_cons_self _ _))
    rw [hid]
  | cons c a' ih =>
    intro b hpa hpb
    have hnone : tryRep pat rep (c :: (a' ++ pat ++ b)) = none := by
      cases hk : tryRep pat rep (c :: (a' ++ pat ++ b)) with
      | none => rfl
      | some p =>
        obtain ⟨o, m⟩ := p
        obtain ⟨-, -, r, hr⟩ := tryRep_eq_some hk
        have hc : c = p0 := by
          rw [hpat] at hr
          injection hr
        exact absurd (hc ▸ List.mem_cons_self c a')
          (hpa p0 (by rw [hpat]; exact List.mem_cons_self _ _))
    have h0 : rwRun (tryRep pat rep) (c :: (a' ++ pat ++ b)) =
        rwF (tryRep pat rep) ((a' ++ pat ++ b).length + 1) (c :: (a' ++ pat ++ b)) := rfl
    rw [show ((c :: a') ++ pat ++ b : List Char) = c :: (a' ++ pat ++ b) from by simp,
      h0, rwF_cons_none hnone]
    have : rwF (tryRep pat rep) (a' ++ pat ++ b).length (a' ++ pat ++ b) =
        rwRun (tryRep pat rep) (a' ++ pat ++ b) := rfl
    rw [this, ih b (fun d hd => fun hmem => hpa d hd (List.mem_cons_of_mem c hmem)) hpb]
    simp

/-- C4 counterexample: for the curly-quote style only the period is swapped.
On input "Hei!” Moi." the terminal '!' immediately precedes the curly closing
quote, yet it is not moved behind the quote: the pass leaves '!' before '”',
and the final segmentation shows the quote opening the second sentence.  Under
the claim the output would have been ["Hei”!", "Moi."]. -/
theorem C4_quote_swap_cx :
    quoteStage " Hei!” Moi.  ".data = " Hei!” Moi.  ".data ∧
      split_into_sentences "Hei!” Moi." = ["Hei!", "” Moi."] := by
  constructor
  · decide
  · decide

theorem hasSub_single_of_mem {x : Char} {l : List Char} (h : x ∈ l) :
    hasSub [x] l = true := by
  induction l with
  | nil => simp at h
  | cons c rest ih =>
    rw [hasSub.eq_def, Bool.or_eq_true]
    rcases List.mem_cons.mp h with rfl | h
    · exact Or.inl (by simp [chomp])
    · exact Or.inr (ih h)

/-- C4 amended: the quote-normalization stage swaps a terminal `.`, `!` or `?`
past a straight double quote, but for the curly closing quote only a terminal
`.` is swapped; `!` and `?` before a curly quote are left in place.  Stated
for a single marked adjacency in an otherwise punctuation- and quote-free
context. -/
theorem C4_quote_swap_amended (a b : List Char)
    (hd : '.' ∉ a ++ b) (hbg : '!' ∉ a ++ b) (hq : '?' ∉ a ++ b)
    (hsq : '"' ∉ a ++ b) (hcq : '”' ∉ a ++ b) :
    quoteStage (a ++ ".”".data ++ b) = a ++ "”.".data ++ b ∧
    quoteStage (a ++ ".\"".data ++ b) = a ++ "\".".data ++ b ∧
    quoteStage (a ++ "!\"".data ++ b) = a ++ "\"!".data ++ b ∧
    quoteStage (a ++ "?\"".data ++ b) = a ++ "\"?".data ++ b ∧
    quoteStage (a ++ "!”".data ++ b) = a ++ "!”".data ++ b ∧
    quoteStage (a ++ "?”".data ++ b) = a ++ "?”".data ++ b := by
  have hA : ∀ x : Char, x ∉ a ++ b → ∀ mid : List Char, x ∉ mid → x ∉ a ++ mid ++ b := by
    intro x hx mid hmid hmem
    rcases List.mem_append.mp hmem with hmem | hmem
    · rcases List.mem_append.mp hmem with hmem | hmem
      · exact hx (List.mem_append_left b hmem)
      · exact hmid hmem
    · exact hx (List.mem_append_right a hmem)
  have hsplit : ∀ x : Char, x ∉ a ++ b → x ∉ a ∧ x ∉ b := fun x hx =>
    ⟨fun h => hx (List.mem_append_left b h), fun h => hx (List.mem_append_right a h)⟩
  have hmem2 : ∀ (x y : Char) (s : List Char), x ∉ s → y ∉ s →
      ∀ c ∈ ([x, y] : List Char), c ∉ s := by
    intro x y s hx hy c hc
    rcases List.mem_cons.mp hc with rfl | hc
    · exact hx
    · rcases List.mem_cons.mp hc with rfl | hc
      · exact hy
      · simp at hc
  refine ⟨?_, ?_, ?_, ?_, ?_, ?_⟩
  · unfold quoteStage
    have h1 : subQuote1 (a ++ ".”".data ++ b) = a ++ "”.".data ++ b := by
      unfold subQuote1
      rw [if_pos (hasSub_single_of_mem (by simp))]
      exact rwRun_replace_single_occ '.' rfl a b
        (hmem2 '.' '”' a (hsplit _ hd).1 (hsplit _ hcq).1)
        (hmem2 '.' '”' b (hsplit _ hd).2 (hsplit _ hcq).2)
    rw [h1, subQuote2_id2 (hA '"' hsq _ (by decide)),
      subBang_id (hA '!' hbg _ (by decide)), subQn_id (hA '?' hq _ (by decide))]
  · unfold quoteStage
    rw [subQuote1_id2 (hA '”' hcq _ (by decide))]
    have h2 : subQuote2 (a ++ ".\"".data ++ b) = a ++ "\".".data ++ b := by
      unfold subQuote2
      rw [if_pos (hasSub_single_of_mem (by simp))]
      exact rwRun_replace_single_occ '.' rfl a b
        (hmem2 '.' '"' a (hsplit _ hd).1 (hsplit _ hsq).1)
        (hmem2 '.' '"' b (hsplit _ hd).2 (hsplit _ hsq).2)
    rw [h2, subBang_id (hA '!' hbg _ (by decide)), subQn_id (hA '?' hq _ (by decide))]
  · unfold quoteStage
    rw [subQuote1_id2 (hA '”' hcq _ (by decide)),
      subQuote2_id (hA '.' hd _ (by decide))]
    have h3 : subBang (a ++ "!\"".data ++ b) = a ++ "\"!".data ++ b := by
      unfold subBang
      rw [if_pos (hasSub_single_of_mem (by simp))]
      exact rwRun_replace_single_occ '!' rfl a b
        (hmem2 '!' '"' a (hsplit _ hbg).1 (hsplit _ hsq).1)
        (hmem2 '!' '"' b (hsplit _ hbg).2 (hsplit _ hsq).2)
    rw [h3, subQn_id (hA '?' hq _ (by decide))]
  · unfold quoteStage
    rw [subQuote1_id2 (hA '”' hcq _ (by decide)),
      subQuote2_id (hA '.' hd _ (by decide)),
      subBang_id (hA '!' hbg _ (by decide))]
    unfold subQn
    rw [if_pos (hasSub_single_of_mem (by simp))]
    exact rwRun_replace_single_occ '?' rfl a b
      (hmem2 '?' '"' a (hsplit _ hq).1 (hsplit _ hsq).1)
      (hmem2 '?' '"' b (hsplit _ hq).2 (hsplit _ hsq).2)
  · unfold quoteStage
    rw [subQuote1_id (hA '.' hd _ (by decide)),
      subQuote2_id (hA '.' hd _ (by decide)),
      subBang_id2 (hA '"' hsq _ (by decide)),
      subQn_id2 (hA '"' hsq _ (by decide))]
  · unfold quoteStage
    rw [subQuote1_id (hA '.' hd _ (by decide)),
      subQuote2_id (hA '.' hd _ (by decide)),
      subBang_id (hA '!' hbg _ (by decide)),
      subQn_id2 (hA '"' hsq _ (by decide))]

/-- C4 witness: the amended theorem at a concrete one-word context. -/
theorem C4_quote_swap_amended_witness :
    quoteStage ("Hei".data ++ ".”".data ++ " Moi".data) =
      "Hei".data ++ "”.".data ++ " Moi".data ∧
    quoteStage ("Hei".data ++ ".\"".data ++ " Moi".data) =
      "Hei".data ++ "\".".data ++ " Moi".data ∧
    quoteStage ("Hei".data ++ "!\"".data ++ " Moi".data) =
      "Hei".data ++ "\"!".data ++ " Moi".data ∧
    quoteStage ("Hei".data ++ "?\"".data ++ " Moi".data) =
      "Hei".data ++ "\"?".data ++ " Moi".data ∧
    quoteStage ("Hei".data ++ "!”".data ++ " Moi".data) =
      "Hei".data ++ "!”".data ++ " Moi".data ∧
    quoteStage ("Hei".data ++ "?”".data ++ " Moi".data) =
      "Hei".data ++ "?”".data ++ " Moi".data :=
  C4_quote_swap_amended "Hei".data " Moi".data (by decide) (by decide) (by decide)
    (by decide) (by decide)

/-! ### Content preservation machinery for the restoration claim (C5) -/

theorem prdTok_cons (r : List Char) :
    prdTok ++ r = '<' :: 'p' :: 'r' :: 'd' :: '>' :: r := rfl

theorem stopTok_cons (r : List Char) :
    stopTok ++ r = '<' :: 's' :: 't' :: 'o' :: 'p' :: '>' :: r := rfl

theorem phi_nil : phi [] = [] := rfl

set_option maxHeartbeats 1000000 in
theorem phi_prd (r : List Char) : phi (prdTok ++ r) = '.' :: phi r := by
  rw [prdTok_cons]
  rfl

set_option maxHeartbeats 1000000 in
theorem phi_stop (r : List Char) : phi (stopTok ++ r) = phi r := by
  rw [stopTok_cons]
  rfl

theorem phi_cons (c : Char) (rest : List Char) :
    phi (c :: rest) =
      if c = '<' then
        match rest with
        | 'p' :: 'r' :: 'd' :: '>' :: r2 => '.' :: phi r2
        | 's' :: 't' :: 'o' :: 'p' :: '>' :: r2 => phi r2
        | _ => c :: rest
      else if pyWs c then phi rest else c :: phi rest := by
  rw [phi.eq_def]

theorem phi_chr {c : Char} (hc : c ≠ '<') (rest : List Char) :
    phi (c :: rest) = if pyWs c then phi rest else c :: phi rest := by
  rw [phi_cons, if_neg hc]

theorem MW_cons_of_ne {c : Char} {rest : List Char} (hc : c ≠ '<') (h : MW rest) :
    MW (c :: rest) := MW.chr hc h

theorem MW_of_not_lt {l : List Char} (h : '<' ∉ l) : MW l := by
  induction l with
  | nil => exact MW.nil
  | cons c rest ih =>
    exact MW.chr (fun hcc => h (hcc ▸ List.mem_cons_self c rest))
      (ih fun hm => h (List.mem_cons_of_mem c hm))

theorem MW_prdTok : MW prdTok := by
  have := @MW.prd [] MW.nil
  simpa using this

theorem MW_stopTok : MW stopTok := by
  have := @MW.stop [] MW.nil
  simpa using this

theorem MW_append {a b : List Char} (ha : MW a) (hb : MW b) : MW (a ++ b) := by
  induction ha with
  | nil => simpa using hb
  | chr hc _ ih => exact MW.chr hc ih
  | prd _ ih =>
    rw [List.append_assoc]
    exact MW.prd ih
  | stop _ ih =>
    rw [List.append_assoc]
    exact MW.stop ih

theorem MW_cons_inv {c : Char} {l : List Char} (h : MW (c :: l)) (hc : c ≠ '<') :
    MW l := by
  cases h with
  | chr _ h2 => exact h2
  | prd h2 => exact absurd rfl hc
  | stop h2 => exact absurd rfl hc

theorem MW_lt_inv {l : List Char} (h : MW ('<' :: l)) :
    (∃ r, l = 'p' :: 'r' :: 'd' :: '>' :: r ∧ MW r) ∨
    (∃ r, l = 's' :: 't' :: 'o' :: 'p' :: '>' :: r ∧ MW r) := by
  cases h with
  | chr h1 _ => exact absurd rfl h1
  | prd h2 =>
    rename_i rest
    exact Or.inl ⟨rest, rfl, h2⟩
  | stop h2 =>
    rename_i rest
    exact Or.inr ⟨rest, rfl, h2⟩

theorem phi_append {a : List Char} (ha : MW a) (b : List Char) :
    phi (a ++ b) = phi a ++ phi b := by
  induction ha with
  | nil => simp [phi_nil]
  | chr hc _ ih =>
    rename_i c rest
    rw [List.cons_append, phi_chr hc, phi_chr hc, ih]
    split <;> simp
  | prd _ ih =>
    rename_i rest
    rw [List.append_assoc, phi_prd, phi_prd, ih]
    simp
  | stop _ ih =>
    rename_i rest
    rw [List.append_assoc, phi_stop, phi_stop, ih]

theorem MW_unappend : ∀ {a : List Char}, MW a → ∀ {b : List Char}, MW (a ++ b) → MW b := by
  intro a ha
  induction ha with
  | nil => intro b hab; simpa using hab
  | chr hc _ ih =>
    intro b hab
    rw [List.cons_append] at hab
    exact ih (MW_cons_inv hab hc)
  | @prd rest _ ih =>
    intro b hab
    rw [List.append_assoc, prdTok_cons] at hab
    rcases MW_lt_inv hab with ⟨r, hr, hmw⟩ | ⟨r, hr, hmw⟩
    · obtain rfl : rest ++ b = r := by simpa using hr
      exact ih hmw
    · exact absurd hr (by simp)
  | @stop rest _ ih =>
    intro b hab
    rw [List.append_assoc, stopTok_cons] at hab
    rcases MW_lt_inv hab with ⟨r, hr, hmw⟩ | ⟨r, hr, hmw⟩
    · exact absurd hr (by simp)
    · obtain rfl : rest ++ b = r := by simpa using hr
      exact ih hmw

theorem phi_no_lt {l : List Char} (h : '<' ∉ l) : phi l = nonWs l := by
  induction l with
  | nil => rfl
  | cons c rest ih =>
    have hc : c ≠ '<' := fun hcc => h (hcc ▸ List.mem_cons_self c rest)
    rw [phi_chr hc, ih fun hm => h (List.mem_cons_of_mem c hm)]
    unfold nonWs
    rw [List.filter_cons]
    by_cases hw : pyWs c
    · simp [hw]
    · simp [hw]

theorem rwF_emit {tr : List Char → Option (List Char × Nat)} :
    ∀ (h r : List Char) (f : Nat),
      (∀ k, k < h.length → tr (List.drop k h ++ r) = none) →
      h.length + r.length ≤ f →
      rwF tr f (h ++ r) = h ++ rwF tr (f - h.length) r := by
  intro h
  induction h with
  | nil => intro r f _ _; simp
  | cons c h' ih =>
    intro r f H hf
    cases f with
    | zero => simp at hf
    | succ f =>
      have h0 : tr (c :: (h' ++ r)) = none := by
        have := H 0 (by simp)
        simpa using this
      rw [List.cons_append, rwF_cons_none h0]
      rw [ih r f (fun k hk => by
          have := H (k + 1) (by simp only [List.length_cons]; omega)
          simpa [List.drop_succ_cons] using this)
        (by simp only [List.length_cons] at hf; omega)]
      have harith : f + 1 - (h'.length + 1) = f - h'.length := by omega
      simp only [List.cons_append, List.length_cons, harith]

/-- The master preservation lemma: a pass whose successful matches consume
marker-whole spans with marker-whole, content-equal replacements, and which
never matches strictly inside a marker, preserves marker-wholeness and the
content of the working text. -/
theorem rwF_phi {tr : List Char → Option (List Char × Nat)}
    (H1 : ∀ t out n, MW t → tr t = some (out, n) →
      1 ≤ n ∧ n ≤ t.length ∧ MW (List.take n t) ∧ MW out ∧ phi out = phi (List.take n t))
    (H3 : ∀ hd ∈ innerHeads, ∀ t, tr (hd ++ t) = none) :
    ∀ f s, s.length ≤ f → MW s → MW (rwF tr f s) ∧ phi (rwF tr f s) = phi s := by
  intro f
  induction f using Nat.strong_induction_on with
  | _ f ih =>
    intro s hf hs
    cases s with
    | nil => rw [rwF_nil]; exact ⟨MW.nil, rfl⟩
    | cons c rest =>
      cases f with
      | zero => simp at hf
      | succ f =>
        cases hfire : tr (c :: rest) with
        | some p =>
          obtain ⟨out, n⟩ := p
          obtain ⟨h1n, hnle, hMWchunk, hMWout, hphi⟩ := H1 _ _ _ hs hfire
          rw [rwF_cons_some hfire]
          have hsplit : (c :: rest) = List.take n (c :: rest) ++ List.drop n (c :: rest) :=
            (List.take_append_drop ..).symm
          have hMWdrop : MW (List.drop n (c :: rest)) :=
            MW_unappend hMWchunk (hsplit ▸ hs)
          have hlen : (List.drop n (c :: rest)).length ≤ f := by
            simp only [List.length_drop]
            have : (c :: rest).length ≤ f + 1 := hf
            omega
          obtain ⟨hMWr, hphir⟩ := ih f (Nat.lt_succ_self f) _ hlen hMWdrop
          refine ⟨MW_append hMWout hMWr, ?_⟩
          rw [phi_append hMWout, hphir, hphi, ← phi_append hMWchunk, ← hsplit]
        | none =>
          by_cases hc : c = '<'
          · subst hc
            rcases MW_lt_inv hs with ⟨r, rfl, hmw⟩ | ⟨r, rfl, hmw⟩
            · rw [rwF_cons_none hfire]
              have hflen : 4 + r.length ≤ f := by
                simp only [List.length_cons] at hf
                omega
              have hemit := rwF_emit (['p', 'r', 'd', '>'] : List Char) r f
                (fun k hk => by
                  simp only [List.length_cons, List.length_nil] at hk
                  interval_cases k
                  · exact H3 "prd>".data (by decide) r
                  · exact H3 "rd>".data (by decide) r
                  · exact H3 "d>".data (by decide) r
                  · exact H3 ">".data (by decide) r)
                (by simpa using hflen)
              have hlen4 : (['p', 'r', 'd', '>'] : List Char).length = 4 := rfl
              rw [hlen4] at hemit
              rw [show ('p' :: 'r' :: 'd' :: '>' :: r : List Char) =
                ['p', 'r', 'd', '>'] ++ r from rfl, hemit]
              have hrlen : r.length ≤ f - 4 := by omega
              have hflt : f - 4 < f + 1 := by omega
              obtain ⟨hMWr, hphir⟩ := ih (f - 4) hflt r
                (by simpa using hrlen) hmw
              constructor
              · have := @MW.prd (rwF tr (f - 4) r) hMWr
                rw [prdTok_cons] at this
                simpa using this
              · have e1 : ('<' :: (['p', 'r', 'd', '>'] ++ rwF tr (f - 4) r) : List Char) =
                    prdTok ++ rwF tr (f - 4) r := rfl
                have e2 : ('<' :: (['p', 'r', 'd', '>'] ++ r) : List Char) =
                    prdTok ++ r := rfl
                rw [e1, e2, phi_prd, phi_prd, hphir]
            · rw [rwF_cons_none hfire]
              have hflen : 5 + r.length ≤ f := by
                simp only [List.length_cons] at hf
                omega
              have hemit := rwF_emit (['s', 't', 'o', 'p', '>'] : List Char) r f
                (fun k hk => by
                  simp only [List.length_cons, List.length_nil] at hk
                  interval_cases k
                  · exact H3 "stop>".data (by decide) r
                  · exact H3 "top>".data (by decide) r
                  · exact H3 "op>".data (by decide) r
                  · exact H3 "p>".data (by decide) r
                  · exact H3 ">".data (by decide) r)
                (by simpa using hflen)
              have hlen5 : (['s', 't', 'o', 'p', '>'] : List Char).length = 5 := rfl
              rw [hlen5] at hemit
              rw [show ('s' :: 't' :: 'o' :: 'p' :: '>' :: r : List Char) =
                ['s', 't', 'o', 'p', '>'] ++ r from rfl, hemit]
              have hrlen : r.length ≤ f - 5 := by omega
              have hflt : f - 5 < f + 1 := by omega
              obtain ⟨hMWr, hphir⟩ := ih (f - 5) hflt r
                (by simpa using hrlen) hmw
              constructor
              · have := @MW.stop (rwF tr (f - 5) r) hMWr
                rw [stopTok_cons] at this
                simpa using this
              · have e1 : ('<' :: (['s', 't', 'o', 'p', '>'] ++ rwF tr (f - 5) r) : List Char) =
                    stopTok ++ rwF tr (f - 5) r := rfl
                have e2 : ('<' :: (['s', 't', 'o', 'p', '>'] ++ r) : List Char) =
                    stopTok ++ r := rfl
                rw [e1, e2, phi_stop, phi_stop, hphir]
          · have hmwrest := MW_cons_inv hs hc
            rw [rwF_cons_none hfire]
            have hlen : rest.length ≤ f := by
              simp only [List.length_cons] at hf
              omega
            obtain ⟨hMWr, hphir⟩ := ih f (Nat.lt_succ_self f) rest hlen hmwrest
            refine ⟨MW.chr hc hMWr, ?_⟩
            rw [phi_chr hc, phi_chr hc, hphir]

theorem rwRun_phi {tr : List Char → Option (List Char × Nat)}
    (H1 : ∀ t out n, MW t → tr t = some (out, n) →
      1 ≤ n ∧ n ≤ t.length ∧ MW (List.take n t) ∧ MW out ∧ phi out = phi (List.take n t))
    (H3 : ∀ hd ∈ innerHeads, ∀ t, tr (hd ++ t) = none) {s : List Char} (hs : MW s) :
    MW (rwRun tr s) ∧ phi (rwRun tr s) = phi s :=
  rwF_phi H1 H3 s.length s le_rfl hs

theorem alpha_not_ws {c : Char} (h : isAlphaAZ c = true) : pyWs c = false := by
  rw [Bool.eq_false_iff]
  intro hws
  unfold isAlphaAZ at h
  unfold pyWs at hws
  simp only [Bool.or_eq_true, Bool.and_eq_true, decide_eq_true_eq] at h hws
  rcases hws with ((((((((((((((((((rfl) | rfl) | rfl) | rfl) | rfl) | rfl) | rfl) | rfl) | rfl) | rfl) | rfl) | rfl) | rfl) | ⟨h1, h2⟩) | rfl) | rfl) | rfl) | rfl) | rfl
  pick_goal 14
  · rcases h with ⟨h3, h4⟩ | ⟨h3, h4⟩ <;> exact absurd (le_trans h1 h4) (by decide)
  all_goals exact absurd h (by decide)

theorem digit_not_ws {c : Char} (h : isDigit09 c = true) : pyWs c = false := by
  rw [Bool.eq_false_iff]
  intro hws
  unfold isDigit09 at h
  unfold pyWs at hws
  simp only [Bool.or_eq_true, Bool.and_eq_true, decide_eq_true_eq] at h hws
  rcases hws with ((((((((((((((((((rfl) | rfl) | rfl) | rfl) | rfl) | rfl) | rfl) | rfl) | rfl) | rfl) | rfl) | rfl) | rfl) | ⟨h1, h2⟩) | rfl) | rfl) | rfl) | rfl) | rfl
  pick_goal 14
  · exact absurd (le_trans h1 h.2) (by decide)
  all_goals exact absurd h (by decide)

theorem upper_not_ws {c : Char} (h : isUpperAZ c = true) : pyWs c = false := by
  apply alpha_not_ws
  unfold isUpperAZ at h
  unfold isAlphaAZ
  rw [h]
  rfl

theorem alpha_ne_lt {c : Char} (h : isAlphaAZ c = true) : c ≠ '<' := by
  intro hc
  rw [hc] at h
  exact absurd h (by decide)

theorem upper_ne_lt {c : Char} (h : isUpperAZ c = true) : c ≠ '<' := by
  intro hc
  rw [hc] at h
  exact absurd h (by decide)

theorem digit_ne_lt {c : Char} (h : isDigit09 c = true) : c ≠ '<' := by
  intro hc
  rw [hc] at h
  exact absurd h (by decide)

theorem ws_ne_lt {c : Char} (h : pyWs c = true) : c ≠ '<' := by
  intro hc
  rw [hc] at h
  exact absurd h (by decide)

theorem matchStarter_no_lt {t st : List Char} (h : matchStarter STARTERS t = some st) :
    '<' ∉ st := by
  obtain ⟨r, -, hcase⟩ := matchStarter_inv STARTERS t st h
  have hwords : ∀ p ∈ STARTERS, '<' ∉ p.1 := by decide
  rcases hcase with ⟨w, hw, hst⟩ | ⟨w, c, hw, hst, hc⟩
  · exact fun hm => hwords (w, false) hw (hst ▸ hm)
  · intro hm
    rw [hst] at hm
    rcases List.mem_append.mp hm with hm | hm
    · exact hwords (w, true) hw hm
    · simp only [List.mem_singleton] at hm
      exact ws_ne_lt hc hm.symm

theorem matchStarter_nonWs {t st : List Char} (h : matchStarter STARTERS t = some st) :
    phi st = nonWs st := phi_no_lt (matchStarter_no_lt h)

theorem phi_prdTok : phi prdTok = ['.'] := by
  have := phi_prd []
  simpa using this

theorem phi_stopTok : phi stopTok = [] := by
  have := phi_stop []
  simpa using this

theorem nonWs_append (a b : List Char) : nonWs (a ++ b) = nonWs a ++ nonWs b :=
  List.filter_append ..

theorem nonWs_all {l : List Char} (h : ∀ c ∈ l, pyWs c = false) : nonWs l = l := by
  unfold nonWs
  rw [List.filter_eq_self]
  intro a ha
  rw [h a ha]
  rfl

theorem phi_word_dot {w : List Char} (hlt : '<' ∉ w) (hws : ∀ c ∈ w, pyWs c = false) :
    phi (w ++ ['.']) = w ++ ['.'] := by
  rw [phi_no_lt (by
    intro hm
    rcases List.mem_append.mp hm with hm | hm
    · exact hlt hm
    · simp only [List.mem_singleton] at hm
      exact absurd hm (by decide)), nonWs_append, nonWs_all hws]
  rfl

theorem H1_tryHon : ∀ t out n, MW t → tryHon t = some (out, n) →
    1 ≤ n ∧ n ≤ t.length ∧ MW (List.take n t) ∧ MW out ∧ phi out = phi (List.take n t) := by
  intro t out n _ h
  obtain ⟨w, r, hw, rfl, rfl, rfl⟩ := tryWordDot_inv HONORIFICS t out n h
  have hlt : '<' ∉ w := by
    have : ∀ u ∈ HONORIFICS, '<' ∉ u := by decide
    exact this w hw
  have hws : ∀ c ∈ w, pyWs c = false := by
    have : ∀ u ∈ HONORIFICS, ∀ c ∈ u, pyWs c = false := by decide
    exact this w hw
  have htake : List.take (w.length + 1) (w ++ '.' :: r) = w ++ ['.'] := by
    rw [show w.length + 1 = w.length + 1 from rfl, List.take_append]
    rfl
  refine ⟨by omega, by simp, ?_, ?_, ?_⟩
  · rw [htake]
    apply MW_of_not_lt
    intro hm
    rcases List.mem_append.mp hm with hm | hm
    · exact hlt hm
    · simp only [List.mem_singleton] at hm
      exact absurd hm (by decide)
  · exact MW_append (MW_of_not_lt hlt) MW_prdTok
  · rw [htake, phi_append (MW_of_not_lt hlt), phi_prdTok, phi_word_dot hlt hws,
      phi_no_lt hlt, nonWs_all hws]

theorem H1_tryWeb : ∀ t out n, MW t → tryWeb t = some (out, n) →
    1 ≤ n ∧ n ≤ t.length ∧ MW (List.take n t) ∧ MW out ∧ phi out = phi (List.take n t) := by
  intro t out n _ h
  obtain ⟨w, rr, hw, rfl, rfl, rfl⟩ := tryWeb_inv h
  have hlt : '<' ∉ w := by
    have : ∀ u ∈ WEBS, '<' ∉ u := by decide
    exact this w hw
  have hws : ∀ c ∈ w, pyWs c = false := by
    have : ∀ u ∈ WEBS, ∀ c ∈ u, pyWs c = false := by decide
    exact this w hw
  have htake : List.take (1 + w.length) ('.' :: (w ++ rr)) = '.' :: w := by
    rw [show 1 + w.length = w.length + 1 from by omega]
    rw [List.take_succ_cons, List.take_append_of_le_length le_rfl, List.take_length]
  refine ⟨by omega, by simp; omega, ?_, ?_, ?_⟩
  · rw [htake]
    apply MW_of_not_lt
    intro hm
    rcases List.mem_cons.mp hm with hm | hm
    · exact absurd hm (by decide)
    · exact hlt hm
  · exact MW_append MW_prdTok (MW_of_not_lt hlt)
  · rw [htake, phi_append MW_prdTok, phi_prdTok, phi_no_lt hlt, nonWs_all hws,
      phi_chr (by decide), if_neg (by decide), phi_no_lt hlt, nonWs_all hws]
    simp

theorem H1_tryDigits : ∀ t out n, MW t → tryDigits t = some (out, n) →
    1 ≤ n ∧ n ≤ t.length ∧ MW (List.take n t) ∧ MW out ∧ phi out = phi (List.take n t) := by
  intro t out n _ h
  obtain ⟨d1, d2, r, h1, h2, rfl, rfl, rfl⟩ := tryDigits_inv h
  have hd1 : d1 ≠ '<' := digit_ne_lt h1
  have hd2 : d2 ≠ '<' := digit_ne_lt h2
  have htake : List.take 3 (d1 :: '.' :: d2 :: r) = [d1, '.', d2] := rfl
  refine ⟨by omega, by simp, ?_, ?_, ?_⟩
  · rw [htake]
    apply MW_of_not_lt
    intro hm
    rcases List.mem_cons.mp hm with hm | hm
    · exact hd1 hm.symm
    · rcases List.mem_cons.mp hm with hm | hm
      · exact absurd hm (by decide)
      · simp only [List.mem_singleton] at hm
        exact hd2 hm.symm
  · rw [List.append_assoc]
    exact MW_append (MW.chr hd1 MW.nil) (MW_append MW_prdTok (MW.chr hd2 MW.nil))
  · rw [htake]
    rw [show ([d1] ++ prdTok ++ [d2] : List Char) = [d1] ++ (prdTok ++ [d2]) from by simp]
    rw [phi_append (MW.chr hd1 MW.nil), phi_append MW_prdTok, phi_prdTok]
    rw [phi_chr hd1, if_neg (by rw [digit_not_ws h1]; simp), phi_nil,
      phi_chr hd2, if_neg (by rw [digit_not_ws h2]; simp), phi_nil]
    rw [show ([d1, '.', d2] : List Char) = d1 :: '.' :: d2 :: [] from rfl]
    rw [phi_chr hd1, if_neg (by rw [digit_not_ws h1]; simp),
      phi_chr (show ('.' : Char) ≠ '<' from by decide), if_neg (by decide),
      phi_chr hd2, if_neg (by rw [digit_not_ws h2]; simp), phi_nil]
    simp

theorem take_leadDots (r : List Char) :
    List.take (leadDots r) r = List.replicate (leadDots r) '.' := by
  induction r with
  | nil => simp [leadDots]
  | cons c r ih =>
    by_cases hc : c = '.'
    · subst hc
      rw [leadDots_cons_dot, List.take_succ_cons, ih, List.replicate_succ]
    · rw [leadDots_cons_ne hc]
      simp

theorem MW_marks (n : Nat) : MW ((List.replicate n prdTok).flatten ++ stopTok) := by
  induction n with
  | zero =>
    simpa using MW_stopTok
  | succ n ih =>
    rw [List.replicate_succ, List.flatten_cons, List.append_assoc]
    exact MW.prd ih

theorem phi_marks (n : Nat) :
    phi ((List.replicate n prdTok).flatten ++ stopTok) = List.replicate n '.' := by
  induction n with
  | zero => simpa using phi_stopTok
  | succ n ih =>
    rw [List.replicate_succ, List.flatten_cons, List.append_assoc, phi_prd, ih,
      List.replicate_succ]

theorem phi_dots (n : Nat) : phi (List.replicate n '.') = List.replicate n '.' := by
  rw [phi_no_lt, nonWs_all]
  · intro c hc
    rw [List.eq_of_mem_replicate hc]
    decide
  · intro hm
    have := List.eq_of_mem_replicate hm
    exact absurd this (by decide)

theorem H1_tryDots : ∀ t out n, MW t → tryDots t = some (out, n) →
    1 ≤ n ∧ n ≤ t.length ∧ MW (List.take n t) ∧ MW out ∧ phi out = phi (List.take n t) := by
  intro t out n _ h
  obtain ⟨r, rfl, rfl, rfl⟩ := tryDots_inv h
  have hld := leadDots_le_length r
  have htake : List.take (2 + leadDots r) ('.' :: '.' :: r) =
      List.replicate (2 + leadDots r) '.' := by
    rw [show 2 + leadDots r = (leadDots r) + 1 + 1 from by omega]
    rw [List.take_succ_cons, List.take_succ_cons, take_leadDots]
    rw [show leadDots r + 1 + 1 = 2 + leadDots r from by omega,
      show 2 + leadDots r = (leadDots r) + 2 from by omega]
    rw [List.replicate_succ, List.replicate_succ]
  refine ⟨by omega, by simp; omega, ?_, ?_, ?_⟩
  · rw [htake]
    apply MW_of_not_lt
    intro hm
    exact absurd (List.eq_of_mem_replicate hm) (by decide)
  · exact MW_marks _
  · rw [htake, phi_marks, phi_dots]

theorem H1_tryPhD : ∀ t out n, MW t → tryPhD t = some (out, n) →
    1 ≤ n ∧ n ≤ t.length ∧ MW (List.take n t) ∧ MW out ∧ phi out = phi (List.take n t) := by
  intro t out n _ h
  obtain ⟨r, rfl, rfl, rfl⟩ := tryPhD_inv h
  have htake : List.take 5 ("Ph.D.".data ++ r) = "Ph.D.".data := by
    rw [show (5 : Nat) = ("Ph.D.".data : List Char).length from rfl, List.take_left]
  refine ⟨by omega, by simp, ?_, ?_, ?_⟩
  · rw [htake]
    exact MW_of_not_lt (by decide)
  · rw [show ("Ph".data ++ prdTok ++ ['D'] ++ prdTok : List Char) =
      "Ph".data ++ (prdTok ++ (['D'] ++ prdTok)) from by simp]
    exact MW_append (MW_of_not_lt (by decide)) (MW_append MW_prdTok
      (MW_append (MW_of_not_lt (by decide)) MW_prdTok))
  · rw [htake]
    decide

theorem H1_tryInitials : ∀ t out n, MW t → tryInitials t = some (out, n) →
    1 ≤ n ∧ n ≤ t.length ∧ MW (List.take n t) ∧ MW out ∧ phi out = phi (List.take n t) := by
  intro t out n _ h
  obtain ⟨w, a, r, hw, ha, rfl, rfl, rfl⟩ := tryInitials_inv h
  have htake : List.take 4 (w :: a :: '.' :: ' ' :: r) = [w, a, '.', ' '] := rfl
  refine ⟨by omega, by simp, ?_, ?_, ?_⟩
  · rw [htake]
    apply MW_of_not_lt
    intro hm
    simp only [List.mem_cons, List.not_mem_nil, or_false] at hm
    rcases hm with hm | hm | hm | hm
    · exact ws_ne_lt hw hm.symm
    · exact alpha_ne_lt ha hm.symm
    · exact absurd hm (by decide)
    · exact absurd hm (by decide)
  · rw [show ([' ', a] ++ prdTok ++ [' '] : List Char) =
      [' ', a] ++ (prdTok ++ [' ']) from by simp]
    refine MW_append (MW_of_not_lt ?_) (MW_append MW_prdTok (MW_of_not_lt (by decide)))
    intro hm
    simp only [List.mem_cons, List.not_mem_nil, or_false] at hm
    rcases hm with hm | hm
    · exact absurd hm (by decide)
    · exact alpha_ne_lt ha hm.symm
  · rw [htake]
    rw [show ([' ', a] ++ prdTok ++ [' '] : List Char) =
      [' ', a] ++ (prdTok ++ [' ']) from by simp]
    have hMW2 : MW ([' ', a] : List Char) := by
      apply MW_of_not_lt
      intro hm
      simp only [List.mem_cons, List.not_mem_nil, or_false] at hm
      rcases hm with hm | hm
      · exact absurd hm (by decide)
      · exact alpha_ne_lt ha hm.symm
    rw [phi_append hMW2, phi_append MW_prdTok, phi_prdTok]
    have h1 : phi ([' ', a] : List Char) = [a] := by
      rw [phi_no_lt]
      · simp [nonWs, List.filter_cons, alpha_not_ws ha,
          (by decide : pyWs ' ' = true)]
      · intro hm
        simp only [List.mem_cons, List.not_mem_nil, or_false] at hm
        rcases hm with hm | hm
        · exact absurd hm (by decide)
        · exact alpha_ne_lt ha hm.symm
    have h2 : phi ([' '] : List Char) = [] := by decide
    have h3 : phi ([w, a, '.', ' '] : List Char) = [a, '.'] := by
      rw [phi_no_lt]
      · simp [nonWs, List.filter_cons, alpha_not_ws ha, hw,
          (by decide : pyWs '.' = false), (by decide : pyWs ' ' = true)]
      · intro hm
        simp only [List.mem_cons, List.not_mem_nil, or_false] at hm
        rcases hm with hm | hm | hm | hm
        · exact ws_ne_lt hw hm.symm
        · exact alpha_ne_lt ha hm.symm
        · exact absurd hm (by decide)
        · exact absurd hm (by decide)
    rw [h1, h2, h3]
    simp

theorem H1_tryThree : ∀ t out n, MW t → tryThree t = some (out, n) →
    1 ≤ n ∧ n ≤ t.length ∧ MW (List.take n t) ∧ MW out ∧ phi out = phi (List.take n t) := by
  intro t out n _ h
  obtain ⟨a, b, c, r, ha, hb, hc, rfl, rfl, rfl⟩ := tryThree_inv h
  have htake : List.take 6 (a :: '.' :: b :: '.' :: c :: '.' :: r) =
      [a, '.', b, '.', c, '.'] := rfl
  have hchunklt : '<' ∉ ([a, '.', b, '.', c, '.'] : List Char) := by
    intro hm
    simp only [List.mem_cons, List.not_mem_nil, or_false] at hm
    rcases hm with hm | hm | hm | hm | hm | hm
    · exact alpha_ne_lt ha hm.symm
    · exact absurd hm (by decide)
    · exact alpha_ne_lt hb hm.symm
    · exact absurd hm (by decide)
    · exact alpha_ne_lt hc hm.symm
    · exact absurd hm (by decide)
  have hphichunk : phi ([a, '.', b, '.', c, '.'] : List Char) = [a, '.', b, '.', c, '.'] := by
    rw [phi_no_lt hchunklt]
    simp [nonWs, List.filter_cons, alpha_not_ws ha, alpha_not_ws hb, alpha_not_ws hc,
      (by decide : pyWs '.' = false)]
  refine ⟨by omega, by simp, ?_, ?_, ?_⟩
  · rw [htake]
    exact MW_of_not_lt hchunklt
  · rw [show ([a] ++ prdTok ++ [b] ++ prdTok ++ [c] ++ prdTok : List Char) =
      [a] ++ (prdTok ++ ([b] ++ (prdTok ++ ([c] ++ prdTok)))) from by simp]
    exact MW_append (MW_of_not_lt (by
        intro hm
        simp only [List.mem_singleton] at hm
        exact alpha_ne_lt ha hm.symm))
      (MW_append MW_prdTok (MW_append (MW_of_not_lt (by
        intro hm
        simp only [List.mem_singleton] at hm
        exact alpha_ne_lt hb hm.symm))
      (MW_append MW_prdTok (MW_append (MW_of_not_lt (by
        intro hm
        simp only [List.mem_singleton] at hm
        exact alpha_ne_lt hc hm.symm)) MW_prdTok))))
  · rw [htake, hphichunk]
    rw [show ([a] ++ prdTok ++ [b] ++ prdTok ++ [c] ++ prdTok : List Char) =
      [a] ++ (prdTok ++ ([b] ++ (prdTok ++ ([c] ++ prdTok)))) from by simp]
    rw [phi_append (MW_of_not_lt (by
        intro hm
        simp only [List.mem_singleton] at hm
        exact alpha_ne_lt ha hm.symm)),
      phi_append MW_prdTok,
      phi_append (MW_of_not_lt (by
        intro hm
        simp only [List.mem_singleton] at hm
        exact alpha_ne_lt hb hm.symm)),
      phi_append MW_prdTok,
      phi_append (MW_of_not_lt (by
        intro hm
        simp only [List.mem_singleton] at hm
        exact alpha_ne_lt hc hm.symm)),
      phi_prdTok]
    rw [phi_chr (alpha_ne_lt ha), if_neg (by rw [alpha_not_ws ha]; simp), phi_nil,
      phi_chr (alpha_ne_lt hb), if_neg (by rw [alpha_not_ws hb]; simp),
      phi_chr (alpha_ne_lt hc), if_neg (by rw [alpha_not_ws hc]; simp)]
    simp [phi_nil]

theorem H1_tryTwo : ∀ t out n, MW t → tryTwo t = some (out, n) →
    1 ≤ n ∧ n ≤ t.length ∧ MW (List.take n t) ∧ MW out ∧ phi out = phi (List.take n t) := by
  intro t out n _ h
  obtain ⟨a, b, r, ha, hb, rfl, rfl, rfl⟩ := tryTwo_inv h
  have htake : List.take 4 (a :: '.' :: b :: '.' :: r) = [a, '.', b, '.'] := rfl
  have hchunklt : '<' ∉ ([a, '.', b, '.'] : List Char) := by
    intro hm
    simp only [List.mem_cons, List.not_mem_nil, or_false] at hm
    rcases hm with hm | hm | hm | hm
    · exact alpha_ne_lt ha hm.symm
    · exact absurd hm (by decide)
    · exact alpha_ne_lt hb hm.symm
    · exact absurd hm (by decide)
  have hphichunk : phi ([a, '.', b, '.'] : List Char) = [a, '.', b, '.'] := by
    rw [phi_no_lt hchunklt]
    simp [nonWs, List.filter_cons, alpha_not_ws ha, alpha_not_ws hb,
      (by decide : pyWs '.' = false)]
  refine ⟨by omega, by simp, ?_, ?_, ?_⟩
  · rw [htake]
    exact MW_of_not_lt hchunklt
  · rw [show ([a] ++ prdTok ++ [b] ++ prdTok : List Char) =
      [a] ++ (prdTok ++ ([b] ++ prdTok)) from by simp]
    exact MW_append (MW_of_not_lt (by
        intro hm
        simp only [List.mem_singleton] at hm
        exact alpha_ne_lt ha hm.symm))
      (MW_append MW_prdTok (MW_append (MW_of_not_lt (by
        intro hm
        simp only [List.mem_singleton] at hm
        exact alpha_ne_lt hb hm.symm)) MW_prdTok))
  · rw [htake, hphichunk]
    rw [show ([a] ++ prdTok ++ [b] ++ prdTok : List Char) =
      [a] ++ (prdTok ++ ([b] ++ prdTok)) from by simp]
    rw [phi_append (MW_of_not_lt (by
        intro hm
        simp only [List.mem_singleton] at hm
        exact alpha_ne_lt ha hm.symm)),
      phi_append MW_prdTok,
      phi_append (MW_of_not_lt (by
        intro hm
        simp only [List.mem_singleton] at hm
        exact alpha_ne_lt hb hm.symm)),
      phi_prdTok]
    rw [phi_chr (alpha_ne_lt ha), if_neg (by rw [alpha_not_ws ha]; simp), phi_nil,
      phi_chr (alpha_ne_lt hb), if_neg (by rw [alpha_not_ws hb]; simp), phi_nil]
    simp

theorem H1_tryAcro : ∀ t out n, MW t → tryAcro t = some (out, n) →
    1 ≤ n ∧ n ≤ t.length ∧ MW (List.take n t) ∧ MW out ∧ phi out = phi (List.take n t) := by
  intro t out n _ h
  obtain ⟨a, b, rest, rfl, hA, hB, hcase⟩ := tryAcro_inv h
  rcases hcase with ⟨c, r3, st, rfl, hC, hst, rfl, rfl⟩ | ⟨r3, st, rfl, hst, rfl, rfl⟩
  · obtain ⟨r, hr3, -⟩ := matchStarter_inv STARTERS r3 st hst
    subst hr3
    have hltst : '<' ∉ st := matchStarter_no_lt hst
    have hAl : a ≠ '<' := upper_ne_lt hA
    have hBl : b ≠ '<' := upper_ne_lt hB
    have hCl : c ≠ '<' := upper_ne_lt hC
    have hpre : '<' ∉ ([a, '.', b, '.', c, '.', ' '] : List Char) := by
      intro hm
      simp only [List.mem_cons, List.not_mem_nil, or_false] at hm
      rcases hm with hm | hm | hm | hm | hm | hm | hm
      · exact hAl hm.symm
      · exact absurd hm (by decide)
      · exact hBl hm.symm
      · exact absurd hm (by decide)
      · exact hCl hm.symm
      · exact absurd hm (by decide)
      · exact absurd hm (by decide)
    have hpre6 : '<' ∉ ([a, '.', b, '.', c, '.'] : List Char) := by
      intro hm
      simp only [List.mem_cons, List.not_mem_nil, or_false] at hm
      rcases hm with hm | hm | hm | hm | hm | hm
      · exact hAl hm.symm
      · exact absurd hm (by decide)
      · exact hBl hm.symm
      · exact absurd hm (by decide)
      · exact hCl hm.symm
      · exact absurd hm (by decide)
    have hshape : (a :: '.' :: b :: '.' :: c :: '.' :: ' ' :: (st ++ r) : List Char) =
        ([a, '.', b, '.', c, '.', ' '] ++ st) ++ r := by simp
    have htake : List.take (7 + st.length)
        (a :: '.' :: b :: '.' :: c :: '.' :: ' ' :: (st ++ r)) =
        [a, '.', b, '.', c, '.', ' '] ++ st := by
      rw [hshape, show 7 + st.length =
        (([a, '.', b, '.', c, '.', ' '] ++ st : List Char)).length from by simp; omega,
        List.take_left]
    have hchunklt : '<' ∉ ([a, '.', b, '.', c, '.', ' '] ++ st : List Char) := by
      intro hm
      rcases List.mem_append.mp hm with hm | hm
      · exact hpre hm
      · exact hltst hm
    refine ⟨by omega, by simp; omega, ?_, ?_, ?_⟩
    · rw [htake]
      exact MW_of_not_lt hchunklt
    · rw [show ([a, '.', b, '.', c, '.'] ++ stopTok ++ [' '] ++ st : List Char) =
        [a, '.', b, '.', c, '.'] ++ (stopTok ++ ([' '] ++ st)) from by simp]
      exact MW_append (MW_of_not_lt hpre6) (MW_append MW_stopTok
        (MW_append (MW_of_not_lt (by decide)) (MW_of_not_lt hltst)))
    · rw [htake]
      rw [show ([a, '.', b, '.', c, '.'] ++ stopTok ++ [' '] ++ st : List Char) =
        [a, '.', b, '.', c, '.'] ++ (stopTok ++ ([' '] ++ st)) from by simp]
      rw [phi_append (MW_of_not_lt hpre6), phi_append MW_stopTok,
        phi_append (MW_of_not_lt (by decide)),
        phi_no_lt hchunklt, nonWs_append, phi_no_lt hpre6, phi_no_lt hltst]
      have e1 : nonWs ([a, '.', b, '.', c, '.', ' '] : List Char) =
          nonWs ([a, '.', b, '.', c, '.'] : List Char) := by
        simp [nonWs, List.filter_cons, (by decide : pyWs ' ' = true)]
      have e2 : phi ([' '] : List Char) = [] := by decide
      rw [e1, e2]
      simp [phi_stopTok]
  · obtain ⟨r, hr3, -⟩ := matchStarter_inv STARTERS r3 st hst
    subst hr3
    have hltst : '<' ∉ st := matchStarter_no_lt hst
    have hAl : a ≠ '<' := upper_ne_lt hA
    have hBl : b ≠ '<' := upper_ne_lt hB
    have hpre : '<' ∉ ([a, '.', b, '.', ' '] : List Char) := by
      intro hm
      simp only [List.mem_cons, List.not_mem_nil, or_false] at hm
      rcases hm with hm | hm | hm | hm | hm
      · exact hAl hm.symm
      · exact absurd hm (by decide)
      · exact hBl hm.symm
      · exact absurd hm (by decide)
      · exact absurd hm (by decide)
    have hpre4 : '<' ∉ ([a, '.', b, '.'] : List Char) := by
      intro hm
      simp only [List.mem_cons, List.not_mem_nil, or_false] at hm
      rcases hm with hm | hm | hm | hm
      · exact hAl hm.symm
      · exact absurd hm (by decide)
      · exact hBl hm.symm
      · exact absurd hm (by decide)
    have hshape : (a :: '.' :: b :: '.' :: ' ' :: (st ++ r) : List Char) =
        ([a, '.', b, '.', ' '] ++ st) ++ r := by simp
    have htake : List.take (5 + st.length)
        (a :: '.' :: b :: '.' :: ' ' :: (st ++ r)) =
        [a, '.', b, '.', ' '] ++ st := by
      rw [hshape, show 5 + st.length =
        (([a, '.', b, '.', ' '] ++ st : List Char)).length from by simp; omega,
        List.take_left]
    have hchunklt : '<' ∉ ([a, '.', b, '.', ' '] ++ st : List Char) := by
      intro hm
      rcases List.mem_append.mp hm with hm | hm
      · exact hpre hm
      · exact hltst hm
    refine ⟨by omega, by simp; omega, ?_, ?_, ?_⟩
    · rw [htake]
      exact MW_of_not_lt hchunklt
    · rw [show ([a, '.', b, '.'] ++ stopTok ++ [' '] ++ st : List Char) =
        [a, '.', b, '.'] ++ (stopTok ++ ([' '] ++ st)) from by simp]
      exact MW_append (MW_of_not_lt hpre4) (MW_append MW_stopTok
        (MW_append (MW_of_not_lt (by decide)) (MW_of_not_lt hltst)))
    · rw [htake]
      rw [show ([a, '.', b, '.'] ++ stopTok ++ [' '] ++ st : List Char) =
        [a, '.', b, '.'] ++ (stopTok ++ ([' '] ++ st)) from by simp]
      rw [phi_append (MW_of_not_lt hpre4), phi_append MW_stopTok,
        phi_append (MW_of_not_lt (by decide)),
        phi_no_lt hchunklt, nonWs_append, phi_no_lt hpre4, phi_no_lt hltst]
      have e1 : nonWs ([a, '.', b, '.', ' '] : List Char) =
          nonWs ([a, '.', b, '.'] : List Char) := by
        simp [nonWs, List.filter_cons, (by decide : pyWs ' ' = true)]
      have e2 : phi ([' '] : List Char) = [] := by decide
      rw [e1, e2]
      simp [phi_stopTok]

theorem H1_trySuf : ∀ t out n, MW t → trySuf t = some (out, n) →
    1 ≤ n ∧ n ≤ t.length ∧ MW (List.take n t) ∧ MW out ∧ phi out = phi (List.take n t) := by
  intro t out n _ h
  obtain ⟨w, rr, hw, rfl, rfl, rfl⟩ := trySuf_inv h
  have hlt : '<' ∉ w := by
    have : ∀ u ∈ SUFS, '<' ∉ u := by decide
    exact this w hw
  have hws : ∀ c ∈ w, pyWs c = false := by
    have : ∀ u ∈ SUFS, ∀ c ∈ u, pyWs c = false := by decide
    exact this w hw
  have htake : List.take (w.length + 2) (' ' :: (w ++ '.' :: rr)) =
      ' ' :: (w ++ ['.']) := by
    rw [show w.length + 2 = (w.length + 1) + 1 from by omega, List.take_succ_cons,
      List.take_append]
    rfl
  have hchunklt : '<' ∉ (' ' :: (w ++ ['.']) : List Char) := by
    intro hm
    rcases List.mem_cons.mp hm with hm | hm
    · exact absurd hm (by decide)
    · rcases List.mem_append.mp hm with hm | hm
      · exact hlt hm
      · simp only [List.mem_singleton] at hm
        exact absurd hm (by decide)
  refine ⟨by omega, by simp, ?_, ?_, ?_⟩
  · rw [htake]
    exact MW_of_not_lt hchunklt
  · rw [show ([' '] ++ w ++ prdTok : List Char) = [' '] ++ (w ++ prdTok) from by simp]
    exact MW_append (MW_of_not_lt (by decide))
      (MW_append (MW_of_not_lt hlt) MW_prdTok)
  · rw [htake]
    rw [show ([' '] ++ w ++ prdTok : List Char) = [' '] ++ (w ++ prdTok) from by simp]
    rw [phi_append (@MW_of_not_lt [' '] (by decide)),
      phi_append (MW_of_not_lt hlt), phi_prdTok,
      phi_no_lt hchunklt]
    have e2 : phi ([' '] : List Char) = [] := by decide
    rw [e2, phi_no_lt hlt, nonWs_all hws]
    have : nonWs (' ' :: (w ++ ['.']) : List Char) = nonWs (w ++ ['.']) := by
      simp [nonWs, List.filter_cons, (by decide : pyWs ' ' = true)]
    rw [this, nonWs_append, nonWs_all hws]
    simp [nonWs, List.filter_cons, (by decide : pyWs '.' = false)]

theorem H1_tryCap : ∀ t out n, MW t → tryCap t = some (out, n) →
    1 ≤ n ∧ n ≤ t.length ∧ MW (List.take n t) ∧ MW out ∧ phi out = phi (List.take n t) := by
  intro t out n _ h
  obtain ⟨a, r, ha, rfl, rfl, rfl⟩ := tryCap_inv h
  have htake : List.take 3 (' ' :: a :: '.' :: r) = [' ', a, '.'] := rfl
  have hchunklt : '<' ∉ ([' ', a, '.'] : List Char) := by
    intro hm
    simp only [List.mem_cons, List.not_mem_nil, or_false] at hm
    rcases hm with hm | hm | hm
    · exact absurd hm (by decide)
    · exact alpha_ne_lt ha hm.symm
    · exact absurd hm (by decide)
  refine ⟨by omega, by simp, ?_, ?_, ?_⟩
  · rw [htake]
    exact MW_of_not_lt hchunklt
  · refine MW_append (MW_of_not_lt ?_) MW_prdTok
    intro hm
    simp only [List.mem_cons, List.not_mem_nil, or_false] at hm
    rcases hm with hm | hm
    · exact absurd hm (by decide)
    · exact alpha_ne_lt ha hm.symm
  · rw [htake]
    have hMW2 : MW ([' ', a] : List Char) := by
      apply MW_of_not_lt
      intro hm
      simp only [List.mem_cons, List.not_mem_nil, or_false] at hm
      rcases hm with hm | hm
      · exact absurd hm (by decide)
      · exact alpha_ne_lt ha hm.symm
    rw [phi_append hMW2, phi_prdTok, phi_no_lt hchunklt]
    have h1 : phi ([' ', a] : List Char) = [a] := by
      rw [phi_no_lt]
      · simp [nonWs, List.filter_cons, alpha_not_ws ha,
          (by decide : pyWs ' ' = true)]
      · intro hm
        simp only [List.mem_cons, List.not_mem_nil, or_false] at hm
        rcases hm with hm | hm
        · exact absurd hm (by decide)
        · exact alpha_ne_lt ha hm.symm
    rw [h1]
    simp [nonWs, List.filter_cons, alpha_not_ws ha,
      (by decide : pyWs ' ' = true), (by decide : pyWs '.' = false)]

theorem H1_tryRep {pat rep : List Char} (hne : pat ≠ []) (hMWp : MW pat) (hMWr : MW rep)
    (hphi : phi rep = phi pat) :
    ∀ t out n, MW t → tryRep pat rep t = some (out, n) →
    1 ≤ n ∧ n ≤ t.length ∧ MW (List.take n t) ∧ MW out ∧ phi out = phi (List.take n t) := by
  intro t out n _ h
  obtain ⟨rfl, rfl, r, rfl⟩ := tryRep_eq_some h
  have htake : List.take pat.length (pat ++ r) = pat := List.take_left ..
  refine ⟨?_, by simp, ?_, hMWr, ?_⟩
  · cases pat with
    | nil => exact absurd rfl hne
    | cons p ps => simp
  · rw [htake]; exact hMWp
  · rw [htake]; exact hphi

theorem head_of_append {c c' : Char} {l w x : List Char} (he : c :: l = w ++ x)
    (hh : w.head? = some c') : c = c' := by
  cases w with
  | nil => simp at hh
  | cons a w' =>
    simp only [List.head?_cons, Option.some.injEq] at hh
    rw [List.cons_append] at he
    injection he with h1 _
    exact h1.trans hh

theorem innerHeads_shape : ∀ hd ∈ innerHeads, ∃ c u, hd = c :: u ∧
    c ∈ (['p', 'r', 'd', 's', 't', 'o', '>'] : List Char) := by
  intro hd hm
  fin_cases hm <;> exact ⟨_, _, rfl, by decide⟩

theorem innerHeads_shape2 : ∀ hd ∈ innerHeads, ∃ c u, hd = c :: u ∧
    (c = '>' ∨ ∃ c2 u2, u = c2 :: u2 ∧ c2 ≠ '.') := by
  intro hd hm
  fin_cases hm
  · exact ⟨_, _, rfl, Or.inr ⟨_, _, rfl, by decide⟩⟩
  · exact ⟨_, _, rfl, Or.inr ⟨_, _, rfl, by decide⟩⟩
  · exact ⟨_, _, rfl, Or.inr ⟨_, _, rfl, by decide⟩⟩
  · exact ⟨'>', _, rfl, Or.inl rfl⟩
  · exact ⟨_, _, rfl, Or.inr ⟨_, _, rfl, by decide⟩⟩
  · exact ⟨_, _, rfl, Or.inr ⟨_, _, rfl, by decide⟩⟩
  · exact ⟨_, _, rfl, Or.inr ⟨_, _, rfl, by decide⟩⟩
  · exact ⟨_, _, rfl, Or.inr ⟨_, _, rfl, by decide⟩⟩

theorem H3_tryHon : ∀ hd ∈ innerHeads, ∀ t, tryHon (hd ++ t) = none := by
  intro hd hm t
  cases hcase : tryHon (hd ++ t) with
  | none => rfl
  | some p =>
    exfalso
    obtain ⟨out, n⟩ := p
    obtain ⟨c, u, rfl, hcm⟩ := innerHeads_shape hd hm
    obtain ⟨w, r, hw, he, -, -⟩ := tryWordDot_inv HONORIFICS _ out n hcase
    rw [List.cons_append] at he
    have hh : ∀ u ∈ HONORIFICS, ∃ c2, u.head? = some c2 ∧
        c2 ∈ (['H', 'S', 'R', 'N', 'D'] : List Char) := by decide
    obtain ⟨c2, hc2, hcs⟩ := hh w hw
    have hcc : c = c2 := head_of_append he hc2
    subst hcc
    fin_cases hcm <;> exact absurd hcs (by decide)

theorem H3_tryWeb : ∀ hd ∈ innerHeads, ∀ t, tryWeb (hd ++ t) = none := by
  intro hd hm t
  cases hcase : tryWeb (hd ++ t) with
  | none => rfl
  | some p =>
    exfalso
    obtain ⟨out, n⟩ := p
    obtain ⟨c, u, rfl, hcm⟩ := innerHeads_shape hd hm
    obtain ⟨w, rr, -, he, -, -⟩ := tryWeb_inv hcase
    rw [List.cons_append] at he
    injection he with h1 _
    rw [h1] at hcm
    exact absurd hcm (by decide)

theorem H3_tryDigits : ∀ hd ∈ innerHeads, ∀ t, tryDigits (hd ++ t) = none := by
  intro hd hm t
  cases hcase : tryDigits (hd ++ t) with
  | none => rfl
  | some p =>
    exfalso
    obtain ⟨out, n⟩ := p
    obtain ⟨c, u, rfl, hcm⟩ := innerHeads_shape hd hm
    obtain ⟨d1, d2, r, hd1, -, he, -, -⟩ := tryDigits_inv hcase
    rw [List.cons_append] at he
    injection he with h1 _
    rw [← h1] at hd1
    fin_cases hcm <;> exact absurd hd1 (by decide)

theorem H3_tryDots : ∀ hd ∈ innerHeads, ∀ t, tryDots (hd ++ t) = none := by
  intro hd hm t
  cases hcase : tryDots (hd ++ t) with
  | none => rfl
  | some p =>
    exfalso
    obtain ⟨out, n⟩ := p
    obtain ⟨c, u, rfl, hcm⟩ := innerHeads_shape hd hm
    obtain ⟨r, he, -, -⟩ := tryDots_inv hcase
    rw [List.cons_append] at he
    injection he with h1 _
    rw [h1] at hcm
    exact absurd hcm (by decide)

theorem H3_tryPhD : ∀ hd ∈ innerHeads, ∀ t, tryPhD (hd ++ t) = none := by
  intro hd hm t
  cases hcase : tryPhD (hd ++ t) with
  | none => rfl
  | some p =>
    exfalso
    obtain ⟨out, n⟩ := p
    obtain ⟨c, u, rfl, hcm⟩ := innerHeads_shape hd hm
    obtain ⟨r, he, -, -⟩ := tryPhD_inv hcase
    rw [List.cons_append] at he
    have hcc : c = 'P' := head_of_append he rfl
    rw [hcc] at hcm
    exact absurd hcm (by decide)

theorem H3_tryInitials : ∀ hd ∈ innerHeads, ∀ t, tryInitials (hd ++ t) = none := by
  intro hd hm t
  cases hcase : tryInitials (hd ++ t) with
  | none => rfl
  | some p =>
    exfalso
    obtain ⟨out, n⟩ := p
    obtain ⟨c, u, rfl, hcm⟩ := innerHeads_shape hd hm
    obtain ⟨w, a, r, hw, -, he, -, -⟩ := tryInitials_inv hcase
    rw [List.cons_append] at he
    injection he with h1 _
    rw [← h1] at hw
    fin_cases hcm <;> exact absurd hw (by decide)

theorem H3_tryAcro : ∀ hd ∈ innerHeads, ∀ t, tryAcro (hd ++ t) = none := by
  intro hd hm t
  cases hcase : tryAcro (hd ++ t) with
  | none => rfl
  | some p =>
    exfalso
    obtain ⟨out, n⟩ := p
    obtain ⟨c, u, rfl, hcm⟩ := innerHeads_shape hd hm
    obtain ⟨a, b, rest, he, hA, -, -⟩ := tryAcro_inv hcase
    rw [List.cons_append] at he
    injection he with h1 _
    rw [← h1] at hA
    fin_cases hcm <;> exact absurd hA (by decide)

theorem H3_tryThree : ∀ hd ∈ innerHeads, ∀ t, tryThree (hd ++ t) = none := by
  intro hd hm t
  cases hcase : tryThree (hd ++ t) with
  | none => rfl
  | some p =>
    exfalso
    obtain ⟨out, n⟩ := p
    obtain ⟨c, u, rfl, hsh⟩ := innerHeads_shape2 hd hm
    obtain ⟨a, b, d, r, ha, -, -, he, -, -⟩ := tryThree_inv hcase
    rw [List.cons_append] at he
    rcases hsh with rfl | ⟨c2, u2, rfl, hne⟩
    · injection he with h1 _
      rw [← h1] at ha
      exact absurd ha (by decide)
    · rw [List.cons_append] at he
      injection he with h1 he
      injection he with h2 _
      exact hne h2

theorem H3_tryTwo : ∀ hd ∈ innerHeads, ∀ t, tryTwo (hd ++ t) = none := by
  intro hd hm t
  cases hcase : tryTwo (hd ++ t) with
  | none => rfl
  | some p =>
    exfalso
    obtain ⟨out, n⟩ := p
    obtain ⟨c, u, rfl, hsh⟩ := innerHeads_shape2 hd hm
    obtain ⟨a, b, r, ha, -, he, -, -⟩ := tryTwo_inv hcase
    rw [List.cons_append] at he
    rcases hsh with rfl | ⟨c2, u2, rfl, hne⟩
    · injection he with h1 _
      rw [← h1] at ha
      exact absurd ha (by decide)
    · rw [List.cons_append] at he
      injection he with h1 he
      injection he with h2 _
      exact hne h2

theorem H3_trySuf : ∀ hd ∈ innerHeads, ∀ t, trySuf (hd ++ t) = none := by
  intro hd hm t
  cases hcase : trySuf (hd ++ t) with
  | none => rfl
  | some p =>
    exfalso
    obtain ⟨out, n⟩ := p
    obtain ⟨c, u, rfl, hcm⟩ := innerHeads_shape hd hm
    obtain ⟨w, rr, -, he, -, -⟩ := trySuf_inv hcase
    rw [List.cons_append] at he
    injection he with h1 _
    rw [h1] at hcm
    exact absurd hcm (by decide)

theorem H3_tryCap : ∀ hd ∈ innerHeads, ∀ t, tryCap (hd ++ t) = none := by
  intro hd hm t
  cases hcase : tryCap (hd ++ t) with
  | none => rfl
  | some p =>
    exfalso
    obtain ⟨out, n⟩ := p
    obtain ⟨c, u, rfl, hcm⟩ := innerHeads_shape hd hm
    obtain ⟨a, r, -, he, -, -⟩ := tryCap_inv hcase
    rw [List.cons_append] at he
    injection he with h1 _
    rw [h1] at hcm
    exact absurd hcm (by decide)

theorem H3_tryRep {pat rep : List Char} {p0 : Char} (hp : pat.head? = some p0)
    (hmem : p0 ∉ (['p', 'r', 'd', 's', 't', 'o', '>'] : List Char)) :
    ∀ hd ∈ innerHeads, ∀ t, tryRep pat rep (hd ++ t) = none := by
  intro hd hm t
  cases hcase : tryRep pat rep (hd ++ t) with
  | none => rfl
  | some p =>
    exfalso
    obtain ⟨out, n⟩ := p
    obtain ⟨c, u, rfl, hcm⟩ := innerHeads_shape hd hm
    obtain ⟨-, -, r, he⟩ := tryRep_eq_some hcase
    rw [List.cons_append] at he
    have hcc : c = p0 := head_of_append he hp
    rw [hcc] at hcm
    exact hmem hcm

theorem prdTok_sub_tmpl : ∀ y ∈ prdTok, y ∈ tmplChars := by decide

theorem stopTok_sub_tmpl : ∀ y ∈ stopTok, y ∈ tmplChars := by decide

theorem tryHon_chars {x : Char} (hx : x ∉ tmplChars) {t out : List Char} {n : Nat}
    (h : tryHon t = some (out, n)) : x ∈ out → x ∈ t := by
  intro hm
  obtain ⟨w, r, hw, rfl, rfl, -⟩ := tryWordDot_inv HONORIFICS t out n h
  rcases List.mem_append.mp hm with hm | hm
  · exact List.mem_append_left _ hm
  · exact absurd (prdTok_sub_tmpl x hm) hx

theorem tryWeb_chars {x : Char} (hx : x ∉ tmplChars) {t out : List Char} {n : Nat}
    (h : tryWeb t = some (out, n)) : x ∈ out → x ∈ t := by
  intro hm
  obtain ⟨w, rr, hw, rfl, rfl, -⟩ := tryWeb_inv h
  rcases List.mem_append.mp hm with hm | hm
  · exact absurd (prdTok_sub_tmpl x hm) hx
  · exact List.mem_cons_of_mem _ (List.mem_append_left _ hm)

theorem tryDigits_chars {x : Char} (hx : x ∉ tmplChars) {t out : List Char} {n : Nat}
    (h : tryDigits t = some (out, n)) : x ∈ out → x ∈ t := by
  intro hm
  obtain ⟨d1, d2, r, h1, h2, rfl, rfl, -⟩ := tryDigits_inv h
  rcases List.mem_append.mp hm with hm | hm
  · rcases List.mem_append.mp hm with hm | hm
    · obtain rfl : x = d1 := by simpa using hm
      exact List.mem_cons_self _ _
    · exact absurd (prdTok_sub_tmpl x hm) hx
  · obtain rfl : x = d2 := by simpa using hm
    exact List.mem_cons_of_mem _ (List.mem_cons_of_mem _ (List.mem_cons_self _ _))

theorem tryDots_chars {x : Char} (hx : x ∉ tmplChars) {t out : List Char} {n : Nat}
    (h : tryDots t = some (out, n)) : x ∈ out → x ∈ t := by
  intro hm
  obtain ⟨r, rfl, -, rfl⟩ := tryDots_inv h
  rcases List.mem_append.mp hm with hm | hm
  · obtain ⟨l, hl, hml⟩ := List.mem_flatten.mp hm
    rw [List.eq_of_mem_replicate hl] at hml
    exact absurd (prdTok_sub_tmpl x hml) hx
  · exact absurd (stopTok_sub_tmpl x hm) hx

theorem tryPhD_chars {x : Char} (hx : x ∉ tmplChars) {t out : List Char} {n : Nat}
    (h : tryPhD t = some (out, n)) : x ∈ out → x ∈ t := by
  intro hm
  obtain ⟨r, rfl, rfl, -⟩ := tryPhD_inv h
  rcases List.mem_append.mp hm with hm | hm
  · rcases List.mem_append.mp hm with hm | hm
    · rcases List.mem_append.mp hm with hm | hm
      · simp only [List.mem_cons, List.not_mem_nil, or_false] at hm
        rcases hm with rfl | rfl
        · exact List.mem_append_left _ (by decide)
        · exact List.mem_append_left _ (by decide)
      · exact absurd (prdTok_sub_tmpl x hm) hx
    · simp only [List.mem_singleton] at hm
      subst hm
      exact List.mem_append_left _ (by decide)
  · exact absurd (prdTok_sub_tmpl x hm) hx

theorem tryInitials_chars {x : Char} (hx : x ∉ tmplChars) {t out : List Char} {n : Nat}
    (h : tryInitials t = some (out, n)) : x ∈ out → x ∈ t := by
  intro hm
  obtain ⟨w, a, r, hw, ha, rfl, rfl, -⟩ := tryInitials_inv h
  rcases List.mem_append.mp hm with hm | hm
  · rcases List.mem_append.mp hm with hm | hm
    · rcases List.mem_cons.mp hm with hm | hm
      · exact absurd (hm ▸ hx) (by intro hc; exact hc (by decide))
      · obtain rfl : x = a := by simpa using hm
        exact List.mem_cons_of_mem _ (List.mem_cons_self _ _)
    · exact absurd (prdTok_sub_tmpl x hm) hx
  · simp only [List.mem_singleton] at hm
    exact absurd (hm ▸ hx) (by intro hc; exact hc (by decide))

theorem tryAcro_chars {x : Char} (hx : x ∉ tmplChars) {t out : List Char} {n : Nat}
    (h : tryAcro t = some (out, n)) : x ∈ out → x ∈ t := by
  intro hm
  obtain ⟨a, b, rest, rfl, hA, hB, hcase⟩ := tryAcro_inv h
  rcases hcase with ⟨c, r3, st, rfl, hC, hst, rfl, -⟩ | ⟨r3, st, rfl, hst, rfl, -⟩
  · rcases List.mem_append.mp hm with hm | hm
    · rcases List.mem_append.mp hm with hm | hm
      · rcases List.mem_append.mp hm with hm | hm
        · simp only [List.mem_cons, List.not_mem_nil, or_false] at hm
          rcases hm with rfl | rfl | rfl | rfl | rfl | rfl
          · exact List.mem_cons_self _ _
          · exact List.mem_cons_of_mem _ (List.mem_cons_self _ _)
          · exact List.mem_cons_of_mem _ (List.mem_cons_of_mem _ (List.mem_cons_self _ _))
          · exact List.mem_cons_of_mem _ (List.mem_cons_self _ _)
          · exact List.mem_cons_of_mem _ (List.mem_cons_of_mem _
              (List.mem_cons_of_mem _ (List.mem_cons_of_mem _ (List.mem_cons_self _ _))))
          · exact List.mem_cons_of_mem _ (List.mem_cons_self _ _)
        · exact absurd (stopTok_sub_tmpl x hm) hx
      · simp only [List.mem_singleton] at hm
        exact absurd (hm ▸ hx) (by intro hc; exact hc (by decide))
    · have := matchStarter_mem hst hm
      simp [this]
  · rcases List.mem_append.mp hm with hm | hm
    · rcases List.mem_append.mp hm with hm | hm
      · rcases List.mem_append.mp hm with hm | hm
        · simp only [List.mem_cons, List.not_mem_nil, or_false] at hm
          rcases hm with rfl | rfl | rfl | rfl
          · exact List.mem_cons_self _ _
          · exact List.mem_cons_of_mem _ (List.mem_cons_self _ _)
          · exact List.mem_cons_of_mem _ (List.mem_cons_of_mem _ (List.mem_cons_self _ _))
          · exact List.mem_cons_of_mem _ (List.mem_cons_self _ _)
        · exact absurd (stopTok_sub_tmpl x hm) hx
      · simp only [List.mem_singleton] at hm
        exact absurd (hm ▸ hx) (by intro hc; exact hc (by decide))
    · have := matchStarter_mem hst hm
      simp [this]

theorem tryThree_chars {x : Char} (hx : x ∉ tmplChars) {t out : List Char} {n : Nat}
    (h : tryThree t = some (out, n)) : x ∈ out → x ∈ t := by
  intro hm
  obtain ⟨a, b, c, r, ha, hb, hc, rfl, rfl, -⟩ := tryThree_inv h
  simp only [List.append_assoc, List.mem_append, List.mem_cons, List.not_mem_nil,
    or_false] at hm
  rcases hm with rfl | hm | rfl | hm | rfl | hm
  · exact List.mem_cons_self _ _
  · exact absurd (prdTok_sub_tmpl x hm) hx
  · exact List.mem_cons_of_mem _ (List.mem_cons_of_mem _ (List.mem_cons_self _ _))
  · exact absurd (prdTok_sub_tmpl x hm) hx
  · exact List.mem_cons_of_mem _ (List.mem_cons_of_mem _ (List.mem_cons_of_mem _
      (List.mem_cons_of_mem _ (List.mem_cons_self _ _))))
  · exact absurd (prdTok_sub_tmpl x hm) hx

theorem tryTwo_chars {x : Char} (hx : x ∉ tmplChars) {t out : List Char} {n : Nat}
    (h : tryTwo t = some (out, n)) : x ∈ out → x ∈ t := by
  intro hm
  obtain ⟨a, b, r, ha, hb, rfl, rfl, -⟩ := tryTwo_inv h
  simp only [List.append_assoc, List.mem_append, List.mem_cons, List.not_mem_nil,
    or_false] at hm
  rcases hm with rfl | hm | rfl | hm
  · exact List.mem_cons_self _ _
  · exact absurd (prdTok_sub_tmpl x hm) hx
  · exact List.mem_cons_of_mem _ (List.mem_cons_of_mem _ (List.mem_cons_self _ _))
  · exact absurd (prdTok_sub_tmpl x hm) hx

theorem trySufStart_chars {x : Char} (hx : x ∉ tmplChars) {t out : List Char} {n : Nat}
    (h : trySufStart t = some (out, n)) : x ∈ out → x ∈ t := by
  intro hm
  obtain ⟨w, r3, st, hw, rfl, hst, rfl, -⟩ := trySufStart_inv h
  rcases List.mem_append.mp hm with hm | hm
  · rcases List.mem_append.mp hm with hm | hm
    · rcases List.mem_append.mp hm with hm | hm
      · rcases List.mem_append.mp hm with hm | hm
        · simp only [List.mem_singleton] at hm
          exact absurd (hm ▸ hx) (by intro hc; exact hc (by decide))
        · exact List.mem_cons_of_mem _ (List.mem_append_left _ hm)
      · exact absurd (stopTok_sub_tmpl x hm) hx
    · simp only [List.mem_singleton] at hm
      exact absurd (hm ▸ hx) (by intro hc; exact hc (by decide))
  · have := matchStarter_mem hst hm
    simp [this]

theorem trySuf_chars {x : Char} (hx : x ∉ tmplChars) {t out : List Char} {n : Nat}
    (h : trySuf t = some (out, n)) : x ∈ out → x ∈ t := by
  intro hm
  obtain ⟨w, rr, hw, rfl, rfl, -⟩ := trySuf_inv h
  rcases List.mem_append.mp hm with hm | hm
  · rcases List.mem_append.mp hm with hm | hm
    · simp only [List.mem_singleton] at hm
      exact absurd (hm ▸ hx) (by intro hc; exact hc (by decide))
    · exact List.mem_cons_of_mem _ (List.mem_append_left _ hm)
  · exact absurd (prdTok_sub_tmpl x hm) hx

theorem tryCap_chars {x : Char} (hx : x ∉ tmplChars) {t out : List Char} {n : Nat}
    (h : tryCap t = some (out, n)) : x ∈ out → x ∈ t := by
  intro hm
  obtain ⟨a, r, ha, rfl, rfl, -⟩ := tryCap_inv h
  rcases List.mem_append.mp hm with hm | hm
  · rcases List.mem_cons.mp hm with hm | hm
    · exact absurd (hm ▸ hx) (by intro hc; exact hc (by decide))
    · obtain rfl : x = a := by simpa using hm
      exact List.mem_cons_of_mem _ (List.mem_cons_self _ _)
  · exact absurd (prdTok_sub_tmpl x hm) hx

theorem chomp_cons_ne {p c : Char} {ps cs : List Char} (h : p ≠ c) :
    chomp (p :: ps) (c :: cs) = none := by
  show (if p = c then chomp ps cs else none) = none
  rw [if_neg h]

theorem tryRep_restore_none {c : Char} (hc : c ≠ '<') (rest : List Char) :
    tryRep prdTok ['.'] (c :: rest) = none := by
  unfold tryRep
  rw [show chomp prdTok (c :: rest) = none from
    chomp_cons_ne (fun h => hc h.symm)]

theorem tryRep_restore_fire (rest : List Char) :
    tryRep prdTok ['.'] ('<' :: 'p' :: 'r' :: 'd' :: '>' :: rest) = some (['.'], 5) := by
  unfold tryRep
  rw [show chomp prdTok ('<' :: 'p' :: 'r' :: 'd' :: '>' :: rest) = some rest from
    chomp_of_append prdTok rest]
  rfl

theorem rwF_restore {s : List Char} (hs : MW s) :
    ∀ f, s.length ≤ f →
      SW (rwF (tryRep prdTok ['.']) f s) ∧
        phi (rwF (tryRep prdTok ['.']) f s) = phi s := by
  induction hs with
  | nil => intro f _; rw [rwF_nil]; exact ⟨SW.nil, rfl⟩
  | chr hc hrest ih =>
    rename_i c rest
    intro f hf
    cases f with
    | zero => simp at hf
    | succ f =>
      rw [rwF_cons_none (tryRep_restore_none hc rest) f]
      obtain ⟨hsw, hphi⟩ := ih f (by simp at hf; omega)
      refine ⟨SW.chr hc hsw, ?_⟩
      rw [phi_chr hc, phi_chr hc, hphi]
  | prd hrest ih =>
    rename_i rest
    intro f hf
    have hf5 : 5 + rest.length ≤ f := by
      simp only [List.length_append] at hf
      have : prdTok.length = 5 := rfl
      omega
    cases f with
    | zero => omega
    | succ f =>
      rw [prdTok_cons, rwF_cons_some (tryRep_restore_fire rest) f]
      rw [show List.drop 5 ('<' :: 'p' :: 'r' :: 'd' :: '>' :: rest) = rest from rfl]
      obtain ⟨hsw, hphi⟩ := ih f (by omega)
      refine ⟨SW.chr (by decide) hsw, ?_⟩
      rw [show (['.'] ++ rwF (tryRep prdTok ['.']) f rest : List Char) =
        '.' :: rwF (tryRep prdTok ['.']) f rest from rfl]
      rw [phi_chr (by decide), hphi,
        show phi ('<' :: 'p' :: 'r' :: 'd' :: '>' :: rest) = '.' :: phi rest from
          phi_prd rest]
      rw [if_neg (by decide)]
  | stop hrest ih =>
    rename_i rest
    intro f hf
    have hf6 : 6 + rest.length ≤ f := by
      simp only [List.length_append] at hf
      have : stopTok.length = 6 := rfl
      omega
    have hk : ∀ k, k < stopTok.length →
        tryRep prdTok ['.'] (List.drop k stopTok ++ rest) = none := by
      intro k hk
      have hk6 : k < 6 := hk
      interval_cases k <;> rfl
    have e := rwF_emit stopTok rest f hk
      (by have : stopTok.length = 6 := rfl; omega)
    rw [e]
    obtain ⟨hsw, hphi⟩ := ih (f - stopTok.length)
      (by have : stopTok.length = 6 := rfl; omega)
    refine ⟨SW.stop hsw, ?_⟩
    rw [phi_stop, phi_stop, hphi]

theorem subRestore_SW {s : List Char} (hs : MW s) :
    SW (subRestore s) ∧ phi (subRestore s) = phi s :=
  rwF_restore hs s.length le_rfl

theorem splitStop_cons_ne {c : Char} (hc : c ≠ '<') (rest : List Char) :
    splitStop (c :: rest) =
      match splitStop rest with
      | [] => [[c]]
      | p :: ps => (c :: p) :: ps := by
  rw [splitStop.eq_def]
  split
  · rename_i heq
    simp at heq
  · rename_i heq
    injection heq with h1 _
    exact absurd h1 hc
  · rename_i heq
    injection heq with h1 h2
    subst h1
    subst h2
    rfl

theorem splitStop_stop (rest : List Char) :
    splitStop (stopTok ++ rest) = [] :: splitStop rest := by
  rw [stopTok_cons]
  rfl

theorem splitStop_ne_nil (l : List Char) : splitStop l ≠ [] := by
  rw [splitStop.eq_def]
  split
  · simp
  · simp
  · rename_i c rest heq
    cases splitStop rest with
    | nil => simp
    | cons p ps => simp

theorem nonWs_cons (c : Char) (l : List Char) :
    nonWs (c :: l) = if pyWs c then nonWs l else c :: nonWs l := by
  by_cases h : pyWs c
  · simp [nonWs, List.filter_cons, h]
  · simp [nonWs, List.filter_cons, h]

theorem splitStop_flatten_SW {F : List Char} (hF : SW F) :
    nonWs (splitStop F).flatten = phi F ∧ ∀ p ∈ splitStop F, '<' ∉ p := by
  induction hF with
  | nil =>
    constructor
    · rfl
    · intro p hp
      simp only [show splitStop [] = [[]] from rfl, List.mem_singleton] at hp
      subst hp
      simp
  | chr hc hrest ih =>
    rename_i c rest
    obtain ⟨ihflat, ihmem⟩ := ih
    rw [splitStop_cons_ne hc]
    cases hsp : splitStop rest with
    | nil => exact absurd hsp (splitStop_ne_nil rest)
    | cons p ps =>
      rw [hsp] at ihflat ihmem
      constructor
      · simp only [List.flatten_cons, List.cons_append, ← List.flatten_cons]
        rw [show ((c :: p) :: ps).flatten = c :: (p :: ps).flatten from by
          simp [List.flatten_cons]]
        rw [nonWs_cons, phi_chr hc, ihflat]
      · intro q hq
        rcases List.mem_cons.mp hq with rfl | hq
        · intro hm
          rcases List.mem_cons.mp hm with hm | hm
          · exact hc hm.symm
          · exact ihmem p (List.mem_cons_self _ _) hm
        · exact ihmem q (List.mem_cons_of_mem _ hq)
  | stop hrest ih =>
    rename_i rest
    obtain ⟨ihflat, ihmem⟩ := ih
    rw [splitStop_stop]
    constructor
    · simp only [List.flatten_cons, List.nil_append]
      rw [ihflat, phi_stop]
    · intro q hq
      rcases List.mem_cons.mp hq with rfl | hq
      · simp
      · exact ihmem q hq

theorem nonWs_dropWhile (l : List Char) : nonWs (l.dropWhile pyWs) = nonWs l := by
  induction l with
  | nil => rfl
  | cons c rest ih =>
    by_cases h : pyWs c
    · rw [List.dropWhile_cons_of_pos (by simpa using h), ih, nonWs_cons, if_pos h]
    · rw [List.dropWhile_cons_of_neg (by simpa using h)]

theorem nonWs_reverse (l : List Char) : nonWs l.reverse = (nonWs l).reverse := by
  simp [nonWs, List.filter_reverse]

theorem nonWs_pyStrip (l : List Char) : nonWs (pyStrip l) = nonWs l := by
  unfold pyStrip
  rw [nonWs_reverse, nonWs_dropWhile, nonWs_reverse, List.reverse_reverse,
    nonWs_dropWhile]

theorem dropLastEmpty_flatten (ss : List (List Char)) :
    (dropLastEmpty ss).flatten = ss.flatten := by
  unfold dropLastEmpty
  split
  · rename_i p heq
    split
    · rename_i hp
      subst hp
      have hne : ss ≠ [] := by
        intro h
        rw [h] at heq
        simp at heq
      have hl : ss.getLast hne = [] := by
        have h2 := List.getLast?_eq_getLast ss hne
        rw [heq] at h2
        injection h2 with h3
        exact h3.symm
      conv_rhs => rw [← List.dropLast_append_getLast hne]
      rw [List.flatten_append, hl]
      simp
    · rfl
  · rfl

theorem flatten_map_pyStrip (ss : List (List Char)) :
    nonWs ((ss.map pyStrip).flatten) = nonWs ss.flatten := by
  induction ss with
  | nil => rfl
  | cons p ps ih =>
    simp only [List.map_cons, List.flatten_cons, nonWs_append, ih, nonWs_pyStrip]

theorem nonWs_joinWithSpaces (ss : List (List Char)) :
    nonWs (joinWithSpaces ss) = nonWs ss.flatten := by
  induction ss with
  | nil => rfl
  | cons p ps ih =>
    cases ps with
    | nil => simp [joinWithSpaces, nonWs]
    | cons q qs =>
      rw [show joinWithSpaces (p :: q :: qs) = p ++ ' ' :: joinWithSpaces (q :: qs)
          from rfl,
        nonWs_append, nonWs_cons, if_pos (by decide), ih,
        List.flatten_cons, nonWs_append]
      simp [List.flatten_cons, nonWs_append]

theorem pieces_content {F : List Char} (hF : SW F) :
    nonWs (joinWithSpaces (dropLastEmpty ((splitStop F).map pyStrip))) = phi F := by
  rw [nonWs_joinWithSpaces, dropLastEmpty_flatten, flatten_map_pyStrip,
    (splitStop_flatten_SW hF).1]

theorem nonWs_map_nlFun (l : List Char) : nonWs (l.map nlFun) = nonWs l := by
  induction l with
  | nil => rfl
  | cons c rest ih =>
    by_cases h : c = '\n'
    · subst h
      rw [List.map_cons, show nlFun '\n' = ' ' from rfl, nonWs_cons, nonWs_cons,
        if_pos (by decide), if_pos (by decide), ih]
    · rw [List.map_cons, show nlFun c = c from by unfold nlFun; rw [if_neg h],
        nonWs_cons, nonWs_cons, ih]

theorem markPre_inv {l : List Char} (h1 : '"' ∉ l) (h2 : '”' ∉ l) (h3 : '<' ∉ l) :
    (MW (markPre l) ∧ '"' ∉ markPre l ∧ '”' ∉ markPre l) ∧
      phi (markPre l) = nonWs l := by
  have hlt : '<' ∉ markPre l := not_mem_markPre h3 (by decide)
  refine ⟨⟨MW_of_not_lt hlt, not_mem_markPre h1 (by decide),
    not_mem_markPre h2 (by decide)⟩, ?_⟩
  rw [phi_no_lt hlt, markPre_eq, nonWs_cons, if_pos (by decide), nonWs_append,
    nonWs_map_nlFun]
  rw [show nonWs ([' ', ' '] : List Char) = [] from by decide]
  simp

theorem pass_preserve {tr : List Char → Option (List Char × Nat)}
    (H1 : ∀ t out n, MW t → tr t = some (out, n) →
      1 ≤ n ∧ n ≤ t.length ∧ MW (List.take n t) ∧ MW out ∧ phi out = phi (List.take n t))
    (H3 : ∀ hd ∈ innerHeads, ∀ t, tr (hd ++ t) = none)
    (HC : ∀ x : Char, x ∉ tmplChars → ∀ t out n, tr t = some (out, n) → x ∈ out → x ∈ t)
    {s : List Char} (h : MW s ∧ '"' ∉ s ∧ '”' ∉ s) :
    (MW (rwRun tr s) ∧ '"' ∉ rwRun tr s ∧ '”' ∉ rwRun tr s) ∧
      phi (rwRun tr s) = phi s := by
  obtain ⟨hmw, hq1, hq2⟩ := h
  obtain ⟨hmw2, hphi⟩ := rwRun_phi H1 H3 hmw
  exact ⟨⟨hmw2, rwRun_absent2 (fun t out n hf => HC '"' (by decide) t out n hf) hq1,
    rwRun_absent2 (fun t out n hf => HC '”' (by decide) t out n hf) hq2⟩, hphi⟩

theorem subPhD_preserve {s : List Char} (h : MW s ∧ '"' ∉ s ∧ '”' ∉ s) :
    (MW (subPhD s) ∧ '"' ∉ subPhD s ∧ '”' ∉ subPhD s) ∧ phi (subPhD s) = phi s := by
  unfold subPhD
  split
  · exact pass_preserve H1_tryPhD H3_tryPhD
      (fun x hx t out n hf => tryPhD_chars hx hf) h
  · exact ⟨h, rfl⟩

theorem preSufText_inv {l : List Char} (h1 : '"' ∉ l) (h2 : '”' ∉ l) (h3 : '<' ∉ l) :
    (MW (preSufText l) ∧ '"' ∉ preSufText l ∧ '”' ∉ preSufText l) ∧
      phi (preSufText l) = nonWs l := by
  obtain ⟨st0, hphi0⟩ := markPre_inv h1 h2 h3
  obtain ⟨st1, hphi1⟩ := pass_preserve H1_tryHon H3_tryHon
    (fun x hx t out n hf => tryHon_chars hx hf) st0
  obtain ⟨st2, hphi2⟩ := pass_preserve H1_tryWeb H3_tryWeb
    (fun x hx t out n hf => tryWeb_chars hx hf) st1
  obtain ⟨st3, hphi3⟩ := pass_preserve H1_tryDigits H3_tryDigits
    (fun x hx t out n hf => tryDigits_chars hx hf) st2
  obtain ⟨st4, hphi4⟩ := pass_preserve H1_tryDots H3_tryDots
    (fun x hx t out n hf => tryDots_chars hx hf) st3
  obtain ⟨st5, hphi5⟩ := subPhD_preserve st4
  obtain ⟨st6, hphi6⟩ := pass_preserve H1_tryInitials H3_tryInitials
    (fun x hx t out n hf => tryInitials_chars hx hf) st5
  obtain ⟨st7, hphi7⟩ := pass_preserve H1_tryAcro H3_tryAcro
    (fun x hx t out n hf => tryAcro_chars hx hf) st6
  obtain ⟨st8, hphi8⟩ := pass_preserve H1_tryThree H3_tryThree
    (fun x hx t out n hf => tryThree_chars hx hf) st7
  obtain ⟨st9, hphi9⟩ := pass_preserve H1_tryTwo H3_tryTwo
    (fun x hx t out n hf => tryTwo_chars hx hf) st8
  refine ⟨st9, ?_⟩
  unfold preSufText
  rw [hphi9, hphi8, hphi7, hphi6, hphi5, hphi4, hphi3, hphi2, hphi1, hphi0]

theorem stopRep_phi {c : Char} (hc : c ≠ '<') (hws : pyWs c = false)
    (hm : c ∉ (['p', 'r', 'd', 's', 't', 'o', '>'] : List Char)) {s : List Char}
    (hs : MW s) :
    MW (rwRun (tryRep [c] (c :: stopTok)) s) ∧
      phi (rwRun (tryRep [c] (c :: stopTok)) s) = phi s := by
  apply rwRun_phi
  · apply H1_tryRep
    · simp
    · exact MW.chr hc MW.nil
    · exact MW.chr hc MW_stopTok
    · rw [phi_chr hc, phi_chr hc, phi_stopTok, phi_nil]
  · exact H3_tryRep rfl hm
  · exact hs

theorem markedText_SW_phi {l : List Char} (h1 : '"' ∉ l) (h2 : '”' ∉ l)
    (h3 : '<' ∉ l) (h4 : rwRun trySufStart (preSufText l) = preSufText l) :
    SW (markedText l) ∧ phi (markedText l) = nonWs l := by
  obtain ⟨st9, hphi9⟩ := preSufText_inv h1 h2 h3
  obtain ⟨st10, hphi10⟩ := pass_preserve H1_trySuf H3_trySuf
    (fun x hx t out n hf => trySuf_chars hx hf) st9
  obtain ⟨st11, hphi11⟩ := pass_preserve H1_tryCap H3_tryCap
    (fun x hx t out n hf => tryCap_chars hx hf) st10
  have hq : quoteStage (rwRun tryCap (rwRun trySuf (preSufText l))) =
      rwRun tryCap (rwRun trySuf (preSufText l)) := by
    unfold quoteStage
    rw [subQuote1_id2 st11.2.2, subQuote2_id2 st11.2.1, subBang_id2 st11.2.1,
      subQn_id2 st11.2.1]
  obtain ⟨hmw12, hphi12⟩ :=
    @stopRep_phi '.' (by decide) (by decide) (by decide) _ st11.1
  obtain ⟨hmw13, hphi13⟩ :=
    @stopRep_phi '?' (by decide) (by decide) (by decide) _ hmw12
  obtain ⟨hmw14, hphi14⟩ :=
    @stopRep_phi '!' (by decide) (by decide) (by decide) _ hmw13
  obtain ⟨hsw, hphi15⟩ := subRestore_SW hmw14
  unfold markedText subStopDot subStopQn subStopBang
  rw [h4, hq]
  exact ⟨hsw, by rw [hphi15, hphi14, hphi13, hphi12, hphi11, hphi10, hphi9]⟩

/-- C5 counterexample: for the input `Hei." Moi.` the straight-quote pass
rewrites `."` to `".`, so the rejoined sentences `Hei". Moi.` differ from the
input even after discarding all whitespace: the period and the quote have
traded places.  Restoration is therefore not content-faithful on inputs with
quotes. -/
theorem C5_restoration_cx :
    nonWs (joinWithSpaces ((split_into_sentences "Hei.\" Moi.").map String.data)) ≠
      nonWs "Hei.\" Moi.".data := by
  decide

/-- C5 (amended): for every input without double-quote characters (straight
`"` or curly `”`), without the reserved marker character `<`, and on which the
corporate-suffix-before-starter pass does not fire (that pass deletes the
suffix period), the concatenation of the returned sentences joined by single
spaces agrees with the input up to whitespace normalization: the two strings
have the same sequence of non-whitespace characters. -/
theorem C5_restoration_amended (s : String) (h1 : '"' ∉ s.data)
    (h2 : '”' ∉ s.data) (h3 : '<' ∉ s.data)
    (h4 : rwRun trySufStart (preSufText s.data) = preSufText s.data) :
    nonWs (joinWithSpaces ((split_into_sentences s).map String.data)) =
      nonWs s.data := by
  have hmaps : (split_into_sentences s).map String.data = segPipe s.data := by
    unfold split_into_sentences
    rw [List.map_map]
    have : (String.data ∘ String.mk) = id := by
      funext l
      rfl
    rw [this, List.map_id]
  rw [hmaps]
  unfold segPipe
  obtain ⟨hsw, hphi⟩ := markedText_SW_phi h1 h2 h3 h4
  rw [pieces_content hsw, hphi]

/-- Witness for the amended C5 at the concrete input `Moi. Hei.`: the
hypotheses hold (no quotes, no marker character, the suffix-starter pass is
the identity there) and the rejoined output has the same non-whitespace
content as the input. -/
theorem C5_restoration_amended_witness :
    ('"' ∉ "Moi. Hei.".data ∧ '”' ∉ "Moi. Hei.".data ∧ '<' ∉ "Moi. Hei.".data ∧
      rwRun trySufStart (preSufText "Moi. Hei.".data) = preSufText "Moi. Hei.".data) ∧
    nonWs (joinWithSpaces ((split_into_sentences "Moi. Hei.").map String.data)) =
      nonWs "Moi. Hei.".data :=
  ⟨⟨by decide, by decide, by decide, by decide⟩,
    C5_restoration_amended "Moi. Hei." (by decide) (by decide) (by decide)
      (by decide)⟩
